import Mathlib

/-!
# Shortest paths (Djikstra.cc) and spanning trees (Prim.cc)

A shallow embedding of the two programs of the repository, followed by the
theorems that settle what their specification says about them.

Modelling conventions

* `vector<X>` is `List X`; a vertex index (`ll` in the source) is a `Nat`.
  Every indexed access of the source is bounds-checked here: an access
  outside the vector (undefined behaviour in C++) makes the embedded function
  stop with `Fault.outOfBounds`.
* The weight type `T` (`double` in the source) is encoded in `Int`: the
  integer `k` stands for the double `k * 2^-1074`.  Every finite double is
  such a multiple (`2^-1074` is the smallest positive one), `1.0` is `ulps`,
  and `INFK` and `-INFK` stand for the two infinities.  `roundD` rounds an
  integer to the nearest double, ties to even, as IEEE 754 prescribes for
  binary64 (53 significant bits, overflow to infinity); `IsDouble` singles
  out the integers that encode a double.  The sum of two doubles is `dadd`,
  the exact sum rounded; `>` on doubles is `>` on their encodings; the
  conversion of a `long long` or of an integer literal is `ofLL`.  The two
  zeros are one value here.  NaN has no encoding: a graph with a NaN weight
  and an accumulator that starts as NaN are not inputs here, and a sum of two
  infinities of opposite sign, NaN in the source, is `dadd`'s first operand.
  Where a theorem says which number is computed from weights of both signs,
  the weights are finite (`FiniteWeights`): then no sum is NaN.
* `std::priority_queue` is library code.  The algorithms are written against
  the interface `PriorityQueue`; `LawfulPQ` states what the C++ standard
  promises of it (the element removed is one that the comparison object puts
  below no other element, which element among equals is left open).
  `stdHeap` is the binary heap of libstdc++ (`std::push_heap` and
  `std::pop_heap` of `bits/stl_heap.h`); it is proved to be lawful, and the
  statements that depend on how ties are broken are evaluated on it.
* `while (true)` and the `do … while` inside it are one loop here, one pop
  of the queue per pass, run with fuel; `fuelBound g` is always enough, which
  is proved, not assumed.
* `prim` declares its accumulator `T cost;` without an initializer.  The
  value it starts from is a parameter, `cost0`, of the embedded function.
* What happens during a run is read off with `runTrace`: `finalized` lists,
  in order, the entries that finalize a vertex (`djikstra`) or the vertices
  that are marked (`prim`).
-/

set_option autoImplicit false
set_option exponentiation.threshold 8192

/-! ## The type `double` -/

/-- Binary search, over the bits `2^(j-1)`, …, `1` of the exponent, for the
largest `e` with `2^(52+e) ≤ a`. -/
def expoBits : Nat → Nat → Nat → Nat
  | 0, _, e => e
  | j + 1, a, e => expoBits j a (if 2 ^ (52 + e + 2 ^ j) ≤ a then e + 2 ^ j else e)

/-- Number of low bits of `a` that a significand of 53 bits cannot hold. -/
def expo (a : Nat) : Nat := expoBits 12 a 0

/-- Round a magnitude to 53 significant bits, to nearest, ties to even. -/
def roundNat (a : Nat) : Nat :=
  let e := expo a
  let q := a / 2 ^ e
  let r := a % 2 ^ e
  if 2 * r < 2 ^ e ∨ (2 * r = 2 ^ e ∧ q % 2 = 0) then q * 2 ^ e else (q + 1) * 2 ^ e

/-- Encoding of infinity: `2^1024`, the first magnitude beyond the finite
doubles, counted in units of `2^-1074`. -/
def INFK : Nat := 2 ^ 2098

/-- Round a magnitude to a double: what rounds to `2^1024` or beyond is
infinite. -/
def roundMag (a : Nat) : Nat := if INFK ≤ a then INFK else roundNat a

/-- Round an integer number of units to the nearest double. -/
def roundD (x : Int) : Int :=
  if 0 ≤ x then (roundMag x.toNat : Int) else - (roundMag (-x).toNat : Int)

/-- Operator `+` of `double`: an infinite operand is the result, otherwise the
exact sum is rounded. -/
def dadd (a b : Int) : Int :=
  if (INFK : Int) ≤ a ∨ a ≤ -(INFK : Int) then roundD a
  else if (INFK : Int) ≤ b ∨ b ≤ -(INFK : Int) then roundD b
  else roundD (a + b)

/-- The double `1.0`, counted in units of `2^-1074`. -/
def ulps : Nat := 2 ^ 1074

/-- Conversion of a `long long`, or of an integer literal, to `double`. -/
def ofLL (n : Int) : Int := roundD (n * ulps)

/-- The integers that encode a double: the fixed points of rounding. -/
def IsDouble (x : Int) : Prop := roundD x = x

instance (x : Int) : Decidable (IsDouble x) := inferInstanceAs (Decidable (roundD x = x))

/-- The value of `c` after `c += w` for each `w` of `ws` in turn. -/
def dsum (c : Int) (ws : List Int) : Int := ws.foldl dadd c

/-! ## Data model shared by both programs -/

/-- Struct `Edge`: end vertex `v` and weight `w`, a double. -/
structure Edge where
  v : Nat
  w : Int
deriving DecidableEq, Repr

/-- Typedef `VE`: the edge sequence of one vertex. -/
abbrev VE := List Edge

/-- Typedef `VVE`: adjacency list, one edge sequence per vertex. -/
abbrev VVE := List VE

/-- Statement `g[u].push_back(e)`. -/
def pushBack (g : VVE) (u : Nat) (e : Edge) : Option VVE :=
  match g[u]? with
  | none => none
  | some es => some (g.set u (es ++ [e]))

/-- Macro `INF`, as the `double` it initializes. -/
def INF : Int := ofLL 100000001

/-- How an embedded run can fail to return a number. -/
inductive Fault where
  | outOfBounds
  | outOfFuel
deriving DecidableEq, Repr

instance : DecidableEq (Except Fault Int) := fun a b =>
  match a, b with
  | .ok x, .ok y => if h : x = y then isTrue (by rw [h]) else isFalse (fun e => h (Except.ok.inj e))
  | .error x, .error y =>
    if h : x = y then isTrue (by rw [h]) else isFalse (fun e => h (Except.error.inj e))
  | .ok _, .error _ => isFalse (fun e => Except.noConfusion e)
  | .error _, .ok _ => isFalse (fun e => Except.noConfusion e)

/-- Result of one pass through a loop body. -/
inductive Step (σ : Type) where
  | done (r : Int)
  | next (s : σ)
  | fault

/-- Iterate a loop body until it returns, with fuel. -/
def runLoop {σ : Type} (step : σ → Step σ) : Nat → σ → Except Fault Int
  | 0, _ => .error .outOfFuel
  | n + 1, s =>
    match step s with
    | .done r => .ok r
    | .fault => .error .outOfBounds
    | .next s' => runLoop step n s'

/-- Fuel that suffices for either algorithm: every stored edge is pushed at
most once, the start entry once, and one more pass sees the empty queue. -/
def fuelBound (g : VVE) : Nat := (g.map List.length).sum + 2

/-- What is observed along a run, at most one observation per pass, in
order, over the first `n` passes. -/
def runTrace {σ α : Type} (step : σ → Step σ) (obs : σ → Option α) : Nat → σ → List α
  | 0, _ => []
  | n + 1, s =>
    match step s with
    | .next s1 => (obs s).toList ++ runTrace step obs n s1
    | _ => (obs s).toList

/-! ## The priority queue -/

/-- Interface of `std::priority_queue<α, vector<α>, Compare>` as the programs
use it: `pop?` is the sequence `empty()`, `top()`, `pop()`; `toList` lists the
stored elements. -/
structure PriorityQueue (α : Type) where
  Q : Type
  empty : Q
  push : Q → α → Q
  pop? : Q → Option (α × Q)
  toList : Q → List α

/-- What the C++ standard guarantees of a priority queue with comparison
object `comp`, on the states `inv` that the operations can produce. -/
structure LawfulPQ {α : Type} (P : PriorityQueue α) (comp : α → α → Bool)
    (inv : P.Q → Prop) : Prop where
  inv_empty : inv P.empty
  toList_empty : P.toList P.empty = []
  inv_push : ∀ q x, inv q → inv (P.push q x)
  toList_push : ∀ q x, inv q → (P.toList (P.push q x)).Perm (x :: P.toList q)
  pop_none : ∀ q, inv q → P.pop? q = none → P.toList q = []
  pop_some : ∀ q x q', inv q → P.pop? q = some (x, q') →
    inv q' ∧ (P.toList q).Perm (x :: P.toList q') ∧ ∀ y ∈ P.toList q, comp x y = false

/-- Requirement on a comparison object: it is a strict weak order. -/
def StrictWeak {α : Type} (comp : α → α → Bool) : Prop :=
  (∀ a b, comp a b = true → comp b a = false) ∧
  (∀ a b c, comp a b = false → comp b c = false → comp a c = false)

/-- Heap property on the first `n` cells: no cell compares above its parent. -/
def HeapOn {α : Type} (comp : α → α → Bool) (n : Nat) (l : List α) : Prop :=
  ∀ i a b, 0 < i → i < n → l[(i - 1) / 2]? = some a → l[i]? = some b → comp a b = false

/-- Heap property of a vector with a hole into which `value` is about to be
written: cells not next to the hole are in order, `value` is not below the
children of the hole, and these are not above the parent of the hole. -/
def HoleHeap {α : Type} (comp : α → α → Bool) (n : Nat) (value : α) (l : List α)
    (hole : Nat) : Prop :=
  (∀ i a b, 0 < i → i < n → i ≠ hole → (i - 1) / 2 ≠ hole →
    l[(i - 1) / 2]? = some a → l[i]? = some b → comp a b = false) ∧
  (∀ i b, 0 < i → i < n → (i - 1) / 2 = hole → l[i]? = some b → comp value b = false) ∧
  (∀ i a b, 0 < i → i < n → (i - 1) / 2 = hole → 0 < hole →
    l[(hole - 1) / 2]? = some a → l[i]? = some b → comp a b = false)

/-- Loop of `std::__push_heap`: move the hole up while the parent compares
below `value`, then store `value` in the hole. -/
def pushHeapAux {α : Type} (comp : α → α → Bool) (topIndex : Nat) (value : α) :
    Nat → List α → Nat → List α
  | 0, first, holeIndex => first.set holeIndex value
  | fuel + 1, first, holeIndex =>
    let parent := (holeIndex - 1) / 2
    if holeIndex > topIndex then
      match first[parent]? with
      | some p =>
        if comp p value then pushHeapAux comp topIndex value fuel (first.set holeIndex p) parent
        else first.set holeIndex value
      | none => first.set holeIndex value
    else first.set holeIndex value

/-- Function `std::__push_heap`. -/
def pushHeap {α : Type} (comp : α → α → Bool) (first : List α) (holeIndex topIndex : Nat)
    (value : α) : List α :=
  pushHeapAux comp topIndex value holeIndex first holeIndex

/-- First loop of `std::__adjust_heap`: move the hole down to a leaf, each
time pulling up the child that does not compare below its sibling. Returns
the vector and the final hole. -/
def adjustDown {α : Type} (comp : α → α → Bool) (len : Nat) :
    Nat → List α → Nat → List α × Nat
  | 0, first, holeIndex => (first, holeIndex)
  | fuel + 1, first, holeIndex =>
    if holeIndex < (len - 1) / 2 then
      let secondChild := 2 * (holeIndex + 1)
      match first[secondChild]?, first[secondChild - 1]? with
      | some r, some l =>
        if comp r l then adjustDown comp len fuel (first.set holeIndex l) (secondChild - 1)
        else adjustDown comp len fuel (first.set holeIndex r) secondChild
      | _, _ => (first, holeIndex)
    else (first, holeIndex)

/-- Function `std::__adjust_heap`. -/
def adjustHeap {α : Type} (comp : α → α → Bool) (first : List α) (holeIndex len : Nat)
    (value : α) : List α :=
  let topIndex := holeIndex
  let (first1, hole1) := adjustDown comp len len first holeIndex
  let (first2, hole2) :=
    if len % 2 = 0 ∧ hole1 = (len - 2) / 2 then
      let secondChild := 2 * (hole1 + 1)
      match first1[secondChild - 1]? with
      | some l => (first1.set hole1 l, secondChild - 1)
      | none => (first1, hole1)
    else (first1, hole1)
  pushHeap comp first2 hole2 topIndex value

/-- Member `priority_queue::push`: `push_back` then `std::push_heap`. -/
def stdPush {α : Type} (comp : α → α → Bool) (c : List α) (x : α) : List α :=
  pushHeap comp (c ++ [x]) c.length 0 x

/-- Members `empty`, `top`, `pop` in sequence: `top` is the front of the
vector; `pop` is `std::pop_heap` (which moves the front to the back and
re-adjusts the rest around the former last element) then `pop_back`. -/
def stdPop? {α : Type} (comp : α → α → Bool) (c : List α) : Option (α × List α) :=
  match c with
  | [] => none
  | top :: rest =>
    match rest.getLast? with
    | none => some (top, [])
    | some value =>
      let c1 := c.set (c.length - 1) top
      some (top, (adjustHeap comp c1 0 (c.length - 1) value).dropLast)

/-- The priority queue of libstdc++: a binary heap stored in a vector. -/
def stdHeap {α : Type} (comp : α → α → Bool) : PriorityQueue α where
  Q := List α
  empty := []
  push := stdPush comp
  pop? := stdPop? comp
  toList := fun c => c

/-! ## Djikstra.cc -/

namespace Djikstra

/-- Struct `Node`: vertex number `v` and current cost of visiting `c`, a
double. -/
structure Node where
  v : Nat
  c : Int
deriving DecidableEq, Repr

/-- Class `priority`: `n1` is below `n2` when its cost is larger. -/
def priority (n1 n2 : Node) : Bool := decide (n1.c > n2.c)

/-- A comparison object that orders as `priority` does and, among entries of
equal cost, puts the larger vertex number below: a second way of breaking
ties, to compare runs with. -/
def priorityByVertex (n1 n2 : Node) : Bool :=
  decide (n1.c > n2.c ∨ (n1.c = n2.c ∧ n1.v > n2.v))

/-- Local variables of `djikstra` that live across iterations. -/
structure State (P : PriorityQueue Node) where
  dist : List Int
  vis : List Bool
  pq : P.Q

/-- The `for` loop over `g[cur.v]`: push `(e.v, dist[cur.v] + e.w)` for every
edge `e` whose end vertex is not yet visited. -/
def relax (P : PriorityQueue Node) (dist : List Int) (vis : List Bool) (curv : Nat) :
    VE → P.Q → Option P.Q
  | [], pq => some pq
  | e :: es, pq =>
    match vis[e.v]?, dist[curv]? with
    | some true, _ => relax P dist vis curv es pq
    | some false, some d => relax P dist vis curv es (P.push pq ⟨e.v, dadd d e.w⟩)
    | _, _ => none

/-- One pop of the queue inside `while (true)`: a pop of a visited vertex
repeats the `do … while`, a pop of an unvisited one finalizes it. -/
def step (P : PriorityQueue Node) (t : Nat) (g : VVE) (st : State P) : Step (State P) :=
  match P.pop? st.pq with
  | none => .done (ofLL (-1))
  | some (cur, pq1) =>
    match st.vis[cur.v]? with
    | none => .fault
    | some true => .next ⟨st.dist, st.vis, pq1⟩
    | some false =>
      let vis1 := st.vis.set cur.v true
      if cur.v = t then .done cur.c
      else
        let dist1 := st.dist.set cur.v cur.c
        match g[cur.v]? with
        | none => .fault
        | some es =>
          match relax P dist1 vis1 cur.v es pq1 with
          | none => .fault
          | some pq2 => .next ⟨dist1, vis1, pq2⟩

/-- State before the first iteration. -/
def init (P : PriorityQueue Node) (s : Nat) (g : VVE) : State P :=
  ⟨(List.replicate g.length INF).set s 0, List.replicate g.length false,
    P.push P.empty ⟨s, 0⟩⟩

/-- Function `djikstra(s, t, g)`. -/
def djikstra (P : PriorityQueue Node) (s t : Nat) (g : VVE) : Except Fault Int :=
  if s < g.length then runLoop (step P t g) (fuelBound g) (init P s g)
  else .error .outOfBounds

/-- The graph built by `main`. -/
def mainGraph : VVE :=
  [[⟨1, ofLL 1⟩, ⟨2, ofLL 5⟩], [⟨2, ofLL 2⟩], [⟨3, ofLL 3⟩], [⟨1, ofLL 1⟩], []]

/-- A graph with a negative edge: 0 -> 1 of weight 2, 0 -> 2 of weight 3 and
2 -> 1 of weight -2. -/
def negGraph : VVE := [[⟨1, ofLL 2⟩, ⟨2, ofLL 3⟩], [], [⟨1, ofLL (-2)⟩]]

end Djikstra

/-! ## Prim.cc -/

namespace Prim

/-- Class `priority`: `e1` is below `e2` when its weight is larger. -/
def priority (e1 e2 : Edge) : Bool := decide (e1.w > e2.w)

/-- Function `addEdge(u, v, w, g)`: two `push_back`s; the weight `w` is a
`long long` that the constructor of `Edge` converts to `double`. -/
def addEdge (u v : Nat) (w : Int) (g : VVE) : Option VVE :=
  match pushBack g u ⟨v, ofLL w⟩ with
  | none => none
  | some g1 => pushBack g1 v ⟨u, ofLL w⟩

/-- Local variables of `prim` that live across iterations; `i` is the
counter of the outer `for`. -/
structure State (P : PriorityQueue Edge) where
  cost : Int
  vis : List Bool
  pq : P.Q
  i : Nat

/-- The `for` loop over `g[x]`: push every edge whose end vertex is not yet
visited. -/
def pushEdges (P : PriorityQueue Edge) (vis : List Bool) : VE → P.Q → Option P.Q
  | [], pq => some pq
  | e :: es, pq =>
    match vis[e.v]? with
    | some true => pushEdges P vis es pq
    | some false => pushEdges P vis es (P.push pq e)
    | none => none

/-- One pop of the queue inside the outer `for`: a pop of a visited vertex
repeats the `do … while`, a pop of an unvisited one accepts the edge and ends
the iteration.  The bound `g.size() - 1` is computed in `size_t`; the loop is
only reached after `g[s]` was read, so `g.size() ≥ 1` and the subtraction
does not wrap. -/
def step (P : PriorityQueue Edge) (g : VVE) (st : State P) : Step (State P) :=
  if st.i < g.length - 1 then
    match P.pop? st.pq with
    | none => .done st.cost
    | some (cur, pq1) =>
      match st.vis[cur.v]? with
      | none => .fault
      | some true => .next ⟨st.cost, st.vis, pq1, st.i⟩
      | some false =>
        let vis1 := st.vis.set cur.v true
        let cost1 := dadd st.cost cur.w
        match g[cur.v]? with
        | none => .fault
        | some es =>
          match pushEdges P vis1 es pq1 with
          | none => .fault
          | some pq2 => .next ⟨cost1, vis1, pq2, st.i + 1⟩
  else .done st.cost

/-- Function `prim(s, g)`.  The source declares `T cost;` without an
initializer and only ever adds to it, so the value `cost` starts from is
whatever the stack held: it is the parameter `cost0`. -/
def prim (P : PriorityQueue Edge) (cost0 : Int) (s : Nat) (g : VVE) : Except Fault Int :=
  match g[s]? with
  | none => .error .outOfBounds
  | some es =>
    let vis := (List.replicate g.length false).set s true
    match pushEdges P vis es P.empty with
    | none => .error .outOfBounds
    | some pq => runLoop (step P g) (fuelBound g) ⟨cost0, vis, pq, 0⟩

/-- The graph built by `main` (the empty graph if an `addEdge` were out of
bounds, which none is). -/
def mainGraph : VVE :=
  ((some (List.replicate 5 [])) >>= addEdge 0 1 1 >>= addEdge 0 2 5 >>= addEdge 1 2 2
    >>= addEdge 2 3 3 >>= addEdge 3 1 1).getD []

end Prim

/-! ## Paths -/

/-- Following the edges of `p` one after another from `a` uses stored edges
only and ends at `b`. -/
def IsPath (g : VVE) : Nat → List Edge → Nat → Prop
  | a, [], b => a = b
  | a, e :: p, b => e ∈ g.getD a [] ∧ IsPath g e.v p b

/-- Whether a sequence of edges is a path can be computed. -/
def IsPath.dec (g : VVE) : ∀ (a : Nat) (p : List Edge) (b : Nat), Decidable (IsPath g a p b)
  | a, [], b => inferInstanceAs (Decidable (a = b))
  | a, e :: p, b =>
    match IsPath.dec g e.v p b with
    | isTrue h2 =>
      if h1 : e ∈ g.getD a [] then isTrue ⟨h1, h2⟩ else isFalse (fun h => h1 h.1)
    | isFalse h2 => isFalse (fun h => h2 h.2)

instance (g : VVE) (a : Nat) (p : List Edge) (b : Nat) : Decidable (IsPath g a p b) :=
  IsPath.dec g a p b

/-- Total weight of a sequence of edges, exactly. -/
def pathCost (p : List Edge) : Int := (p.map Edge.w).sum

/-- Cost of a path as `djikstra` computes it: the weights are added in
`double`, one after another from the start of the path, to `c`. -/
def costFrom (c : Int) (p : List Edge) : Int := dsum c (p.map Edge.w)

/-- Cost of a path from the start vertex as `djikstra` computes it. -/
def costD (p : List Edge) : Int := costFrom 0 p

/-- Every stored edge ends at a vertex of the graph. -/
def ValidGraph (g : VVE) : Prop := ∀ es ∈ g, ∀ e ∈ es, e.v < g.length

/-- No stored edge has a negative weight. -/
def NonNeg (g : VVE) : Prop := ∀ es ∈ g, ∀ e ∈ es, 0 ≤ e.w

/-- Number of stored edges that leave a vertex not yet visited. -/
def pendingEdges : List Bool → VVE → Nat
  | false :: vs, es :: g => es.length + pendingEdges vs g
  | true :: vs, _ :: g => pendingEdges vs g
  | _, _ => 0

namespace Djikstra

/-- Shape of the state of `djikstra` at the head of the loop. -/
structure WF (P : PriorityQueue Node) (inv : P.Q → Prop) (g : VVE) (st : State P) : Prop where
  dist_len : st.dist.length = g.length
  vis_len : st.vis.length = g.length
  pq_inv : inv st.pq
  pq_lt : ∀ x ∈ P.toList st.pq, x.v < g.length

/-- Bound on the number of pops still to come. -/
def pops (P : PriorityQueue Node) (g : VVE) (st : State P) : Nat :=
  (P.toList st.pq).length + pendingEdges st.vis g

/-- Entries pushed when `cur` is finalized in a state with flags `vis`. -/
def pushed (g : VVE) (vis : List Bool) (cur : Node) : List Node :=
  ((g.getD cur.v []).filter (fun e => decide ((vis.set cur.v true)[e.v]? = some false))).map
    (fun e => (⟨e.v, dadd cur.c e.w⟩ : Node))

/-- Entries of the queue are costs of paths from `s`. -/
def EntriesArePaths (P : PriorityQueue Node) (g : VVE) (s : Nat) (st : State P) : Prop :=
  ∀ x ∈ P.toList st.pq, ∃ p, IsPath g s p x.v ∧ costD p = x.c

/-- The invariant behind the early exit: a visited vertex carries its least
path cost, the target is not yet visited, and every edge from a visited to
an unvisited vertex is represented in the queue. -/
structure Opt (P : PriorityQueue Node) (g : VVE) (s t : Nat) (st : State P) : Prop where
  vis_path : ∀ u, st.vis[u]? = some true → ∃ p, IsPath g s p u ∧ costD p = st.dist.getD u 0
  vis_min : ∀ u, st.vis[u]? = some true → ∀ p, IsPath g s p u → st.dist.getD u 0 ≤ costD p
  vis_ne : st.vis[t]? ≠ some true
  frontier : ∀ u, st.vis[u]? = some true → ∀ e ∈ g.getD u [], st.vis[e.v]? = some false →
    (⟨e.v, dadd (st.dist.getD u 0) e.w⟩ : Node) ∈ P.toList st.pq
  start : st.vis[s]? = some true ∨ (⟨s, 0⟩ : Node) ∈ P.toList st.pq

/-- The entry that the next pass finalizes, if it finalizes one: the entry
popped, when its vertex is not yet visited. -/
def finalizes (P : PriorityQueue Node) (st : State P) : Option Node :=
  match P.pop? st.pq with
  | none => none
  | some (cur, _) =>
    match st.vis[cur.v]? with
    | some false => some cur
    | _ => none

/-- The entries `(v, c)` that finalize a vertex in the first `n` passes of
`djikstra(s, t, g)`, in order. -/
def finalized (P : PriorityQueue Node) (s t : Nat) (g : VVE) (n : Nat) : List Node :=
  runTrace (step P t g) (finalizes P) n (init P s g)

end Djikstra

/-- An arc is a stored edge together with the vertex it leaves. -/
abbrev Arc := Nat × Edge

/-- Every arc of `T` is an edge stored in `g`. -/
def StoredArcs (g : VVE) (T : List Arc) : Prop := ∀ a ∈ T, a.2 ∈ g.getD a.1 []

/-- The graph on `n` vertices with exactly the arcs of `T`. -/
def arcGraph (n : Nat) (T : List Arc) : VVE :=
  (List.range n).map (fun u => (T.filter (fun a => decide (a.1 = u))).map (fun a => a.2))

/-- Total weight of a list of arcs, exactly. -/
def treeWeight (T : List Arc) : Int := (T.map (fun a => a.2.w)).sum

/-- The value of the accumulator of `prim` after the weights of the arcs of
`T` were added to `c` in `double`, one after another. -/
def accumulate (c : Int) (T : List Arc) : Int := dsum c (T.map (fun a => a.2.w))

/-- A spanning tree rooted at `s`: `N - 1` stored edges along which every
vertex is reachable from `s`. -/
def SpanningTree (g : VVE) (s : Nat) (T : List Arc) : Prop :=
  StoredArcs g T ∧ T.length = g.length - 1 ∧
    ∀ v, v < g.length → ∃ p, IsPath (arcGraph g.length T) s p v

/-- A tree of the component of `s`: stored edges that enter pairwise distinct
vertices, each of them reachable from `s` and none of them `s`, along which
every vertex reachable from `s` is reachable from `s`. -/
def CompTree (g : VVE) (s : Nat) (T : List Arc) : Prop :=
  StoredArcs g T ∧ (T.map (fun a => a.2.v)).Nodup ∧
    (∀ a ∈ T, a.2.v ≠ s ∧ ∃ p, IsPath g s p a.2.v) ∧
    ∀ v, (∃ p, IsPath g s p v) → ∃ p, IsPath (arcGraph g.length T) s p v

namespace Prim

/-- Shape of the state of `prim` at the head of the loop. -/
structure WF (P : PriorityQueue Edge) (inv : P.Q → Prop) (g : VVE) (st : State P) : Prop where
  vis_len : st.vis.length = g.length
  pq_inv : inv st.pq
  pq_lt : ∀ x ∈ P.toList st.pq, x.v < g.length

/-- Bound on the number of pops still to come. -/
def pops (P : PriorityQueue Edge) (g : VVE) (st : State P) : Nat :=
  (P.toList st.pq).length + pendingEdges st.vis g

/-- Edges pushed when vertex `x` has just been marked in `vis`. -/
def pushed (g : VVE) (vis : List Bool) (x : Nat) : List Edge :=
  (g.getD x []).filter (fun e => decide (vis[e.v]? = some false))

/-- The edge that the next pass accepts, if it accepts one: the edge popped
inside the outer `for`, when its end is not yet visited. -/
def accepts (P : PriorityQueue Edge) (g : VVE) (st : State P) : Option Edge :=
  if st.i < g.length - 1 then
    match P.pop? st.pq with
    | none => none
    | some (cur, _) =>
      match st.vis[cur.v]? with
      | some false => some cur
      | _ => none
  else none

/-- The vertices marked visited by `prim(s, g)`, in order: the start vertex,
then the ends of the edges accepted in the first `n` passes. -/
def finalized (P : PriorityQueue Edge) (cost0 : Int) (s : Nat) (g : VVE) (n : Nat) : List Nat :=
  match g[s]? with
  | none => []
  | some es =>
    let vis := (List.replicate g.length false).set s true
    match pushEdges P vis es P.empty with
    | none => [s]
    | some pq => s :: (runTrace (step P g) (accepts P g) n ⟨cost0, vis, pq, 0⟩).map Edge.v

/-- The edges accepted by `prim(s, g)`, in order. -/
def accepted (P : PriorityQueue Edge) (s : Nat) (g : VVE) : List Edge :=
  match g[s]? with
  | none => []
  | some es =>
    let vis := (List.replicate g.length false).set s true
    match pushEdges P vis es P.empty with
    | none => []
    | some pq => runTrace (step P g) (accepts P g) (fuelBound g) ⟨0, vis, pq, 0⟩

/-- The invariant of the tree under construction: `T` lists the accepted
edges, each with the visited vertex it was pushed from. -/
structure TreeInv (P : PriorityQueue Edge) (g : VVE) (s : Nat) (cost0 : Int) (st : State P)
    (T : List Arc) : Prop where
  cost_eq : st.cost = accumulate cost0 T
  count : T.length = st.i
  stored : StoredArcs g T
  heads : ∀ a ∈ T, st.vis[a.2.v]? = some true ∧ a.2.v ≠ s
  nodup : (T.map (fun a => a.2.v)).Nodup
  reach : ∀ v, st.vis[v]? = some true → ∃ p, IsPath (arcGraph g.length T) s p v
  entries : ∀ e ∈ P.toList st.pq, ∃ u, st.vis[u]? = some true ∧ e ∈ g.getD u []
  visCount : st.vis.count true = st.i + 1
  frontier : ∀ u, st.vis[u]? = some true → ∀ e ∈ g.getD u [], st.vis[e.v]? = some false →
    e ∈ P.toList st.pq
  start : st.vis[s]? = some true

/-- What the tree invariant gives when `prim` returns `r`: the accepted edges
`T`, whose weights were added to the accumulator one after another, form a
tree of the component of `s`, one edge for each visited vertex but `s`, and
the visited vertices are the reachable ones. -/
def TreeResult (g : VVE) (s : Nat) (cost0 r : Int) (T : List Arc) : Prop :=
  r = accumulate cost0 T ∧ CompTree g s T ∧
    ∃ vis : List Bool, vis.length = g.length ∧ T.length + 1 = vis.count true ∧
      ∀ v, (∃ p, IsPath g s p v) → vis[v]? = some true

end Prim

/-! # Verification -/

/-! ## The arithmetic of `double` -/

theorem expoBits_spec : ∀ (j a e : Nat), (e = 0 ∨ 2 ^ (52 + e) ≤ a) → a < 2 ^ (52 + e + 2 ^ j) →
    (expoBits j a e = 0 ∨ 2 ^ (52 + expoBits j a e) ≤ a) ∧ a < 2 ^ (53 + expoBits j a e)
  | 0, a, e, h1, h2 => by
    simp only [expoBits]
    refine ⟨h1, ?_⟩
    have : 52 + e + 2 ^ 0 = 53 + e := by simp; omega
    rwa [this] at h2
  | j + 1, a, e, h1, h2 => by
    simp only [expoBits]
    by_cases h : 2 ^ (52 + e + 2 ^ j) ≤ a
    · rw [if_pos h]
      refine expoBits_spec j a (e + 2 ^ j) (Or.inr ?_) ?_
      · rwa [← Nat.add_assoc]
      · have : 52 + (e + 2 ^ j) + 2 ^ j = 52 + e + 2 ^ (j + 1) := by rw [pow_succ]; omega
        rwa [this]
    · rw [if_neg h]
      exact expoBits_spec j a e h1 (Nat.lt_of_not_le h)

theorem expo_spec (a : Nat) (ha : a < 2 ^ 4148) :
    (expo a = 0 ∨ 2 ^ (52 + expo a) ≤ a) ∧ a < 2 ^ (53 + expo a) :=
  expoBits_spec 12 a 0 (Or.inl rfl) (by simpa using ha)

theorem expo_eq (a k : Nat) (ha : a < 2 ^ 4148) (h1 : k = 0 ∨ 2 ^ (52 + k) ≤ a)
    (h2 : a < 2 ^ (53 + k)) : expo a = k := by
  obtain ⟨h3, h4⟩ := expo_spec a ha
  rcases Nat.lt_trichotomy (expo a) k with h | h | h
  · exfalso
    rcases h1 with h1 | h1
    · omega
    · have : 2 ^ (53 + expo a) ≤ 2 ^ (52 + k) := Nat.pow_le_pow_right (by decide) (by omega)
      omega
  · exact h
  · exfalso
    rcases h3 with h3 | h3
    · omega
    · have : 2 ^ (53 + k) ≤ 2 ^ (52 + expo a) := Nat.pow_le_pow_right (by decide) (by omega)
      omega

theorem expo_mono (a b : Nat) (hb : b < 2 ^ 4148) (hab : a ≤ b) : expo a ≤ expo b := by
  obtain ⟨h3, _⟩ := expo_spec a (Nat.lt_of_le_of_lt hab hb)
  obtain ⟨_, h6⟩ := expo_spec b hb
  rcases h3 with h3 | h3
  · omega
  · by_contra hlt
    have : 2 ^ (53 + expo b) ≤ 2 ^ (52 + expo a) := Nat.pow_le_pow_right (by decide) (by omega)
    omega

/-- Quotient and remainder facts of the rounding grid -/
theorem roundNat_bounds (a : Nat) (ha : a < 2 ^ 4148) :
    a / 2 ^ expo a * 2 ^ expo a ≤ roundNat a ∧ roundNat a ≤ (a / 2 ^ expo a + 1) * 2 ^ expo a ∧
    a / 2 ^ expo a < 2 ^ 53 ∧ (expo a ≠ 0 → 2 ^ 52 ≤ a / 2 ^ expo a) := by
  obtain ⟨h3, h4⟩ := expo_spec a ha
  have hpos : 0 < 2 ^ expo a := Nat.two_pow_pos _
  refine ⟨?_, ?_, ?_, ?_⟩
  · unfold roundNat
    simp only
    split
    · exact Nat.le_refl _
    · exact Nat.mul_le_mul_right _ (Nat.le_succ _)
  · unfold roundNat
    simp only
    split
    · exact Nat.mul_le_mul_right _ (Nat.le_succ _)
    · exact Nat.le_refl _
  · rw [Nat.div_lt_iff_lt_mul hpos, ← pow_add]
    exact h4
  · intro hne
    rcases h3 with h3 | h3
    · exact absurd h3 hne
    · rw [Nat.le_div_iff_mul_le hpos, ← pow_add]
      exact h3

theorem roundNat_mono (a b : Nat) (hb : b < 2 ^ 4148) (hab : a ≤ b) :
    roundNat a ≤ roundNat b := by
  have ha : a < 2 ^ 4148 := Nat.lt_of_le_of_lt hab hb
  obtain ⟨_, ha2, ha3, _⟩ := roundNat_bounds a ha
  obtain ⟨hb1, _, _, hb4⟩ := roundNat_bounds b hb
  have he := expo_mono a b hb hab
  rcases Nat.lt_or_eq_of_le he with hlt | heq
  · have h52 := hb4 (by omega)
    calc roundNat a ≤ (a / 2 ^ expo a + 1) * 2 ^ expo a := ha2
      _ ≤ 2 ^ 53 * 2 ^ expo a := Nat.mul_le_mul_right _ ha3
      _ = 2 ^ (53 + expo a) := (pow_add 2 53 (expo a)).symm
      _ ≤ 2 ^ (52 + expo b) := Nat.pow_le_pow_right (by decide) (by omega)
      _ = 2 ^ 52 * 2 ^ expo b := pow_add 2 52 (expo b)
      _ ≤ b / 2 ^ expo b * 2 ^ expo b := Nat.mul_le_mul_right _ h52
      _ ≤ roundNat b := hb1
  · have hq : a / 2 ^ expo a ≤ b / 2 ^ expo a := Nat.div_le_div_right hab
    rw [← heq] at hb1
    rcases Nat.lt_or_eq_of_le hq with hqlt | hqeq
    · calc roundNat a ≤ (a / 2 ^ expo a + 1) * 2 ^ expo a := ha2
        _ ≤ b / 2 ^ expo a * 2 ^ expo a := Nat.mul_le_mul_right _ hqlt
        _ ≤ roundNat b := hb1
    · have hra : a % 2 ^ expo a ≤ b % 2 ^ expo a := by
        have h1 := Nat.div_add_mod a (2 ^ expo a)
        have h2 := Nat.div_add_mod b (2 ^ expo a)
        rw [hqeq] at h1
        omega
      unfold roundNat
      simp only
      rw [← heq, ← hqeq]
      by_cases hdb : 2 * (b % 2 ^ expo a) < 2 ^ expo a ∨
          (2 * (b % 2 ^ expo a) = 2 ^ expo a ∧ (a / 2 ^ expo a) % 2 = 0)
      · have hda : 2 * (a % 2 ^ expo a) < 2 ^ expo a ∨
            (2 * (a % 2 ^ expo a) = 2 ^ expo a ∧ (a / 2 ^ expo a) % 2 = 0) := by
          rcases hdb with h | ⟨h, h'⟩
          · left; omega
          · rcases Nat.lt_or_eq_of_le hra with h'' | h''
            · left; omega
            · right; exact ⟨by omega, h'⟩
        rw [if_pos hda, if_pos hdb]
      · rw [if_neg hdb]
        split
        · exact Nat.mul_le_mul_right _ (Nat.le_succ _)
        · exact Nat.le_refl _

theorem roundNat_exact (m k : Nat) (hm : m ≤ 2 ^ 53) (hv : m * 2 ^ k < 2 ^ 4148) :
    roundNat (m * 2 ^ k) = m * 2 ^ k := by
  obtain ⟨h3, h4⟩ := expo_spec _ hv
  have hdvd : 2 ^ expo (m * 2 ^ k) ∣ m * 2 ^ k := by
    by_cases hek : expo (m * 2 ^ k) ≤ k
    · exact Dvd.dvd.mul_left (pow_dvd_pow 2 hek) m
    · rcases h3 with h3 | h3
      · omega
      · have h5 : m * 2 ^ k ≤ 2 ^ (53 + k) := by
          rw [pow_add]; exact Nat.mul_le_mul_right _ hm
        have h6 : 2 ^ (53 + k) ≤ 2 ^ (52 + expo (m * 2 ^ k)) :=
          Nat.pow_le_pow_right (by decide) (by omega)
        have h7 : m * 2 ^ k = 2 ^ (52 + expo (m * 2 ^ k)) := by omega
        generalize expo (m * 2 ^ k) = e at h7
        rw [h7]
        exact pow_dvd_pow 2 (by omega)
  unfold roundNat
  simp only
  rw [Nat.mod_eq_zero_of_dvd hdvd, if_pos (Or.inl (by simp))]
  exact Nat.div_mul_cancel hdvd

theorem roundNat_pow (k : Nat) (hk : k < 4148) : roundNat (2 ^ k) = 2 ^ k := by
  have := roundNat_exact 1 k (Nat.one_le_two_pow) (by
    rw [Nat.one_mul]; exact Nat.pow_lt_pow_right (by decide) hk)
  rwa [Nat.one_mul] at this

theorem roundNat_idem (a : Nat) (ha : a < 2 ^ 4147) : roundNat (roundNat a) = roundNat a := by
  have ha' : a < 2 ^ 4148 := Nat.lt_of_lt_of_le ha (Nat.pow_le_pow_right (by decide) (by decide))
  obtain ⟨_, _, h3, _⟩ := roundNat_bounds a ha'
  have hform : ∃ m, m ≤ 2 ^ 53 ∧ roundNat a = m * 2 ^ expo a := by
    unfold roundNat
    simp only
    split
    · exact ⟨_, Nat.le_of_lt h3, rfl⟩
    · exact ⟨_, h3, rfl⟩
  obtain ⟨m, hm, hr⟩ := hform
  have hle : roundNat a ≤ roundNat (2 ^ 4147) :=
    roundNat_mono a _ (Nat.pow_lt_pow_right (by decide) (by decide)) (Nat.le_of_lt ha)
  rw [roundNat_pow 4147 (by decide)] at hle
  rw [hr]
  apply roundNat_exact m _ hm
  rw [← hr]
  exact Nat.lt_of_le_of_lt hle (Nat.pow_lt_pow_right (by decide) (by decide))

theorem INFK_lt : INFK < 2 ^ 4147 := Nat.pow_lt_pow_right (by decide) (by decide)

theorem INFK_lt' : INFK < 2 ^ 4148 := Nat.pow_lt_pow_right (by decide) (by decide)

theorem roundNat_INFK : roundNat INFK = INFK := roundNat_pow 2098 (by decide)

theorem roundMag_le (a : Nat) : roundMag a ≤ INFK := by
  unfold roundMag
  split
  · exact Nat.le_refl _
  · next h =>
    have := roundNat_mono a INFK INFK_lt' (Nat.le_of_lt (Nat.lt_of_not_le h))
    rwa [roundNat_INFK] at this

theorem roundMag_of_le (a : Nat) (h : INFK ≤ a) : roundMag a = INFK := by
  unfold roundMag; rw [if_pos h]

theorem roundMag_mono (a b : Nat) (hab : a ≤ b) : roundMag a ≤ roundMag b := by
  by_cases hb : INFK ≤ b
  · rw [roundMag_of_le b hb]; exact roundMag_le a
  · have ha : ¬ INFK ≤ a := fun h => hb (Nat.le_trans h hab)
    unfold roundMag
    rw [if_neg ha, if_neg hb]
    exact roundNat_mono a b (Nat.lt_trans (Nat.lt_of_not_le hb) INFK_lt') hab

theorem roundMag_idem (a : Nat) : roundMag (roundMag a) = roundMag a := by
  by_cases ha : INFK ≤ a
  · rw [roundMag_of_le a ha, roundMag_of_le INFK (Nat.le_refl _)]
  · have h1 : roundMag a = roundNat a := by unfold roundMag; rw [if_neg ha]
    rw [h1]
    by_cases hr : INFK ≤ roundNat a
    · have h2 := roundMag_le a
      rw [h1] at h2
      rw [Nat.le_antisymm h2 hr, roundMag_of_le INFK (Nat.le_refl _)]
    · unfold roundMag
      rw [if_neg hr]
      exact roundNat_idem a (Nat.lt_trans (Nat.lt_of_not_le ha) INFK_lt)

theorem roundMag_zero : roundMag 0 = 0 := by decide

theorem roundD_mono (x y : Int) (h : x ≤ y) : roundD x ≤ roundD y := by
  unfold roundD
  by_cases hx : 0 ≤ x
  · have hy : 0 ≤ y := le_trans hx h
    rw [if_pos hx, if_pos hy]
    exact Nat.cast_le.mpr (roundMag_mono _ _ (Int.toNat_le_toNat h))
  · rw [if_neg hx]
    by_cases hy : 0 ≤ y
    · rw [if_pos hy]
      have h1 : (0 : Int) ≤ ((roundMag (-x).toNat : Nat) : Int) := Nat.cast_nonneg _
      have h2 : (0 : Int) ≤ ((roundMag y.toNat : Nat) : Int) := Nat.cast_nonneg _
      omega
    · rw [if_neg hy]
      have h3 : ((roundMag (-y).toNat : Nat) : Int) ≤ ((roundMag (-x).toNat : Nat) : Int) :=
        Nat.cast_le.mpr (roundMag_mono (-y).toNat (-x).toNat (Int.toNat_le_toNat (by omega)))
      omega

theorem roundD_idem (x : Int) : roundD (roundD x) = roundD x := by
  unfold roundD
  by_cases hx : 0 ≤ x
  · rw [if_pos hx, if_pos (Nat.cast_nonneg _), Int.toNat_ofNat, roundMag_idem]
  · rw [if_neg hx]
    by_cases hz : roundMag (-x).toNat = 0
    · rw [hz]; simp [roundMag_zero]
    · have hneg : ¬ (0 : Int) ≤ -(roundMag (-x).toNat : Int) := by omega
      rw [if_neg hneg, neg_neg, Int.toNat_ofNat, roundMag_idem]

theorem roundD_bounds (x : Int) : -(INFK : Int) ≤ roundD x ∧ roundD x ≤ (INFK : Int) := by
  unfold roundD
  split
  · have h2 : ((roundMag x.toNat : Nat) : Int) ≤ ((INFK : Nat) : Int) :=
      Nat.cast_le.mpr (roundMag_le x.toNat)
    have h1 : (0 : Int) ≤ ((roundMag x.toNat : Nat) : Int) := Nat.cast_nonneg _
    omega
  · have h2 : ((roundMag (-x).toNat : Nat) : Int) ≤ ((INFK : Nat) : Int) :=
      Nat.cast_le.mpr (roundMag_le (-x).toNat)
    have h1 : (0 : Int) ≤ ((roundMag (-x).toNat : Nat) : Int) := Nat.cast_nonneg _
    omega

theorem roundD_of_le (x : Int) (h : (INFK : Int) ≤ x) : roundD x = (INFK : Int) := by
  have h1 : roundD (INFK : Int) ≤ roundD x := roundD_mono _ _ h
  have h2 : roundD (INFK : Int) = (INFK : Int) := by decide
  rw [h2] at h1
  exact le_antisymm (roundD_bounds x).2 h1

theorem roundD_of_le_neg (x : Int) (h : x ≤ -(INFK : Int)) : roundD x = -(INFK : Int) := by
  have h1 : roundD x ≤ roundD (-(INFK : Int)) := roundD_mono _ _ h
  have h2 : roundD (-(INFK : Int)) = -(INFK : Int) := by decide
  rw [h2] at h1
  exact le_antisymm h1 (roundD_bounds x).1

theorem isDouble_roundD (x : Int) : IsDouble (roundD x) := roundD_idem x

theorem dadd_bounds (a b : Int) : -(INFK : Int) ≤ dadd a b ∧ dadd a b ≤ (INFK : Int) := by
  unfold dadd
  split
  · exact roundD_bounds _
  · split
    · exact roundD_bounds _
    · exact roundD_bounds _

theorem isDouble_dadd (a b : Int) : IsDouble (dadd a b) := by
  unfold dadd
  split
  · exact isDouble_roundD _
  · split
    · exact isDouble_roundD _
    · exact isDouble_roundD _

theorem isDouble_zero : IsDouble 0 := by decide

theorem dadd_mono_left (a b w : Int) (h : a ≤ b) : dadd a w ≤ dadd b w := by
  by_cases ha : (INFK : Int) ≤ a ∨ a ≤ -(INFK : Int)
  · rcases ha with ha | ha
    · have hb : (INFK : Int) ≤ b := le_trans ha h
      have h1 : dadd a w = roundD a := by unfold dadd; rw [if_pos (Or.inl ha)]
      have h2 : dadd b w = roundD b := by unfold dadd; rw [if_pos (Or.inl hb)]
      rw [h1, h2]; exact roundD_mono _ _ h
    · have h1 : dadd a w = roundD a := by unfold dadd; rw [if_pos (Or.inr ha)]
      rw [h1, roundD_of_le_neg a ha]
      exact (dadd_bounds b w).1
  · by_cases hb : (INFK : Int) ≤ b ∨ b ≤ -(INFK : Int)
    · have hb' : (INFK : Int) ≤ b := by omega
      have h2 : dadd b w = roundD b := by unfold dadd; rw [if_pos (Or.inl hb')]
      rw [h2, roundD_of_le b hb']
      exact (dadd_bounds a w).2
    · unfold dadd
      rw [if_neg ha, if_neg hb]
      split
      · exact le_refl _
      · exact roundD_mono _ _ (by omega)

theorem dadd_mono_right (a w w' : Int) (h : w ≤ w') : dadd a w ≤ dadd a w' := by
  by_cases ha : (INFK : Int) ≤ a ∨ a ≤ -(INFK : Int)
  · unfold dadd; rw [if_pos ha, if_pos ha]
  · by_cases hw : (INFK : Int) ≤ w ∨ w ≤ -(INFK : Int)
    · rcases hw with hw | hw
      · have hw' : (INFK : Int) ≤ w' := le_trans hw h
        unfold dadd
        rw [if_neg ha, if_neg ha, if_pos (Or.inl hw), if_pos (Or.inl hw')]
        exact roundD_mono _ _ h
      · have h1 : dadd a w = roundD w := by unfold dadd; rw [if_neg ha, if_pos (Or.inr hw)]
        rw [h1, roundD_of_le_neg w hw]
        exact (dadd_bounds a w').1
    · by_cases hw' : (INFK : Int) ≤ w' ∨ w' ≤ -(INFK : Int)
      · have hw'' : (INFK : Int) ≤ w' := by omega
        have h2 : dadd a w' = roundD w' := by unfold dadd; rw [if_neg ha, if_pos (Or.inl hw'')]
        rw [h2, roundD_of_le w' hw'']
        exact (dadd_bounds a w).2
      · unfold dadd
        rw [if_neg ha, if_neg ha, if_neg hw, if_neg hw']
        exact roundD_mono _ _ (by omega)

theorem le_dadd (a w : Int) (ha : IsDouble a) (hw : 0 ≤ w) : a ≤ dadd a w := by
  have hI : (0 : Int) < (INFK : Int) := by decide
  unfold IsDouble at ha
  by_cases ha' : (INFK : Int) ≤ a ∨ a ≤ -(INFK : Int)
  · have h1 : dadd a w = roundD a := by unfold dadd; rw [if_pos ha']
    rw [h1, ha]
  · by_cases hw' : (INFK : Int) ≤ w ∨ w ≤ -(INFK : Int)
    · have hw'' : (INFK : Int) ≤ w := by omega
      have h1 : dadd a w = roundD w := by unfold dadd; rw [if_neg ha', if_pos hw']
      rw [h1, roundD_of_le w hw'']
      omega
    · have h1 : dadd a w = roundD (a + w) := by unfold dadd; rw [if_neg ha', if_neg hw']
      rw [h1]
      have := roundD_mono a (a + w) (by omega)
      rwa [ha] at this

theorem roundD_natCast (n : Nat) : roundD (n : Int) = (roundMag n : Int) := by
  unfold roundD
  rw [if_pos (Nat.cast_nonneg n), Int.toNat_ofNat]

theorem roundD_neg (x : Int) : roundD (-x) = -roundD x := by
  rcases lt_trichotomy x 0 with h | h | h
  · unfold roundD
    rw [if_pos (by omega), if_neg (by omega)]
    simp
  · subst h
    decide
  · unfold roundD
    rw [if_neg (by omega), if_pos (by omega)]
    simp

/-- Exactness: an integer of at most 53 bits, scaled by a power of two, is a double -/
theorem roundD_exact (m : Int) (k : Nat) (hm : m.natAbs ≤ 2 ^ 53) (hk : m.natAbs * 2 ^ k < INFK) :
    roundD (m * (2 ^ k : Nat)) = m * (2 ^ k : Nat) := by
  have key : roundMag (m.natAbs * 2 ^ k) = m.natAbs * 2 ^ k := by
    unfold roundMag
    rw [if_neg (Nat.not_le.mpr hk)]
    exact roundNat_exact _ _ hm (Nat.lt_trans hk INFK_lt')
  have hcast : roundD (((m.natAbs * 2 ^ k : Nat) : Int)) = ((m.natAbs * 2 ^ k : Nat) : Int) := by
    rw [roundD_natCast, key]
  rcases Int.natAbs_eq m with h | h
  · have : m * ((2 ^ k : Nat) : Int) = ((m.natAbs * 2 ^ k : Nat) : Int) := by
      rw [Nat.cast_mul, ← h]
    rw [this, hcast]
  · have : m * ((2 ^ k : Nat) : Int) = -((m.natAbs * 2 ^ k : Nat) : Int) := by
      rw [Nat.cast_mul, ← neg_mul, ← h]
    rw [this, roundD_neg, hcast]

theorem ofLL_exact (n : Int) (hn : n.natAbs ≤ 2 ^ 53) : ofLL n = n * ulps := by
  unfold ofLL ulps
  apply roundD_exact n 1074 hn
  calc n.natAbs * 2 ^ 1074 ≤ 2 ^ 53 * 2 ^ 1074 := Nat.mul_le_mul_right _ hn
    _ < INFK := by decide

theorem roundD_of_grid (e : Nat) (he : e + 53 < 2098) (x : Int) (hx : ((2 ^ e : Nat) : Int) ∣ x)
    (hlo : -((2 ^ (53 + e) : Nat) : Int) ≤ x) (hhi : x ≤ ((2 ^ (53 + e) : Nat) : Int)) :
    roundD x = x := by
  obtain ⟨m, rfl⟩ := hx
  have hpos : (0 : Int) < ((2 ^ e : Nat) : Int) := by exact_mod_cast Nat.two_pow_pos e
  have hm : m.natAbs ≤ 2 ^ 53 := by
    have h1 : ((2 ^ (53 + e) : Nat) : Int) = ((2 ^ e : Nat) : Int) * ((2 ^ 53 : Nat) : Int) := by
      rw [pow_add]; push_cast; ring
    rw [h1] at hlo hhi
    have h2 : m ≤ ((2 ^ 53 : Nat) : Int) := le_of_mul_le_mul_left hhi hpos
    have h3 : -((2 ^ 53 : Nat) : Int) ≤ m := by
      have : ((2 ^ e : Nat) : Int) * (-((2 ^ 53 : Nat) : Int)) ≤ ((2 ^ e : Nat) : Int) * m := by
        rw [mul_neg]; exact hlo
      exact le_of_mul_le_mul_left this hpos
    omega
  have hk : m.natAbs * 2 ^ e < INFK := by
    calc m.natAbs * 2 ^ e ≤ 2 ^ 53 * 2 ^ e := Nat.mul_le_mul_right _ hm
      _ = 2 ^ (53 + e) := (pow_add 2 53 e).symm
      _ < INFK := Nat.pow_lt_pow_right (by decide) (by omega)
  have := roundD_exact m e hm hk
  rw [mul_comm] at this
  exact this

/-- Within `2^53` steps of a grid `2^e`, adding doubles is exact. -/
theorem dadd_of_grid (e : Nat) (he : e + 53 < 2098) (a b : Int)
    (ha : ((2 ^ e : Nat) : Int) ∣ a) (hb : ((2 ^ e : Nat) : Int) ∣ b)
    (hla : -((2 ^ (53 + e) : Nat) : Int) ≤ a) (hha : a ≤ ((2 ^ (53 + e) : Nat) : Int))
    (hlb : -((2 ^ (53 + e) : Nat) : Int) ≤ b) (hhb : b ≤ ((2 ^ (53 + e) : Nat) : Int))
    (hlo : -((2 ^ (53 + e) : Nat) : Int) ≤ a + b) (hhi : a + b ≤ ((2 ^ (53 + e) : Nat) : Int)) :
    dadd a b = a + b := by
  have hB : ((2 ^ (53 + e) : Nat) : Int) < (INFK : Int) := by
    exact_mod_cast (Nat.pow_lt_pow_right (by decide) (by omega) : 2 ^ (53 + e) < 2 ^ 2098)
  unfold dadd
  rw [if_neg (by omega), if_neg (by omega)]
  exact roundD_of_grid e he _ (dvd_add ha hb) hlo hhi

theorem ofLL_zero : ofLL 0 = 0 := by decide

theorem dsum_cons (c w : Int) (ws : List Int) : dsum c (w :: ws) = dsum (dadd c w) ws := rfl

theorem dsum_append (c : Int) (ws vs : List Int) : dsum c (ws ++ vs) = dsum (dsum c ws) vs := by
  simp [dsum, List.foldl_append]

theorem dsum_snoc (c w : Int) (ws : List Int) : dsum c (ws ++ [w]) = dadd (dsum c ws) w := by
  rw [dsum_append]; rfl

theorem dsum_mono (ws : List Int) : ∀ (c c1 : Int), c ≤ c1 → dsum c ws ≤ dsum c1 ws := by
  induction ws with
  | nil => intro c c1 h; exact h
  | cons w ws ih =>
    intro c c1 h
    rw [dsum_cons, dsum_cons]
    exact ih _ _ (dadd_mono_left c c1 w h)

theorem le_dsum (ws : List Int) (hws : ∀ w ∈ ws, 0 ≤ w) :
    ∀ (c : Int), IsDouble c → c ≤ dsum c ws := by
  induction ws with
  | nil => intro c _; exact le_refl _
  | cons w ws ih =>
    intro c hc
    rw [dsum_cons]
    exact le_trans (le_dadd c w hc (hws w (List.mem_cons_self _ _)))
      (ih (fun x hx => hws x (List.mem_cons_of_mem _ hx)) _ (isDouble_dadd c w))

theorem runLoop_ok_succ {σ : Type} (step : σ → Step σ) (r : Int) :
    ∀ (n : Nat) (s : σ), runLoop step n s = .ok r → runLoop step (n + 1) s = .ok r := by
  intro n
  induction n with
  | zero => intro s h; simp [runLoop] at h
  | succ k ih =>
    intro s h
    rw [runLoop] at h ⊢
    cases hs : step s with
    | done r1 => rw [hs] at h; exact h
    | fault => rw [hs] at h; simp at h
    | next s1 => rw [hs] at h; exact ih s1 h

theorem runLoop_ok_mono {σ : Type} (step : σ → Step σ) (r : Int) (n m : Nat) (s : σ)
    (h : runLoop step n s = .ok r) (hnm : n ≤ m) : runLoop step m s = .ok r := by
  induction hnm with
  | refl => exact h
  | step _ ih => exact runLoop_ok_succ step r _ s ih

/-- Hoare-style rule for a loop run with fuel: an invariant that excludes the
fault, is kept by every pass and comes with a measure that every pass
decreases yields a returned value that satisfies what the invariant implies
at exit. -/
theorem runLoop_rule {σ : Type} (step : σ → Step σ) (I : σ → Prop) (μ : σ → Nat)
    (Post : Int → Prop)
    (hfault : ∀ s, I s → step s ≠ .fault)
    (hnext : ∀ s s1, I s → step s = .next s1 → I s1 ∧ μ s1 < μ s)
    (hdone : ∀ s r, I s → step s = .done r → Post r) :
    ∀ (n : Nat) (s : σ), I s → μ s < n → ∃ r, runLoop step n s = .ok r ∧ Post r := by
  intro n
  induction n with
  | zero => intro s _ h; omega
  | succ k ih =>
    intro s hI hμ
    rw [runLoop]
    cases hs : step s with
    | done r => exact ⟨r, rfl, hdone s r hI hs⟩
    | fault => exact absurd hs (hfault s hI)
    | next s1 =>
      obtain ⟨hI1, hlt⟩ := hnext s s1 hI hs
      exact ih s1 hI1 (by omega)

/-! ## Paths: basic facts -/

theorem mem_getD_iff (g : VVE) (a : Nat) (e : Edge) :
    e ∈ g.getD a [] ↔ ∃ es, g[a]? = some es ∧ e ∈ es := by
  rw [List.getD_eq_getElem?_getD]
  cases h : g[a]? with
  | none => simp
  | some es => simp

theorem isPath_snoc (g : VVE) (e : Edge) :
    ∀ (p : List Edge) (a b : Nat), IsPath g a p b → e ∈ g.getD b [] →
      IsPath g a (p ++ [e]) e.v := by
  intro p
  induction p with
  | nil =>
    intro a b h he
    simp only [IsPath] at h
    subst h
    exact ⟨he, rfl⟩
  | cons x p ih =>
    intro a b h he
    exact ⟨h.1, ih x.v b h.2 he⟩

theorem pathCost_cons (e : Edge) (p : List Edge) : pathCost (e :: p) = e.w + pathCost p := by
  simp [pathCost]

theorem pathCost_snoc (p : List Edge) (e : Edge) : pathCost (p ++ [e]) = pathCost p + e.w := by
  simp [pathCost]

theorem pathCost_append (p q : List Edge) : pathCost (p ++ q) = pathCost p + pathCost q := by
  simp [pathCost]

theorem pathCost_nonneg (g : VVE) (hg : NonNeg g) :
    ∀ (p : List Edge) (a b : Nat), IsPath g a p b → 0 ≤ pathCost p := by
  intro p
  induction p with
  | nil => intro a b _; simp [pathCost]
  | cons x p ih =>
    intro a b h
    rw [pathCost_cons]
    obtain ⟨es, hes, hx⟩ := (mem_getD_iff g a x).1 h.1
    have h1 : 0 ≤ x.w := hg es (List.getElem?_mem hes) x hx
    have h2 := ih x.v b h.2
    omega

theorem costD_nil : costD [] = 0 := rfl

theorem costFrom_cons (c : Int) (e : Edge) (p : List Edge) :
    costFrom c (e :: p) = costFrom (dadd c e.w) p := rfl

theorem costFrom_snoc (c : Int) (p : List Edge) (e : Edge) :
    costFrom c (p ++ [e]) = dadd (costFrom c p) e.w := by
  simp only [costFrom, List.map_append, List.map_cons, List.map_nil, dsum_snoc]

theorem costD_snoc (p : List Edge) (e : Edge) : costD (p ++ [e]) = dadd (costD p) e.w :=
  costFrom_snoc 0 p e

theorem costFrom_append (c : Int) (p q : List Edge) :
    costFrom c (p ++ q) = costFrom (costFrom c p) q := by
  simp only [costFrom, List.map_append, dsum_append]

theorem costFrom_mono (p : List Edge) (c c1 : Int) (h : c ≤ c1) :
    costFrom c p ≤ costFrom c1 p := dsum_mono _ c c1 h

theorem isPath_nonneg (g : VVE) (hg : NonNeg g) :
    ∀ (p : List Edge) (a b : Nat), IsPath g a p b → ∀ e ∈ p, 0 ≤ e.w := by
  intro p
  induction p with
  | nil => intro a b _ e he; cases he
  | cons x p ih =>
    intro a b h e he
    rcases List.mem_cons.1 he with he | he
    · subst he
      obtain ⟨es, hes, hx⟩ := (mem_getD_iff g a e).1 h.1
      exact hg es (List.getElem?_mem hes) e hx
    · exact ih x.v b h.2 e he

/-- With non-negative weights the cost computed along a path is at least the
cost the path is entered with. -/
theorem le_costFrom (g : VVE) (hg : NonNeg g) (p : List Edge) (a b : Nat) (h : IsPath g a p b)
    (c : Int) (hc : IsDouble c) : c ≤ costFrom c p := by
  apply le_dsum _ _ c hc
  intro w hw
  obtain ⟨e, he, rfl⟩ := List.mem_map.1 hw
  exact isPath_nonneg g hg p a b h e he

theorem isPath_lt (g : VVE) (hg : ValidGraph g) :
    ∀ (p : List Edge) (a b : Nat), a < g.length → IsPath g a p b → b < g.length := by
  intro p
  induction p with
  | nil => intro a b ha h; simp only [IsPath] at h; omega
  | cons x p ih =>
    intro a b _ h
    obtain ⟨es, hes, hx⟩ := (mem_getD_iff g a x).1 h.1
    exact ih x.v b (hg es (List.getElem?_mem hes) x hx) h.2

theorem pendingEdges_set :
    ∀ (vis : List Bool) (g : VVE) (v : Nat) (es : VE), vis[v]? = some false → g[v]? = some es →
      pendingEdges (vis.set v true) g + es.length = pendingEdges vis g := by
  intro vis
  induction vis with
  | nil => intro g v es h; simp at h
  | cons b vs ih =>
    intro g v es hv hg
    cases g with
    | nil => simp at hg
    | cons es0 g0 =>
      cases v with
      | zero =>
        simp at hv hg
        subst hv hg
        simp [pendingEdges]
        omega
      | succ k =>
        simp at hv hg
        have := ih g0 k es hv hg
        cases b <;> simp [pendingEdges] <;> omega

theorem pendingEdges_replicate :
    ∀ (g : VVE), pendingEdges (List.replicate g.length false) g = (g.map List.length).sum := by
  intro g
  induction g with
  | nil => rfl
  | cons es g ih => simp [List.replicate_succ, pendingEdges, ih]

namespace Djikstra

theorem relax_spec (P : PriorityQueue Node) (comp : Node → Node → Bool) (inv : P.Q → Prop)
    (hP : LawfulPQ P comp inv) (dist : List Int) (vis : List Bool) (curv : Nat) (d : Int)
    (hd : dist[curv]? = some d) :
    ∀ (es : VE) (pq : P.Q), inv pq → (∀ e ∈ es, e.v < vis.length) →
      ∃ pq2, relax P dist vis curv es pq = some pq2 ∧ inv pq2 ∧
        (P.toList pq2).Perm
          (((es.filter (fun e => decide (vis[e.v]? = some false))).map
            (fun e => (⟨e.v, dadd d e.w⟩ : Node))) ++ P.toList pq) := by
  intro es
  induction es with
  | nil => intro pq hpq _; exact ⟨pq, rfl, hpq, by simp⟩
  | cons e es ih =>
    intro pq hpq hlt
    have he : e.v < vis.length := hlt e (List.mem_cons_self _ _)
    have hes : ∀ x ∈ es, x.v < vis.length := fun x hx => hlt x (List.mem_cons_of_mem _ hx)
    have hb : vis[e.v]? = some vis[e.v] := List.getElem?_eq_getElem he
    cases hbv : vis[e.v] with
    | true =>
      rw [hbv] at hb
      obtain ⟨pq2, h1, h2, h3⟩ := ih pq hpq hes
      refine ⟨pq2, ?_, h2, ?_⟩
      · simp only [relax, hb]; exact h1
      · simpa [List.filter_cons, hb] using h3
    | false =>
      rw [hbv] at hb
      obtain ⟨pq2, h1, h2, h3⟩ := ih (P.push pq ⟨e.v, dadd d e.w⟩) (hP.inv_push _ _ hpq) hes
      refine ⟨pq2, ?_, h2, ?_⟩
      · simp only [relax, hb, hd]; exact h1
      · simp only [List.filter_cons, hb, decide_True, if_true, List.map_cons, List.cons_append]
        refine h3.trans ?_
        refine (List.Perm.append_left _ (hP.toList_push _ _ hpq)).trans ?_
        exact List.perm_middle

end Djikstra

namespace Djikstra

/-- What one pass of the loop does in a well-shaped state: it finds the queue
empty, discards a stale entry, returns at the target, or finalizes a vertex
and pushes its unvisited neighbours. -/
theorem step_cases (P : PriorityQueue Node) (comp : Node → Node → Bool) (inv : P.Q → Prop)
    (hP : LawfulPQ P comp inv) (t : Nat) (g : VVE) (hg : ValidGraph g) (st : State P)
    (hwf : WF P inv g st) :
    (P.toList st.pq = [] ∧ step P t g st = .done (ofLL (-1))) ∨
    ∃ cur pq1, inv pq1 ∧ (P.toList st.pq).Perm (cur :: P.toList pq1) ∧
      (∀ y ∈ P.toList st.pq, comp cur y = false) ∧
      ((st.vis[cur.v]? = some true ∧ step P t g st = .next ⟨st.dist, st.vis, pq1⟩) ∨
       (st.vis[cur.v]? = some false ∧ cur.v = t ∧ step P t g st = .done cur.c) ∨
       (st.vis[cur.v]? = some false ∧ cur.v ≠ t ∧ ∃ pq2, inv pq2 ∧
          (P.toList pq2).Perm (pushed g st.vis cur ++ P.toList pq1) ∧
          step P t g st = .next ⟨st.dist.set cur.v cur.c, st.vis.set cur.v true, pq2⟩)) := by
  cases hpop : P.pop? st.pq with
  | none =>
    left
    exact ⟨hP.pop_none _ hwf.pq_inv hpop, by simp [step, hpop]⟩
  | some xq =>
    obtain ⟨cur, pq1⟩ := xq
    right
    obtain ⟨hinv1, hperm, hmin⟩ := hP.pop_some _ _ _ hwf.pq_inv hpop
    refine ⟨cur, pq1, hinv1, hperm, hmin, ?_⟩
    have hcur : cur.v < g.length := hwf.pq_lt cur (hperm.mem_iff.2 (List.mem_cons_self _ _))
    have hcv : cur.v < st.vis.length := by rw [hwf.vis_len]; exact hcur
    have hb : st.vis[cur.v]? = some st.vis[cur.v] := List.getElem?_eq_getElem hcv
    cases hbv : st.vis[cur.v] with
    | true =>
      rw [hbv] at hb
      left
      exact ⟨hb, by simp [step, hpop, hb]⟩
    | false =>
      rw [hbv] at hb
      right
      by_cases hct : cur.v = t
      · left
        have hbt : st.vis[t]? = some false := hct ▸ hb
        exact ⟨hb, hct, by simp [step, hpop, hct, hbt]⟩
      · right
        refine ⟨hb, hct, ?_⟩
        have hge : g[cur.v]? = some g[cur.v] := List.getElem?_eq_getElem hcur
        have hd : (st.dist.set cur.v cur.c)[cur.v]? = some cur.c := by
          apply List.getElem?_set_self
          rw [hwf.dist_len]; exact hcur
        have hlt : ∀ e ∈ g[cur.v], e.v < (st.vis.set cur.v true).length := by
          intro e he
          rw [List.length_set, hwf.vis_len]
          exact hg _ (List.getElem_mem _) e he
        obtain ⟨pq2, h1, h2, h3⟩ := relax_spec P comp inv hP (st.dist.set cur.v cur.c)
          (st.vis.set cur.v true) cur.v cur.c hd g[cur.v] pq1 hinv1 hlt
        refine ⟨pq2, h2, ?_, ?_⟩
        · have : pushed g st.vis cur = ((g[cur.v].filter
              (fun e => decide ((st.vis.set cur.v true)[e.v]? = some false))).map
              (fun e => (⟨e.v, dadd cur.c e.w⟩ : Node))) := by
            simp [pushed, hge]
          rw [this]; exact h3
        · simp [step, hpop, hb, hct, hge, h1]

theorem pushed_length_le (g : VVE) (vis : List Bool) (cur : Node) (es : VE)
    (h : g[cur.v]? = some es) : (pushed g vis cur).length ≤ es.length := by
  simp only [pushed, List.getD_eq_getElem?_getD, h, Option.getD_some, List.length_map]
  exact List.length_filter_le _ _

theorem mem_pushed (g : VVE) (vis : List Bool) (cur x : Node) :
    x ∈ pushed g vis cur ↔
      ∃ e ∈ g.getD cur.v [], (vis.set cur.v true)[e.v]? = some false ∧
        x = ⟨e.v, dadd cur.c e.w⟩ := by
  simp only [pushed, List.mem_map, List.mem_filter, decide_eq_true_eq]
  constructor
  · rintro ⟨e, ⟨he, hv⟩, rfl⟩; exact ⟨e, he, hv, rfl⟩
  · rintro ⟨e, he, hv, rfl⟩; exact ⟨e, ⟨he, hv⟩, rfl⟩

/-- Every pass keeps the shape of the state and brings the end nearer. -/
theorem step_next_wf (P : PriorityQueue Node) (comp : Node → Node → Bool) (inv : P.Q → Prop)
    (hP : LawfulPQ P comp inv) (t : Nat) (g : VVE) (hg : ValidGraph g) (st st1 : State P)
    (hwf : WF P inv g st) (hs : step P t g st = .next st1) :
    WF P inv g st1 ∧ pops P g st1 < pops P g st := by
  rcases step_cases P comp inv hP t g hg st hwf with ⟨_, h⟩ | ⟨cur, pq1, hinv1, hperm, _, h⟩
  · rw [h] at hs; cases hs
  · have hlen : (P.toList st.pq).length = (P.toList pq1).length + 1 := by
      rw [hperm.length_eq]; simp
    rcases h with ⟨_, h⟩ | ⟨_, _, h⟩ | ⟨hb, _, pq2, hinv2, hperm2, h⟩
    · rw [h] at hs
      injection hs with hs
      subst hs
      refine ⟨⟨hwf.dist_len, hwf.vis_len, hinv1, ?_⟩, ?_⟩
      · intro x hx
        exact hwf.pq_lt x (hperm.mem_iff.2 (List.mem_cons_of_mem _ hx))
      · simp only [pops]; omega
    · rw [h] at hs; cases hs
    · rw [h] at hs
      injection hs with hs
      subst hs
      have hcur : cur.v < g.length := hwf.pq_lt cur (hperm.mem_iff.2 (List.mem_cons_self _ _))
      have hge : g[cur.v]? = some g[cur.v] := List.getElem?_eq_getElem hcur
      refine ⟨⟨by simp [hwf.dist_len], by simp [hwf.vis_len], hinv2, ?_⟩, ?_⟩
      · intro x hx
        rcases List.mem_append.1 (hperm2.mem_iff.1 hx) with hx | hx
        · obtain ⟨e, he, _, rfl⟩ := (mem_pushed g st.vis cur x).1 hx
          obtain ⟨es, hes, hee⟩ := (mem_getD_iff g cur.v e).1 he
          exact hg es (List.getElem?_mem hes) e hee
        · exact hwf.pq_lt x (hperm.mem_iff.2 (List.mem_cons_of_mem _ hx))
      · have h1 := pendingEdges_set st.vis g cur.v g[cur.v] hb hge
        have h2 := pushed_length_le g st.vis cur g[cur.v] hge
        have h3 : (P.toList pq2).length = (pushed g st.vis cur).length + (P.toList pq1).length := by
          rw [hperm2.length_eq]; simp
        simp only [pops]; omega

theorem step_ne_fault (P : PriorityQueue Node) (comp : Node → Node → Bool) (inv : P.Q → Prop)
    (hP : LawfulPQ P comp inv) (t : Nat) (g : VVE) (hg : ValidGraph g) (st : State P)
    (hwf : WF P inv g st) : step P t g st ≠ .fault := by
  rcases step_cases P comp inv hP t g hg st hwf with ⟨_, h⟩ | ⟨cur, pq1, _, _, _, h⟩
  · rw [h]; simp
  · rcases h with ⟨_, h⟩ | ⟨_, _, h⟩ | ⟨_, _, pq2, _, _, h⟩ <;> rw [h] <;> simp

theorem init_wf (P : PriorityQueue Node) (comp : Node → Node → Bool) (inv : P.Q → Prop)
    (hP : LawfulPQ P comp inv) (s : Nat) (g : VVE) (hs : s < g.length) :
    WF P inv g (init P s g) ∧ pops P g (init P s g) < fuelBound g ∧
      (P.toList (init P s g).pq).Perm [⟨s, 0⟩] := by
  have hperm : (P.toList (P.push P.empty ⟨s, 0⟩)).Perm [⟨s, 0⟩] := by
    have := hP.toList_push P.empty ⟨s, 0⟩ hP.inv_empty
    rwa [hP.toList_empty] at this
  refine ⟨⟨by simp [init], by simp [init], hP.inv_push _ _ hP.inv_empty, ?_⟩, ?_, hperm⟩
  · intro x hx
    have : x ∈ [(⟨s, 0⟩ : Node)] := hperm.mem_iff.1 hx
    simp at this
    subst this
    exact hs
  · have h1 : (P.toList (init P s g).pq).length = 1 := by
      have := hperm.length_eq
      simpa [init] using this
    simp only [pops, h1, fuelBound]
    have : (init P s g).vis = List.replicate g.length false := rfl
    rw [this, pendingEdges_replicate]
    omega

end Djikstra

theorem set_true_eq_true (vis : List Bool) (v u : Nat) (hv : vis[v]? = some false) :
    (vis.set v true)[u]? = some true ↔ u = v ∨ vis[u]? = some true := by
  have hlt : v < vis.length := by
    by_contra h
    rw [List.getElem?_eq_none (by omega)] at hv
    cases hv
  by_cases huv : u = v
  · subst huv
    simp [List.getElem?_set_self hlt]
  · rw [List.getElem?_set_ne (Ne.symm huv)]
    simp [huv]

theorem set_true_eq_false (vis : List Bool) (v u : Nat) (hv : vis[v]? = some false) :
    (vis.set v true)[u]? = some false ↔ u ≠ v ∧ vis[u]? = some false := by
  have hlt : v < vis.length := by
    by_contra h
    rw [List.getElem?_eq_none (by omega)] at hv
    cases hv
  by_cases huv : u = v
  · subst huv
    simp [List.getElem?_set_self hlt]
  · rw [List.getElem?_set_ne (Ne.symm huv)]
    simp [huv]

theorem getD_set_self (l : List Int) (v : Nat) (c : Int) (h : v < l.length) :
    (l.set v c).getD v 0 = c := by
  simp [List.getElem?_set_self h]

theorem getD_set_ne (l : List Int) (v u : Nat) (c : Int) (h : u ≠ v) :
    (l.set v c).getD u 0 = l.getD u 0 := by
  simp [List.getElem?_set_ne (Ne.symm h)]

theorem getElem?_bool_cases (vis : List Bool) (u : Nat) (h : u < vis.length) :
    vis[u]? = some true ∨ vis[u]? = some false := by
  rw [List.getElem?_eq_getElem h]
  cases vis[u] <;> simp

namespace Djikstra

theorem step_next_paths (P : PriorityQueue Node) (comp : Node → Node → Bool) (inv : P.Q → Prop)
    (hP : LawfulPQ P comp inv) (s t : Nat) (g : VVE) (hg : ValidGraph g) (st st1 : State P)
    (hwf : WF P inv g st) (hJ : EntriesArePaths P g s st) (hs : step P t g st = .next st1) :
    EntriesArePaths P g s st1 := by
  rcases step_cases P comp inv hP t g hg st hwf with ⟨_, h⟩ | ⟨cur, pq1, hinv1, hperm, _, h⟩
  · rw [h] at hs; cases hs
  · rcases h with ⟨_, h⟩ | ⟨_, _, h⟩ | ⟨hb, _, pq2, hinv2, hperm2, h⟩
    · rw [h] at hs
      injection hs with hs
      subst hs
      intro x hx
      exact hJ x (hperm.mem_iff.2 (List.mem_cons_of_mem _ hx))
    · rw [h] at hs; cases hs
    · rw [h] at hs
      injection hs with hs
      subst hs
      intro x hx
      rcases List.mem_append.1 (hperm2.mem_iff.1 hx) with hx | hx
      · obtain ⟨e, he, _, rfl⟩ := (mem_pushed g st.vis cur x).1 hx
        obtain ⟨p, hp, hc⟩ := hJ cur (hperm.mem_iff.2 (List.mem_cons_self _ _))
        exact ⟨p ++ [e], isPath_snoc g e p s cur.v hp he, by rw [costD_snoc, hc]⟩
      · exact hJ x (hperm.mem_iff.2 (List.mem_cons_of_mem _ hx))

theorem init_paths (P : PriorityQueue Node) (comp : Node → Node → Bool) (inv : P.Q → Prop)
    (hP : LawfulPQ P comp inv) (s : Nat) (g : VVE) (hs : s < g.length) :
    EntriesArePaths P g s (init P s g) := by
  intro x hx
  have : x ∈ [(⟨s, 0⟩ : Node)] := (init_wf P comp inv hP s g hs).2.2.mem_iff.1 hx
  simp at this
  subst this
  exact ⟨[], rfl, rfl⟩

/-- With any weights: `djikstra` returns, and what it returns is `-1` or the
cost, as computed, of a path from `s` to `t`. -/
theorem djikstra_returns (P : PriorityQueue Node) (comp : Node → Node → Bool) (inv : P.Q → Prop)
    (hP : LawfulPQ P comp inv) (s t : Nat) (g : VVE) (hg : ValidGraph g) (hs : s < g.length) :
    ∃ r, djikstra P s t g = .ok r ∧ (r = ofLL (-1) ∨ ∃ p, IsPath g s p t ∧ costD p = r) := by
  simp only [djikstra, hs, if_true]
  obtain ⟨hwf, hfuel, _⟩ := init_wf P comp inv hP s g hs
  refine runLoop_rule (step P t g) (fun st => WF P inv g st ∧ EntriesArePaths P g s st)
    (pops P g) _ ?_ ?_ ?_ (fuelBound g) (init P s g) ⟨hwf, init_paths P comp inv hP s g hs⟩ hfuel
  · intro st hI
    exact step_ne_fault P comp inv hP t g hg st hI.1
  · intro st st1 hI hst
    obtain ⟨h1, h2⟩ := step_next_wf P comp inv hP t g hg st st1 hI.1 hst
    exact ⟨⟨h1, step_next_paths P comp inv hP s t g hg st st1 hI.1 hI.2 hst⟩, h2⟩
  · intro st r hI hst
    rcases step_cases P comp inv hP t g hg st hI.1 with ⟨_, h⟩ | ⟨cur, pq1, hinv1, hperm, _, h⟩
    · rw [h] at hst
      injection hst with hst
      exact Or.inl hst.symm
    · rcases h with ⟨_, h⟩ | ⟨_, hct, h⟩ | ⟨hb, _, pq2, hinv2, hperm2, h⟩
      · rw [h] at hst; cases hst
      · rw [h] at hst
        injection hst with hst
        obtain ⟨p, hp, hc⟩ := hI.2 cur (hperm.mem_iff.2 (List.mem_cons_self _ _))
        exact Or.inr ⟨p, hct ▸ hp, by rw [hc, hst]⟩
      · rw [h] at hst; cases hst

end Djikstra

namespace Djikstra

/-- Along a path that leaves the visited set, the queue holds an entry no
costlier than the path, whatever cost at least `dist[a]` the path is entered
with. -/
theorem frontier_le (P : PriorityQueue Node) (inv : P.Q → Prop) (s t : Nat) (g : VVE)
    (hg : ValidGraph g) (hnn : NonNeg g) (st : State P) (hwf : WF P inv g st)
    (hO : Opt P g s t st) :
    ∀ (p : List Edge) (a b : Nat) (c : Int), IsPath g a p b → st.vis[a]? = some true →
      st.vis[b]? = some false → st.dist.getD a 0 ≤ c →
      ∃ x ∈ P.toList st.pq, x.c ≤ costFrom c p := by
  intro p
  induction p with
  | nil =>
    intro a b c h ha hb _
    simp only [IsPath] at h
    subst h
    rw [ha] at hb
    cases hb
  | cons e p ih =>
    intro a b c h ha hb hc
    obtain ⟨es, hes, hee⟩ := (mem_getD_iff g a e).1 h.1
    have hev : e.v < st.vis.length := by
      rw [hwf.vis_len]; exact hg es (List.getElem?_mem hes) e hee
    rw [costFrom_cons]
    have hstep : dadd (st.dist.getD a 0) e.w ≤ dadd c e.w := dadd_mono_left _ _ _ hc
    rcases getElem?_bool_cases st.vis e.v hev with hv | hv
    · obtain ⟨q, hq, hqc⟩ := hO.vis_path a ha
      have h1 := hO.vis_min e.v hv (q ++ [e]) (isPath_snoc g e q s a hq h.1)
      rw [costD_snoc, hqc] at h1
      exact ih e.v b (dadd c e.w) h.2 hv hb (le_trans h1 hstep)
    · refine ⟨_, hO.frontier a ha e h.1 hv, ?_⟩
      exact le_trans hstep (le_costFrom g hnn p e.v b h.2 _ (isDouble_dadd c e.w))

theorem exists_entry_le (P : PriorityQueue Node) (inv : P.Q → Prop) (s t : Nat) (g : VVE)
    (hg : ValidGraph g) (hnn : NonNeg g) (st : State P) (hwf : WF P inv g st)
    (hO : Opt P g s t st) (p : List Edge) (b : Nat) (hp : IsPath g s p b)
    (hb : st.vis[b]? = some false) : ∃ x ∈ P.toList st.pq, x.c ≤ costD p := by
  rcases hO.start with hs | hs
  · have h0 := hO.vis_min s hs [] rfl
    rw [costD_nil] at h0
    exact frontier_le P inv s t g hg hnn st hwf hO p s b 0 hp hs hb h0
  · exact ⟨_, hs, le_costFrom g hnn p s b hp 0 isDouble_zero⟩

/-- The entry popped for an unvisited vertex is no costlier than any path to
that vertex. -/
theorem pop_min (P : PriorityQueue Node) (inv : P.Q → Prop) (s t : Nat) (g : VVE)
    (hg : ValidGraph g) (hnn : NonNeg g) (st : State P) (hwf : WF P inv g st)
    (hO : Opt P g s t st) (cur : Node)
    (hmin : ∀ y ∈ P.toList st.pq, priority cur y = false)
    (hb : st.vis[cur.v]? = some false) (p : List Edge) (hp : IsPath g s p cur.v) :
    cur.c ≤ costD p := by
  obtain ⟨x, hx, hle⟩ := exists_entry_le P inv s t g hg hnn st hwf hO p cur.v hp hb
  have := hmin x hx
  simp only [priority, decide_eq_false_iff_not, not_lt] at this
  omega

theorem step_next_opt (P : PriorityQueue Node) (inv : P.Q → Prop)
    (hP : LawfulPQ P priority inv) (s t : Nat) (g : VVE) (hg : ValidGraph g) (hnn : NonNeg g)
    (st st1 : State P) (hwf : WF P inv g st) (hJ : EntriesArePaths P g s st)
    (hO : Opt P g s t st) (hs : step P t g st = .next st1) : Opt P g s t st1 := by
  rcases step_cases P priority inv hP t g hg st hwf with ⟨_, h⟩ | ⟨cur, pq1, hinv1, hperm, hmin, h⟩
  · rw [h] at hs; cases hs
  · have hcurmem : cur ∈ P.toList st.pq := hperm.mem_iff.2 (List.mem_cons_self _ _)
    have hrest : ∀ x, x ∈ P.toList st.pq → x ≠ cur → x ∈ P.toList pq1 := by
      intro x hx hne
      rcases List.mem_cons.1 (hperm.mem_iff.1 hx) with h | h
      · exact absurd h hne
      · exact h
    rcases h with ⟨hb, h⟩ | ⟨_, _, h⟩ | ⟨hb, hct, pq2, hinv2, hperm2, h⟩
    · rw [h] at hs
      injection hs with hs
      subst hs
      refine ⟨hO.vis_path, hO.vis_min, hO.vis_ne, ?_, ?_⟩
      · intro u hu e he hev
        refine hrest _ (hO.frontier u hu e he hev) ?_
        intro hc
        rw [← hc] at hb
        simp only at hb
        rw [hb] at hev
        cases hev
      · rcases hO.start with h0 | h0
        · exact Or.inl h0
        · by_cases hc : (⟨s, 0⟩ : Node) = cur
          · rw [← hc] at hb
            exact Or.inl hb
          · exact Or.inr (hrest _ h0 hc)
    · rw [h] at hs; cases hs
    · rw [h] at hs
      injection hs with hs
      subst hs
      have hcurlt : cur.v < st.dist.length := by
        rw [hwf.dist_len]; exact hwf.pq_lt cur hcurmem
      have hin2 : ∀ x, x ∈ P.toList pq1 → x ∈ P.toList pq2 := fun x hx =>
        hperm2.mem_iff.2 (List.mem_append_right _ hx)
      have hold : ∀ u, st.vis[u]? = some true → u ≠ cur.v := by
        intro u hu hc
        rw [hc, hb] at hu
        cases hu
      refine ⟨?_, ?_, ?_, ?_, ?_⟩
      · intro u hu
        simp only at hu ⊢
        rcases (set_true_eq_true st.vis cur.v u hb).1 hu with h1 | h1
        · subst h1
          rw [getD_set_self _ _ _ hcurlt]
          exact hJ cur hcurmem
        · rw [getD_set_ne _ _ _ _ (hold u h1)]
          exact hO.vis_path u h1
      · intro u hu q hq
        simp only at hu ⊢
        rcases (set_true_eq_true st.vis cur.v u hb).1 hu with h1 | h1
        · subst h1
          rw [getD_set_self _ _ _ hcurlt]
          exact pop_min P inv s t g hg hnn st hwf hO cur hmin hb q hq
        · rw [getD_set_ne _ _ _ _ (hold u h1)]
          exact hO.vis_min u h1 q hq
      · intro hc
        simp only at hc
        rcases (set_true_eq_true st.vis cur.v t hb).1 hc with h1 | h1
        · exact hct h1.symm
        · exact hO.vis_ne h1
      · intro u hu e he hev
        simp only at hu hev ⊢
        obtain ⟨hne, hev0⟩ := (set_true_eq_false st.vis cur.v e.v hb).1 hev
        rcases (set_true_eq_true st.vis cur.v u hb).1 hu with h1 | h1
        · subst h1
          rw [getD_set_self _ _ _ hcurlt]
          apply hperm2.mem_iff.2
          apply List.mem_append_left
          exact (mem_pushed g st.vis cur _).2 ⟨e, he, hev, rfl⟩
        · rw [getD_set_ne _ _ _ _ (hold u h1)]
          apply hin2
          refine hrest _ (hO.frontier u h1 e he hev0) ?_
          intro hc
          apply hne
          rw [← hc]
      · simp only
        rcases hO.start with h0 | h0
        · exact Or.inl ((set_true_eq_true st.vis cur.v s hb).2 (Or.inr h0))
        · by_cases hc : s = cur.v
          · exact Or.inl ((set_true_eq_true st.vis cur.v s hb).2 (Or.inl hc))
          · refine Or.inr (hin2 _ (hrest _ h0 ?_))
            intro hcc
            apply hc
            rw [← hcc]

theorem init_opt (P : PriorityQueue Node) (comp : Node → Node → Bool) (inv : P.Q → Prop)
    (hP : LawfulPQ P comp inv) (s t : Nat) (g : VVE) (hs : s < g.length) :
    Opt P g s t (init P s g) := by
  have hvis : ∀ u : Nat, (init P s g).vis[u]? ≠ some true := by
    intro u hu
    simp only [init, List.getElem?_replicate] at hu
    split at hu <;> simp at hu
  refine ⟨fun u hu => absurd hu (hvis u), fun u hu => absurd hu (hvis u), hvis t,
    fun u hu => absurd hu (hvis u), Or.inr ?_⟩
  exact (init_wf P comp inv hP s g hs).2.2.mem_iff.2 (List.mem_singleton_self _)

/-- With non-negative weights and a path to the target: `djikstra` returns
the least cost, as computed, of a path from `s` to `t`. -/
theorem djikstra_min (P : PriorityQueue Node) (inv : P.Q → Prop)
    (hP : LawfulPQ P priority inv) (s t : Nat) (g : VVE) (hg : ValidGraph g) (hnn : NonNeg g)
    (hs : s < g.length) (ht : t < g.length) (hpath : ∃ p, IsPath g s p t) :
    ∃ r, djikstra P s t g = .ok r ∧ (∃ p, IsPath g s p t ∧ costD p = r) ∧
      ∀ p, IsPath g s p t → r ≤ costD p := by
  simp only [djikstra, hs, if_true]
  obtain ⟨hwf, hfuel, _⟩ := init_wf P priority inv hP s g hs
  refine runLoop_rule (step P t g)
    (fun st => WF P inv g st ∧ EntriesArePaths P g s st ∧ Opt P g s t st)
    (pops P g) _ ?_ ?_ ?_ (fuelBound g) (init P s g)
    ⟨hwf, init_paths P priority inv hP s g hs, init_opt P priority inv hP s t g hs⟩ hfuel
  · intro st hI
    exact step_ne_fault P priority inv hP t g hg st hI.1
  · intro st st1 hI hst
    obtain ⟨h1, h2⟩ := step_next_wf P priority inv hP t g hg st st1 hI.1 hst
    exact ⟨⟨h1, step_next_paths P priority inv hP s t g hg st st1 hI.1 hI.2.1 hst,
      step_next_opt P inv hP s t g hg hnn st st1 hI.1 hI.2.1 hI.2.2 hst⟩, h2⟩
  · intro st r hI hst
    obtain ⟨hwf1, hJ, hO⟩ := hI
    rcases step_cases P priority inv hP t g hg st hwf1 with
      ⟨hnil, h⟩ | ⟨cur, pq1, hinv1, hperm, hmin, h⟩
    · exfalso
      obtain ⟨p, hp⟩ := hpath
      have htv : st.vis[t]? = some false := by
        rcases getElem?_bool_cases st.vis t (by rw [hwf1.vis_len]; exact ht) with h1 | h1
        · exact absurd h1 hO.vis_ne
        · exact h1
      obtain ⟨x, hx, _⟩ := exists_entry_le P inv s t g hg hnn st hwf1 hO p t hp htv
      rw [hnil] at hx
      cases hx
    · rcases h with ⟨_, h⟩ | ⟨hb, hct, h⟩ | ⟨hb, _, pq2, hinv2, hperm2, h⟩
      · rw [h] at hst; cases hst
      · rw [h] at hst
        injection hst with hst
        subst hst
        subst hct
        exact ⟨hJ cur (hperm.mem_iff.2 (List.mem_cons_self _ _)),
          fun p hp => pop_min P inv s cur.v g hg hnn st hwf1 hO cur hmin hb p hp⟩
      · rw [h] at hst; cases hst

end Djikstra

/-! ## The binary heap of libstdc++ is a lawful priority queue -/

theorem set_perm_cons_eraseIdx {α : Type} (a : α) :
    ∀ (l : List α) (i : Nat), i < l.length → (l.set i a).Perm (a :: l.eraseIdx i) := by
  intro l
  induction l with
  | nil => intro i h; simp at h
  | cons x l ih =>
    intro i h
    cases i with
    | zero => simp
    | succ k =>
      simp only [List.set_cons_succ, List.eraseIdx_cons_succ]
      have := ih k (by simpa using h)
      exact (List.Perm.cons x this).trans (List.Perm.swap a x _)

theorem swap_perm {α : Type} (l : List α) (i j : Nat) (p v : α) (hi : i < l.length)
    (hj : l[j]? = some p) (hij : i ≠ j) : ((l.set i p).set j v).Perm (l.set i v) := by
  have hjl : j < l.length := by
    by_contra h
    rw [List.getElem?_eq_none (by omega)] at hj
    cases hj
  have h1 := set_perm_cons_eraseIdx v (l.set i p) j (by simpa using hjl)
  have h2 := set_perm_cons_eraseIdx v l i hi
  have h3 := set_perm_cons_eraseIdx p l i hi
  have h4 := set_perm_cons_eraseIdx p (l.set i p) j (by simpa using hjl)
  have h5 : (l.set i p).set j p = l.set i p := by
    apply List.ext_getElem?
    intro k
    by_cases hk : j = k
    · subst hk
      rw [List.getElem?_set_self (by simpa using hjl), List.getElem?_set_ne hij, hj]
    · rw [List.getElem?_set_ne hk]
  rw [h5] at h4
  have h6 : ((l.set i p).eraseIdx j).Perm (l.eraseIdx i) := (h4.symm.trans h3).cons_inv
  exact h1.trans ((List.Perm.cons v h6).trans h2.symm)

theorem comp_irrefl {α : Type} (comp : α → α → Bool) (hsw : StrictWeak comp) (a : α) :
    comp a a = false := by
  cases h : comp a a with
  | false => rfl
  | true => have := hsw.1 a a h; rw [h] at this; cases this

/-- Writing `value` into the hole completes the heap once the parent of the
hole is not below `value`. -/
theorem holeHeap_fill {α : Type} (comp : α → α → Bool) (n : Nat) (value : α) (l : List α)
    (hole : Nat) (hn : n ≤ l.length) (hh : hole < n) (hH : HoleHeap comp n value l hole)
    (hpar : hole = 0 ∨ ∀ a, l[(hole - 1) / 2]? = some a → comp a value = false) :
    HeapOn comp n (l.set hole value) := by
  intro i a b hi hin ha hb
  rw [List.getElem?_set] at ha hb
  by_cases h1 : hole = i
  · subst h1
    rw [if_pos rfl, if_pos (by omega)] at hb
    rw [if_neg (by omega)] at ha
    injection hb with hb
    subst hb
    rcases hpar with h0 | h0
    · omega
    · exact h0 a ha
  · rw [if_neg h1] at hb
    by_cases h2 : hole = (i - 1) / 2
    · rw [if_pos h2, if_pos (by omega)] at ha
      injection ha with ha
      subst ha
      exact hH.2.1 i b hi hin h2.symm hb
    · rw [if_neg h2] at ha
      exact hH.1 i a b hi hin (Ne.symm h1) (Ne.symm h2) ha hb

/-- One turn of the loop of `std::__push_heap`. -/
theorem holeHeap_up {α : Type} (comp : α → α → Bool) (hsw : StrictWeak comp) (n : Nat)
    (value : α) (l : List α) (hole : Nat) (hn : n ≤ l.length) (hh : hole < n) (h0 : 0 < hole)
    (p : α) (hp : l[(hole - 1) / 2]? = some p) (hc : comp p value = true)
    (hH : HoleHeap comp n value l hole) :
    HoleHeap comp n value (l.set hole p) ((hole - 1) / 2) := by
  have hpv : comp value p = false := hsw.1 p value hc
  refine ⟨?_, ?_, ?_⟩
  · intro i a b hi hin hne1 hne2 ha hb
    rw [List.getElem?_set] at ha hb
    by_cases h1 : hole = i
    · subst h1; exact absurd rfl hne2
    · rw [if_neg h1] at hb
      by_cases h2 : hole = (i - 1) / 2
      · rw [if_pos h2, if_pos (by omega)] at ha
        injection ha with ha
        subst ha
        exact hH.2.2 i p b hi hin h2.symm h0 hp hb
      · rw [if_neg h2] at ha
        exact hH.1 i a b hi hin (Ne.symm h1) (Ne.symm h2) ha hb
  · intro i b hi hin hpi hb
    rw [List.getElem?_set] at hb
    by_cases h1 : hole = i
    · subst h1
      rw [if_pos rfl, if_pos (by omega)] at hb
      injection hb with hb
      subst hb
      exact hpv
    · rw [if_neg h1] at hb
      have hpb : comp p b = false :=
        hH.1 i p b hi hin (Ne.symm h1) (by omega) (by rw [hpi]; exact hp) hb
      exact hsw.2 value p b hpv hpb
  · intro i a b hi hin hpi hpos ha hb
    have hne : hole ≠ ((hole - 1) / 2 - 1) / 2 := by omega
    rw [List.getElem?_set, if_neg hne] at ha
    have hap : comp a p = false :=
      hH.1 ((hole - 1) / 2) a p hpos (by omega) (by omega) (by omega) ha hp
    rw [List.getElem?_set] at hb
    by_cases h1 : hole = i
    · subst h1
      rw [if_pos rfl, if_pos (by omega)] at hb
      injection hb with hb
      subst hb
      exact hap
    · rw [if_neg h1] at hb
      have hpb : comp p b = false :=
        hH.1 i p b hi hin (Ne.symm h1) (by omega) (by rw [hpi]; exact hp) hb
      exact hsw.2 a p b hap hpb

theorem pushHeapAux_spec {α : Type} (comp : α → α → Bool) (hsw : StrictWeak comp) (n : Nat)
    (value : α) :
    ∀ (fuel : Nat) (first : List α) (hole : Nat), hole ≤ fuel → hole < n → n ≤ first.length →
      HoleHeap comp n value first hole →
      HeapOn comp n (pushHeapAux comp 0 value fuel first hole) ∧
      (pushHeapAux comp 0 value fuel first hole).Perm (first.set hole value) ∧
      (pushHeapAux comp 0 value fuel first hole).length = first.length ∧
      ∀ k, n ≤ k → (pushHeapAux comp 0 value fuel first hole)[k]? = first[k]? := by
  intro fuel
  induction fuel with
  | zero =>
    intro first hole hf hh hn hH
    have : hole = 0 := by omega
    subst this
    simp only [pushHeapAux]
    exact ⟨holeHeap_fill comp n value first 0 hn hh hH (Or.inl rfl), List.Perm.refl _,
      by simp, fun k hk => List.getElem?_set_ne (by omega)⟩
  | succ fuel ih =>
    intro first hole hf hh hn hH
    have hfill : ∀ (hpar : hole = 0 ∨ ∀ a, first[(hole - 1) / 2]? = some a → comp a value = false),
        HeapOn comp n (first.set hole value) ∧ (first.set hole value).Perm (first.set hole value) ∧
        (first.set hole value).length = first.length ∧
        ∀ k, n ≤ k → (first.set hole value)[k]? = first[k]? := fun hpar =>
      ⟨holeHeap_fill comp n value first hole hn hh hH hpar, List.Perm.refl _, by simp,
        fun k hk => List.getElem?_set_ne (by omega)⟩
    simp only [pushHeapAux]
    by_cases h0 : hole > 0
    · rw [if_pos h0]
      have hpl : (hole - 1) / 2 < first.length := by omega
      rw [List.getElem?_eq_getElem hpl]
      simp only
      cases hc : comp first[(hole - 1) / 2] value with
      | true =>
        simp only [if_true]
        have hp : first[(hole - 1) / 2]? = some first[(hole - 1) / 2] :=
          List.getElem?_eq_getElem hpl
        obtain ⟨r1, r2, r3, r4⟩ := ih (first.set hole first[(hole - 1) / 2]) ((hole - 1) / 2)
          (by omega) (by omega) (by simpa using hn)
          (holeHeap_up comp hsw n value first hole hn hh h0 _ hp hc hH)
        refine ⟨r1, r2.trans ?_, by simpa using r3, ?_⟩
        · exact swap_perm first hole ((hole - 1) / 2) _ value (by omega) hp (by omega)
        · intro k hk
          rw [r4 k hk]
          exact List.getElem?_set_ne (by omega)
      | false =>
        simp only [Bool.false_eq_true, if_false]
        apply hfill
        right
        intro a ha
        rw [List.getElem?_eq_getElem hpl] at ha
        injection ha with ha
        rw [← ha]; exact hc
    · rw [if_neg h0]
      exact hfill (Or.inl (by omega))

/-- One turn of the first loop of `std::__adjust_heap`: the child pulled up
into the hole is not below any child of the hole. -/
theorem heapOn_down {α : Type} (comp : α → α → Bool) (hsw : StrictWeak comp) (n : Nat)
    (l : List α) (hole c : Nat) (ch : α) (hn : n ≤ l.length) (hc0 : 0 < c) (hcn : c < n)
    (hpc : (c - 1) / 2 = hole) (hch : l[c]? = some ch)
    (hsib : ∀ i b, 0 < i → i < n → (i - 1) / 2 = hole → l[i]? = some b → comp ch b = false)
    (hH : HeapOn comp n l) : HeapOn comp n (l.set hole ch) := by
  have hhl : hole < l.length := by omega
  intro i a b hi hin ha hb
  rw [List.getElem?_set] at ha hb
  by_cases h1 : hole = i
  · subst h1
    rw [if_pos rfl, if_pos hhl] at hb
    rw [if_neg (by omega)] at ha
    injection hb with hb
    subst hb
    have h2 : comp a l[hole] = false :=
      hH hole a l[hole] hi hin ha (List.getElem?_eq_getElem hhl)
    have h3 : comp l[hole] ch = false :=
      hH c l[hole] ch hc0 hcn (by rw [hpc]; exact List.getElem?_eq_getElem hhl) hch
    exact hsw.2 _ _ _ h2 h3
  · rw [if_neg h1] at hb
    by_cases h2 : hole = (i - 1) / 2
    · rw [if_pos h2, if_pos hhl] at ha
      injection ha with ha
      subst ha
      exact hsib i b hi hin h2.symm hb
    · rw [if_neg h2] at ha
      exact hH i a b hi hin ha hb

theorem adjustDown_spec {α : Type} (comp : α → α → Bool) (hsw : StrictWeak comp) (n : Nat) :
    ∀ (fuel : Nat) (first : List α) (hole : Nat), n ≤ hole + fuel → hole < n →
      n ≤ first.length → HeapOn comp n first →
      HeapOn comp n (adjustDown comp n fuel first hole).1 ∧
      (adjustDown comp n fuel first hole).2 < n ∧
      ¬ ((adjustDown comp n fuel first hole).2 < (n - 1) / 2) ∧
      (∀ value, ((adjustDown comp n fuel first hole).1.set
          (adjustDown comp n fuel first hole).2 value).Perm (first.set hole value)) ∧
      (adjustDown comp n fuel first hole).1.length = first.length ∧
      ∀ k, n ≤ k → (adjustDown comp n fuel first hole).1[k]? = first[k]? := by
  intro fuel
  induction fuel with
  | zero =>
    intro first hole hf hh hn hH
    simp only [adjustDown]
    exact ⟨hH, hh, by omega, fun _ => List.Perm.refl _, trivial, fun _ _ => trivial⟩
  | succ fuel ih =>
    intro first hole hf hh hn hH
    simp only [adjustDown]
    by_cases hlt : hole < (n - 1) / 2
    · rw [if_pos hlt]
      have hr : 2 * (hole + 1) < first.length := by omega
      have hl : 2 * (hole + 1) - 1 < first.length := by omega
      have hre : first[2 * (hole + 1)]? = some first[2 * (hole + 1)] :=
        List.getElem?_eq_getElem hr
      have hle : first[2 * (hole + 1) - 1]? = some first[2 * (hole + 1) - 1] :=
        List.getElem?_eq_getElem hl
      rw [hre, hle]
      simp only
      have hkids : ∀ i, 0 < i → (i - 1) / 2 = hole →
          i = 2 * (hole + 1) ∨ i = 2 * (hole + 1) - 1 := by
        intro i hi hp; omega
      cases hc : comp first[2 * (hole + 1)] first[2 * (hole + 1) - 1] with
      | true =>
        simp only [if_true]
        have hH1 : HeapOn comp n (first.set hole first[2 * (hole + 1) - 1]) := by
          refine heapOn_down comp hsw n first hole (2 * (hole + 1) - 1) _ hn (by omega)
            (by omega) (by omega) hle ?_ hH
          intro i b hi hin hp hb
          rcases hkids i hi hp with h | h
          · subst h
            rw [hre] at hb
            injection hb with hb
            rw [← hb]
            exact hsw.1 _ _ hc
          · subst h
            rw [hle] at hb
            injection hb with hb
            rw [← hb]
            exact comp_irrefl comp hsw _
        obtain ⟨r1, r2, r3, r4, r5, r6⟩ := ih (first.set hole first[2 * (hole + 1) - 1])
          (2 * (hole + 1) - 1) (by omega) (by omega) (by simpa using hn) hH1
        refine ⟨r1, r2, r3, ?_, by simpa using r5, ?_⟩
        · intro value
          exact (r4 value).trans
            (swap_perm first hole (2 * (hole + 1) - 1) _ value (by omega) hle (by omega))
        · intro k hk
          rw [r6 k hk]
          exact List.getElem?_set_ne (by omega)
      | false =>
        simp only [Bool.false_eq_true, if_false]
        have hH1 : HeapOn comp n (first.set hole first[2 * (hole + 1)]) := by
          refine heapOn_down comp hsw n first hole (2 * (hole + 1)) _ hn (by omega)
            (by omega) (by omega) hre ?_ hH
          intro i b hi hin hp hb
          rcases hkids i hi hp with h | h
          · subst h
            rw [hre] at hb
            injection hb with hb
            rw [← hb]
            exact comp_irrefl comp hsw _
          · subst h
            rw [hle] at hb
            injection hb with hb
            rw [← hb]
            exact hc
        obtain ⟨r1, r2, r3, r4, r5, r6⟩ := ih (first.set hole first[2 * (hole + 1)])
          (2 * (hole + 1)) (by omega) (by omega) (by simpa using hn) hH1
        refine ⟨r1, r2, r3, ?_, by simpa using r5, ?_⟩
        · intro value
          exact (r4 value).trans
            (swap_perm first hole (2 * (hole + 1)) _ value (by omega) hre (by omega))
        · intro k hk
          rw [r6 k hk]
          exact List.getElem?_set_ne (by omega)
    · rw [if_neg hlt]
      exact ⟨hH, hh, hlt, fun _ => List.Perm.refl _, rfl, fun _ _ => rfl⟩

theorem heapOn_holeHeap_leaf {α : Type} (comp : α → α → Bool) (n : Nat) (value : α)
    (l : List α) (hole : Nat) (hleaf : n ≤ 2 * hole + 1) (hH : HeapOn comp n l) :
    HoleHeap comp n value l hole :=
  ⟨fun i a b hi hin _ _ ha hb => hH i a b hi hin ha hb,
   fun i _ hi hin hp _ => by omega,
   fun i _ _ hi hin hp _ _ _ => by omega⟩

theorem adjustHeap_spec {α : Type} (comp : α → α → Bool) (hsw : StrictWeak comp) (n : Nat)
    (hn1 : 1 ≤ n) (value : α) (first : List α) (hn : n ≤ first.length)
    (hH : HeapOn comp n first) :
    HeapOn comp n (adjustHeap comp first 0 n value) ∧
    (adjustHeap comp first 0 n value).Perm (first.set 0 value) ∧
    (adjustHeap comp first 0 n value).length = first.length ∧
    ∀ k, n ≤ k → (adjustHeap comp first 0 n value)[k]? = first[k]? := by
  obtain ⟨r1, r2, r3, r4, r5, r6⟩ := adjustDown_spec comp hsw n n first 0 (by omega) (by omega)
    hn hH
  simp only [adjustHeap, pushHeap]
  generalize adjustDown comp n n first 0 = res at r1 r2 r3 r4 r5 r6
  obtain ⟨f1, h1⟩ := res
  simp only at r1 r2 r3 r4 r5 r6 ⊢
  by_cases hev : n % 2 = 0 ∧ h1 = (n - 2) / 2
  · rw [if_pos hev]
    have hl : 2 * (h1 + 1) - 1 < f1.length := by omega
    have hle : f1[2 * (h1 + 1) - 1]? = some f1[2 * (h1 + 1) - 1] := List.getElem?_eq_getElem hl
    rw [hle]
    simp only
    have hH1 : HeapOn comp n (f1.set h1 f1[2 * (h1 + 1) - 1]) := by
      refine heapOn_down comp hsw n f1 h1 (2 * (h1 + 1) - 1) _ (by omega) (by omega)
        (by omega) (by omega) hle ?_ r1
      intro i b hi hin hp hb
      have : i = 2 * (h1 + 1) - 1 := by omega
      subst this
      rw [hle] at hb
      injection hb with hb
      rw [← hb]
      exact comp_irrefl comp hsw _
    obtain ⟨s1, s2, s3, s4⟩ := pushHeapAux_spec comp hsw n value (2 * (h1 + 1) - 1)
      (f1.set h1 f1[2 * (h1 + 1) - 1]) (2 * (h1 + 1) - 1) (le_refl _) (by omega)
      (by simp; omega)
      (heapOn_holeHeap_leaf comp n value _ _ (by omega) hH1)
    refine ⟨s1, s2.trans ?_, by simp [s3, r5], ?_⟩
    · exact (swap_perm f1 h1 (2 * (h1 + 1) - 1) _ value (by omega) hle (by omega)).trans
        (r4 value)
    · intro k hk
      rw [s4 k hk, List.getElem?_set_ne (by omega)]
      exact r6 k hk
  · rw [if_neg hev]
    simp only
    obtain ⟨s1, s2, s3, s4⟩ := pushHeapAux_spec comp hsw n value h1 f1 h1 (le_refl _) r2
      (by omega) (heapOn_holeHeap_leaf comp n value _ _ (by omega) r1)
    exact ⟨s1, s2.trans (r4 value), by rw [s3, r5], fun k hk => by rw [s4 k hk, r6 k hk]⟩

theorem heapOn_top_min {α : Type} (comp : α → α → Bool) (hsw : StrictWeak comp) (n : Nat)
    (l : List α) (hn : n ≤ l.length) (hH : HeapOn comp n l) (a : α) (h0 : l[0]? = some a) :
    ∀ (i : Nat) (b : α), i < n → l[i]? = some b → comp a b = false := by
  intro i
  induction i using Nat.strong_induction_on with
  | _ i ih =>
    intro b hi hb
    by_cases hz : i = 0
    · subst hz
      rw [h0] at hb
      injection hb with hb
      rw [← hb]
      exact comp_irrefl comp hsw a
    · have hpl : (i - 1) / 2 < l.length := by omega
      have h1 := ih ((i - 1) / 2) (by omega) l[(i - 1) / 2] (by omega)
        (List.getElem?_eq_getElem hpl)
      have h2 := hH i l[(i - 1) / 2] b (by omega) hi (List.getElem?_eq_getElem hpl) hb
      exact hsw.2 _ _ _ h1 h2

theorem stdPush_spec {α : Type} (comp : α → α → Bool) (hsw : StrictWeak comp) (c : List α)
    (x : α) (hH : HeapOn comp c.length c) :
    HeapOn comp (stdPush comp c x).length (stdPush comp c x) ∧
      (stdPush comp c x).Perm (x :: c) := by
  have hinit : HoleHeap comp (c.length + 1) x (c ++ [x]) c.length := by
    refine ⟨?_, fun i _ hi hin hp _ => by omega, fun i _ _ hi hin hp _ _ _ => by omega⟩
    intro i a b hi hin hne _ ha hb
    have hil : i < c.length := by omega
    rw [List.getElem?_append_left (by omega)] at ha
    rw [List.getElem?_append_left hil] at hb
    exact hH i a b hi hil ha hb
  obtain ⟨r1, r2, r3, _⟩ := pushHeapAux_spec comp hsw (c.length + 1) x c.length (c ++ [x])
    c.length (le_refl _) (by omega) (by simp) hinit
  have hlen : (stdPush comp c x).length = c.length + 1 := by
    simp only [stdPush, pushHeap, r3]; simp
  refine ⟨?_, ?_⟩
  · rw [hlen]; exact r1
  · have hset : (c ++ [x]).set c.length x = c ++ [x] := by
      apply List.ext_getElem?
      intro k
      by_cases hk : c.length = k
      · subst hk
        rw [List.getElem?_set_self (by simp)]
        simp
      · rw [List.getElem?_set_ne hk]
    rw [hset] at r2
    exact r2.trans (List.perm_append_singleton x c)

theorem stdPop_spec {α : Type} (comp : α → α → Bool) (hsw : StrictWeak comp) (c : List α)
    (hH : HeapOn comp c.length c) :
    (stdPop? comp c = none → c = []) ∧
    ∀ x q, stdPop? comp c = some (x, q) →
      HeapOn comp q.length q ∧ c.Perm (x :: q) ∧ ∀ y ∈ c, comp x y = false := by
  cases c with
  | nil => exact ⟨fun _ => rfl, fun x q h => by simp [stdPop?] at h⟩
  | cons top rest =>
    have hmin : ∀ y ∈ top :: rest, comp top y = false := by
      intro y hy
      obtain ⟨i, hi, hiy⟩ := List.getElem_of_mem hy
      exact heapOn_top_min comp hsw _ (top :: rest) (le_refl _) hH top (by simp) i y hi
        (by rw [List.getElem?_eq_getElem hi, hiy])
    refine ⟨fun h => ?_, ?_⟩
    · simp only [stdPop?] at h
      cases hl : rest.getLast? with
      | none => rw [hl] at h; cases h
      | some v => rw [hl] at h; cases h
    · intro x q h
      simp only [stdPop?] at h
      cases hl : rest.getLast? with
      | none =>
        rw [hl] at h
        simp only [Option.some.injEq, Prod.mk.injEq] at h
        obtain ⟨rfl, rfl⟩ := h
        have : rest = [] := List.getLast?_eq_none_iff.1 hl
        subst this
        exact ⟨fun i a b hi hin => by simp at hin, List.Perm.refl _, hmin⟩
      | some value =>
        rw [hl] at h
        simp only [Option.some.injEq, Prod.mk.injEq] at h
        obtain ⟨rfl, rfl⟩ := h
        obtain ⟨body, hbody⟩ : ∃ body, rest = body ++ [value] := by
          have hne : rest ≠ [] := by
            intro h0; rw [h0] at hl; cases hl
          refine ⟨rest.dropLast, ?_⟩
          have h1 := List.dropLast_append_getLast hne
          have h2 : rest.getLast hne = value := by
            rw [List.getLast?_eq_getLast _ hne] at hl
            injection hl
          rw [h2] at h1
          exact h1.symm
        subst hbody
        have hlen : (top :: (body ++ [value])).length - 1 = body.length + 1 := by simp
        rw [hlen]
        have hc1 : (top :: (body ++ [value])).set (body.length + 1) top
            = top :: (body ++ [top]) := by
          simp [List.set_cons_succ]
        rw [hc1]
        have hH1 : HeapOn comp (body.length + 1) (top :: (body ++ [top])) := by
          intro i a b hi hin ha hb
          have e1 : ∀ k, k < body.length + 1 →
              (top :: (body ++ [top]))[k]? = (top :: (body ++ [value]))[k]? := by
            intro k hk
            cases k with
            | zero => simp
            | succ k =>
              simp only [List.getElem?_cons_succ]
              rw [List.getElem?_append_left (by omega), List.getElem?_append_left (by omega)]
          rw [e1 _ (by omega)] at ha
          rw [e1 _ hin] at hb
          exact hH i a b hi (by simp; omega) ha hb
        obtain ⟨r1, r2, r3, r4⟩ := adjustHeap_spec comp hsw (body.length + 1) (by omega) value
          (top :: (body ++ [top])) (by simp) hH1
        generalize adjustHeap comp (top :: (body ++ [top])) 0 (body.length + 1) value = r
          at r1 r2 r3 r4
        have hrl : r.length = body.length + 2 := by rw [r3]; simp
        have hlast : r[body.length + 1]? = some top := by
          rw [r4 _ (le_refl _)]
          simp
        have hsplit : r = r.dropLast ++ [top] := by
          have hne : r ≠ [] := by
            intro h0; rw [h0] at hrl; simp at hrl
          have h1 := List.dropLast_append_getLast hne
          have h2 : r.getLast hne = top := by
            rw [List.getLast_eq_getElem]
            have : r.length - 1 = body.length + 1 := by omega
            have h3 : r[r.length - 1]? = some top := by rw [this]; exact hlast
            rw [List.getElem?_eq_getElem (by omega)] at h3
            injection h3
          rw [h2] at h1
          exact h1.symm
        have hdl : r.dropLast.length = body.length + 1 := by simp [hrl]
        refine ⟨?_, ?_, hmin⟩
        · rw [hdl]
          intro i a b hi hin ha hb
          have e2 : ∀ k, k < body.length + 1 → r.dropLast[k]? = r[k]? := by
            intro k hk
            conv_rhs => rw [hsplit]
            rw [List.getElem?_append_left (by omega)]
          rw [e2 _ (by omega)] at ha
          rw [e2 _ hin] at hb
          exact r1 i a b hi hin ha hb
        · have h5 : (r.dropLast ++ [top]).Perm ((value :: body) ++ [top]) := by
            rw [← hsplit]
            simpa using r2
          have h6 : r.dropLast.Perm (value :: body) := (List.perm_append_right_iff [top]).1 h5
          refine List.Perm.cons top ?_
          exact (List.perm_append_singleton value body).trans h6.symm

/-- The binary heap of libstdc++ meets the contract of a priority queue for
every strict weak order. -/
theorem stdHeap_lawful {α : Type} (comp : α → α → Bool) (hsw : StrictWeak comp) :
    LawfulPQ (stdHeap comp) comp (fun c => HeapOn comp (List.length c) c) where
  inv_empty := fun i _ _ _ hin _ _ => absurd hin (Nat.not_lt_zero i)
  toList_empty := rfl
  inv_push := fun q x hq => (stdPush_spec comp hsw q x hq).1
  toList_push := fun q x hq => (stdPush_spec comp hsw q x hq).2
  pop_none := fun q hq h => (stdPop_spec comp hsw q hq).1 h
  pop_some := fun q x q1 hq h => (stdPop_spec comp hsw q hq).2 x q1 h

namespace Djikstra

theorem priority_strictWeak : StrictWeak priority := by
  refine ⟨?_, ?_⟩
  · intro a b h
    simp only [priority, decide_eq_true_eq, decide_eq_false_iff_not] at h ⊢
    omega
  · intro a b c h1 h2
    simp only [priority, decide_eq_false_iff_not] at h1 h2 ⊢
    omega

end Djikstra

namespace Prim

theorem prim_priority_strictWeak : StrictWeak priority := by
  refine ⟨?_, ?_⟩
  · intro a b h
    simp only [priority, decide_eq_true_eq, decide_eq_false_iff_not] at h ⊢
    omega
  · intro a b c h1 h2
    simp only [priority, decide_eq_false_iff_not] at h1 h2 ⊢
    omega

end Prim

/-! ## Djikstra: the contract -/

namespace Djikstra

theorem djikstra_unreachable (P : PriorityQueue Node) (comp : Node → Node → Bool)
    (inv : P.Q → Prop) (hP : LawfulPQ P comp inv) (s t : Nat) (g : VVE) (hg : ValidGraph g)
    (hs : s < g.length) (hno : ¬ ∃ p, IsPath g s p t) : djikstra P s t g = .ok (ofLL (-1)) := by
  obtain ⟨r, hr, h⟩ := djikstra_returns P comp inv hP s t g hg hs
  rcases h with h | ⟨p, hp, _⟩
  · rw [hr, h]
  · exact absurd ⟨p, hp⟩ hno

theorem mainGraph_closed :
    ∀ (p : List Edge) (a b : Nat), IsPath mainGraph a p b → (a = 1 ∨ a = 2 ∨ a = 3) →
      (b = 1 ∨ b = 2 ∨ b = 3) := by
  intro p
  induction p with
  | nil => intro a b h ha; simp only [IsPath] at h; subst h; exact ha
  | cons e p ih =>
    intro a b h ha
    refine ih e.v b h.2 ?_
    have he := h.1
    rcases ha with rfl | rfl | rfl <;> simp [mainGraph] at he <;> subst he <;> simp

/-- C2: with all edge ends inside the graph, weights of any sign, valid `s`
and no path from `s` to `t`, `djikstra(s, t, g)` returns `-1`. -/
theorem djikstra_returns_sentinel_when_unreachable (P : PriorityQueue Node)
    (inv : P.Q → Prop) (hP : LawfulPQ P priority inv) (g : VVE) (s t : Nat) (hg : ValidGraph g)
    (hs : s < g.length) (_ht : t < g.length) (hno : ¬ ∃ p, IsPath g s p t) :
    djikstra P s t g = .ok (ofLL (-1)) :=
  djikstra_unreachable P priority inv hP s t g hg hs hno

/-- C2 on the graph of `main`: vertex 4 cannot be reached from vertex 3. -/
theorem djikstra_returns_sentinel_when_unreachable_witness :
    (¬ ∃ p, IsPath mainGraph 3 p 4) ∧
      djikstra (stdHeap priority) 3 4 mainGraph = .ok (ofLL (-1)) :=
  have hno : ¬ ∃ p, IsPath mainGraph 3 p 4 := by
    rintro ⟨p, hp⟩
    have := mainGraph_closed p 3 4 hp (by simp)
    omega
  ⟨hno, djikstra_returns_sentinel_when_unreachable (stdHeap priority) _
      (stdHeap_lawful priority priority_strictWeak) mainGraph 3 4
      (by unfold ValidGraph; decide) (by decide) (by decide) hno⟩

/-- C5: for every graph and every valid vertex `s`, with weights of any sign,
`djikstra(s, s, g)` returns `0`. -/
theorem djikstra_self_is_zero (P : PriorityQueue Node) (comp : Node → Node → Bool)
    (inv : P.Q → Prop) (hP : LawfulPQ P comp inv) (g : VVE) (s : Nat) (hs : s < g.length) :
    djikstra P s s g = .ok 0 := by
  obtain ⟨hwf, _, hperm⟩ := init_wf P comp inv hP s g hs
  have hstep : step P s g (init P s g) = .done 0 := by
    cases hpop : P.pop? (init P s g).pq with
    | none =>
      have := hP.pop_none _ hwf.pq_inv hpop
      rw [this] at hperm
      exact absurd hperm.length_eq (by simp)
    | some xq =>
      obtain ⟨cur, pq1⟩ := xq
      obtain ⟨_, hp, _⟩ := hP.pop_some _ _ _ hwf.pq_inv hpop
      have hcur : cur ∈ [(⟨s, 0⟩ : Node)] :=
        hperm.mem_iff.1 (hp.mem_iff.2 (List.mem_cons_self _ _))
      simp only [List.mem_singleton] at hcur
      subst hcur
      have hv : (init P s g).vis[s]? = some false := by
        simp [init, hs]
      simp [step, hpop, hv]
  simp only [djikstra, hs, if_true, fuelBound, runLoop, hstep]

/-- C5 on the graph of `main` with a negative cycle added through vertex 1. -/
theorem djikstra_self_is_zero_witness :
    djikstra (stdHeap priority) 1 1 [[⟨1, ofLL 1⟩], [⟨2, ofLL (-5)⟩], [⟨1, ofLL 2⟩]] = .ok 0 :=
  djikstra_self_is_zero (stdHeap priority) priority _
    (stdHeap_lawful priority priority_strictWeak) _ 1 (by decide)

end Djikstra

/-! ## Appending an edge -/

theorem pushBack_length (g g1 : VVE) (u : Nat) (e : Edge) (h : pushBack g u e = some g1) :
    g1.length = g.length := by
  simp only [pushBack] at h
  cases hu : g[u]? with
  | none => rw [hu] at h; cases h
  | some es =>
    rw [hu] at h
    injection h with h
    rw [← h]; simp

theorem pushBack_getElem? (g g1 : VVE) (u : Nat) (e : Edge) (h : pushBack g u e = some g1)
    (a : Nat) :
    g1[a]? = if a = u then (g[u]?).map (fun es => es ++ [e]) else g[a]? := by
  simp only [pushBack] at h
  cases hu : g[u]? with
  | none => rw [hu] at h; cases h
  | some es =>
    rw [hu] at h
    injection h with h
    rw [← h, List.getElem?_set]
    have hlt : u < g.length := by
      by_contra hn
      rw [List.getElem?_eq_none (by omega)] at hu
      cases hu
    by_cases hau : a = u
    · subst hau; simp [hlt]
    · rw [if_neg (Ne.symm hau), if_neg hau]

theorem pushBack_mem (g g1 : VVE) (u : Nat) (e : Edge) (h : pushBack g u e = some g1)
    (a : Nat) (x : Edge) :
    x ∈ g1.getD a [] ↔ x ∈ g.getD a [] ∨ (a = u ∧ x = e) := by
  have hu : ∃ es, g[u]? = some es := by
    simp only [pushBack] at h
    cases hu : g[u]? with
    | none => rw [hu] at h; cases h
    | some es => exact ⟨es, rfl⟩
  obtain ⟨es, hes⟩ := hu
  simp only [List.getD_eq_getElem?_getD, pushBack_getElem? g g1 u e h a]
  by_cases hau : a = u
  · subst hau
    simp [hes]
  · simp [hau]

theorem pushBack_fuelBound (g g1 : VVE) (u : Nat) (e : Edge) (h : pushBack g u e = some g1) :
    fuelBound g1 = fuelBound g + 1 := by
  have key : ∀ (g : VVE) (u : Nat) (es : VE), g[u]? = some es →
      ((g.set u (es ++ [e])).map List.length).sum = (g.map List.length).sum + 1 := by
    intro g
    induction g with
    | nil => intro u es h; simp at h
    | cons x g ih =>
      intro u es h
      cases u with
      | zero =>
        simp at h
        subst h
        simp; omega
      | succ k =>
        simp at h
        simp only [List.set_cons_succ, List.map_cons, List.sum_cons, ih k es h]; omega
  simp only [pushBack] at h
  cases hu : g[u]? with
  | none => rw [hu] at h; cases h
  | some es =>
    rw [hu] at h
    injection h with h
    rw [← h]
    simp only [fuelBound, key g u es hu]

theorem pushBack_valid (g g1 : VVE) (u : Nat) (e : Edge) (h : pushBack g u e = some g1)
    (hg : ValidGraph g) (he : e.v < g.length) : ValidGraph g1 := by
  intro es hes x hx
  rw [pushBack_length g g1 u e h]
  obtain ⟨a, ha⟩ := List.mem_iff_getElem?.1 hes
  have hmem : x ∈ g1.getD a [] := (mem_getD_iff g1 a x).2 ⟨es, ha, hx⟩
  rcases (pushBack_mem g g1 u e h a x).1 hmem with h1 | ⟨_, h1⟩
  · obtain ⟨es0, h2, h3⟩ := (mem_getD_iff g a x).1 h1
    exact hg es0 (List.getElem?_mem h2) x h3
  · rw [h1]; exact he

theorem pushBack_nonNeg (g g1 : VVE) (u : Nat) (e : Edge) (h : pushBack g u e = some g1)
    (hg : NonNeg g) (he : 0 ≤ e.w) : NonNeg g1 := by
  intro es hes x hx
  obtain ⟨a, ha⟩ := List.mem_iff_getElem?.1 hes
  have hmem : x ∈ g1.getD a [] := (mem_getD_iff g1 a x).2 ⟨es, ha, hx⟩
  rcases (pushBack_mem g g1 u e h a x).1 hmem with h1 | ⟨_, h1⟩
  · obtain ⟨es0, h2, h3⟩ := (mem_getD_iff g a x).1 h1
    exact hg es0 (List.getElem?_mem h2) x h3
  · rw [h1]; exact he

theorem isPath_pushBack (g g1 : VVE) (u : Nat) (e : Edge) (h : pushBack g u e = some g1) :
    ∀ (p : List Edge) (a b : Nat), IsPath g a p b → IsPath g1 a p b := by
  intro p
  induction p with
  | nil => intro a b hp; exact hp
  | cons x p ih =>
    intro a b hp
    exact ⟨(pushBack_mem g g1 u e h a x).2 (Or.inl hp.1), ih x.v b hp.2⟩

/-- A path that may use a heavier copy of a stored edge can be replaced by
one that does not, at no greater cost. -/
theorem isPath_of_pushBack_heavier (g g1 : VVE) (u v : Nat) (w w1 : Int)
    (h : pushBack g u ⟨v, w1⟩ = some g1) (hmem : (⟨v, w⟩ : Edge) ∈ g.getD u []) (hw : w < w1) :
    ∀ (p : List Edge) (a b : Nat), IsPath g1 a p b →
      ∃ q, IsPath g a q b ∧ ∀ c c1 : Int, c ≤ c1 → costFrom c q ≤ costFrom c1 p := by
  intro p
  induction p with
  | nil => intro a b hp; exact ⟨[], hp, fun c c1 hc => hc⟩
  | cons x p ih =>
    intro a b hp
    obtain ⟨q, hq, hqc⟩ := ih x.v b hp.2
    rcases (pushBack_mem g g1 u _ h a x).1 hp.1 with h1 | ⟨h1, h2⟩
    · refine ⟨x :: q, ⟨h1, hq⟩, fun c c1 hc => ?_⟩
      rw [costFrom_cons, costFrom_cons]
      exact hqc _ _ (dadd_mono_left c c1 x.w hc)
    · subst h1 h2
      refine ⟨⟨v, w⟩ :: q, ⟨hmem, hq⟩, fun c c1 hc => ?_⟩
      rw [costFrom_cons, costFrom_cons]
      exact hqc _ _ (le_trans (dadd_mono_left c c1 w hc) (dadd_mono_right c1 w w1 (le_of_lt hw)))

namespace Djikstra

theorem relax_append (P : PriorityQueue Node) (dist : List Int) (vis : List Bool) (curv : Nat)
    (es2 : VE) :
    ∀ (es : VE) (pq : P.Q), relax P dist vis curv (es ++ es2) pq =
      (relax P dist vis curv es pq).bind (fun q => relax P dist vis curv es2 q) := by
  intro es
  induction es with
  | nil => intro pq; rfl
  | cons e es ih =>
    intro pq
    simp only [List.cons_append, relax]
    split
    · exact ih pq
    · exact ih _
    · rfl

/-- A self-loop never changes what one pass of the loop does. -/
theorem step_pushBack_self (P : PriorityQueue Node) (t : Nat) (g g1 : VVE) (u : Nat) (w : Int)
    (h : pushBack g u ⟨u, w⟩ = some g1) (st : State P) : step P t g1 st = step P t g st := by
  simp only [step]
  cases hpop : P.pop? st.pq with
  | none => rfl
  | some xq =>
    obtain ⟨cur, pq1⟩ := xq
    simp only
    cases hv : st.vis[cur.v]? with
    | none => rfl
    | some b =>
      cases b with
      | true => rfl
      | false =>
        simp only
        by_cases hct : cur.v = t
        · rw [if_pos hct, if_pos hct]
        · rw [if_neg hct, if_neg hct, pushBack_getElem? g g1 u _ h cur.v]
          by_cases hcu : cur.v = u
          · rw [if_pos hcu]
            cases hgu : g[u]? with
            | none =>
              simp only [pushBack, hgu] at h
              cases h
            | some es =>
              have hgc : g[cur.v]? = some es := by rw [hcu]; exact hgu
              rw [hgc]
              simp only [Option.map_some', relax_append]
              have hvu : (st.vis.set cur.v true)[u]? = some true := by
                rw [← hcu]
                exact (set_true_eq_true st.vis cur.v cur.v hv).2 (Or.inl rfl)
              have hone : ∀ q, relax P (st.dist.set cur.v cur.c) (st.vis.set cur.v true) cur.v
                  [⟨u, w⟩] q = some q := by
                intro q
                simp only [relax, hvu]
              simp only [hone]
              cases relax P (st.dist.set cur.v cur.c) (st.vis.set cur.v true) cur.v es pq1 <;> rfl
          · rw [if_neg hcu]

theorem runLoop_congr {σ : Type} (f1 f2 : σ → Step σ) (h : ∀ s, f1 s = f2 s) :
    ∀ (n : Nat) (s : σ), runLoop f1 n s = runLoop f2 n s := by
  intro n
  induction n with
  | zero => intro s; rfl
  | succ k ih =>
    intro s
    simp only [runLoop, h s]
    cases f2 s with
    | done r => rfl
    | fault => rfl
    | next s1 => exact ih s1

/-- C8: with non-negative weights, appending to `u` a parallel edge to `v`
that is strictly heavier than an edge from `u` to `v` already stored leaves
the result of `djikstra(s, t, ·)` unchanged. -/
theorem djikstra_heavier_parallel_edge (P : PriorityQueue Node) (inv : P.Q → Prop)
    (hP : LawfulPQ P priority inv) (g g1 : VVE) (s t u v : Nat) (w w1 : Int)
    (hg : ValidGraph g) (hnn : NonNeg g) (hs : s < g.length) (ht : t < g.length)
    (hmem : (⟨v, w⟩ : Edge) ∈ g.getD u []) (hw : w < w1)
    (h : pushBack g u ⟨v, w1⟩ = some g1) :
    djikstra P s t g1 = djikstra P s t g := by
  obtain ⟨es, hes, hee⟩ := (mem_getD_iff g u _).1 hmem
  have hv : v < g.length := hg es (List.getElem?_mem hes) _ hee
  have hw0 : (0 : Int) ≤ w := hnn es (List.getElem?_mem hes) _ hee
  have hlen := pushBack_length g g1 u _ h
  have hg1 : ValidGraph g1 := pushBack_valid g g1 u _ h hg hv
  have hnn1 : NonNeg g1 := pushBack_nonNeg g g1 u _ h hnn (by simp only; omega)
  by_cases hpath : ∃ p, IsPath g s p t
  · have hpath1 : ∃ p, IsPath g1 s p t := by
      obtain ⟨p, hp⟩ := hpath
      exact ⟨p, isPath_pushBack g g1 u _ h p s t hp⟩
    obtain ⟨r, hr, ⟨p, hp, hpc⟩, hmin⟩ := djikstra_min P inv hP s t g hg hnn hs ht hpath
    obtain ⟨r1, hr1, ⟨p1, hp1, hpc1⟩, hmin1⟩ :=
      djikstra_min P inv hP s t g1 hg1 hnn1 (by omega) (by omega) hpath1
    have h1 : r1 ≤ r := by
      rw [← hpc]
      exact hmin1 p (isPath_pushBack g g1 u _ h p s t hp)
    have h2 : r ≤ r1 := by
      obtain ⟨q, hq, hqc⟩ := isPath_of_pushBack_heavier g g1 u v w w1 h hmem hw p1 s t hp1
      have h3 := hmin q hq
      have h4 : costD q ≤ costD p1 := hqc 0 0 (le_refl _)
      omega
    rw [hr, hr1, le_antisymm h1 h2]
  · have hno1 : ¬ ∃ p, IsPath g1 s p t := by
      rintro ⟨p, hp⟩
      obtain ⟨q, hq, _⟩ := isPath_of_pushBack_heavier g g1 u v w w1 h hmem hw p s t hp
      exact hpath ⟨q, hq⟩
    rw [djikstra_unreachable P priority inv hP s t g hg hs hpath,
      djikstra_unreachable P priority inv hP s t g1 hg1 (by omega) hno1]

/-- C8 on the graph of `main`, with a second edge from 0 to 2 of weight 9. -/
theorem djikstra_heavier_parallel_edge_witness :
    djikstra (stdHeap priority) 0 3
        [[⟨1, ofLL 1⟩, ⟨2, ofLL 5⟩, ⟨2, ofLL 9⟩], [⟨2, ofLL 2⟩], [⟨3, ofLL 3⟩], [⟨1, ofLL 1⟩], []]
      = djikstra (stdHeap priority) 0 3 mainGraph :=
  djikstra_heavier_parallel_edge (stdHeap priority) _
    (stdHeap_lawful priority priority_strictWeak) mainGraph _ 0 3 0 2 (ofLL 5) (ofLL 9)
    (by unfold ValidGraph; decide) (by unfold NonNeg; decide) (by decide) (by decide)
    (by simp [mainGraph]) (by decide) rfl

/-- C10: with weights of any sign, appending a self-loop to the edge sequence
of `u` leaves the result of `djikstra(s, t, ·)` unchanged. -/
theorem djikstra_self_loop (P : PriorityQueue Node) (inv : P.Q → Prop)
    (hP : LawfulPQ P priority inv) (g g1 : VVE) (s t u : Nat) (w : Int)
    (hg : ValidGraph g) (hs : s < g.length) (h : pushBack g u ⟨u, w⟩ = some g1) :
    djikstra P s t g1 = djikstra P s t g := by
  have hlen := pushBack_length g g1 u _ h
  obtain ⟨r, hr, _⟩ := djikstra_returns P priority inv hP s t g hg hs
  rw [hr]
  simp only [djikstra, hs, if_true] at hr
  have hs1 : s < g1.length := by omega
  simp only [djikstra, hs1, if_true, pushBack_fuelBound g g1 u _ h]
  have hinit : init P s g1 = init P s g := by simp only [init, hlen]
  rw [hinit, runLoop_congr (step P t g1) (step P t g) (step_pushBack_self P t g g1 u w h)]
  exact runLoop_ok_succ _ r _ _ hr

/-- C10 on the graph of `main`, with a self-loop of weight -4 at vertex 1. -/
theorem djikstra_self_loop_witness :
    djikstra (stdHeap priority) 0 3
        [[⟨1, ofLL 1⟩, ⟨2, ofLL 5⟩], [⟨2, ofLL 2⟩, ⟨1, ofLL (-4)⟩], [⟨3, ofLL 3⟩], [⟨1, ofLL 1⟩], []]
      = djikstra (stdHeap priority) 0 3 mainGraph :=
  djikstra_self_loop (stdHeap priority) _ (stdHeap_lawful priority priority_strictWeak)
    mainGraph _ 0 3 1 (ofLL (-4)) (by unfold ValidGraph; decide) (by decide) rfl

end Djikstra

/-! ## Prim: shape of the run -/

namespace Prim

theorem pushEdges_spec (P : PriorityQueue Edge) (comp : Edge → Edge → Bool) (inv : P.Q → Prop)
    (hP : LawfulPQ P comp inv) (vis : List Bool) :
    ∀ (es : VE) (pq : P.Q), inv pq → (∀ e ∈ es, e.v < vis.length) →
      ∃ pq2, pushEdges P vis es pq = some pq2 ∧ inv pq2 ∧
        (P.toList pq2).Perm
          (es.filter (fun e => decide (vis[e.v]? = some false)) ++ P.toList pq) := by
  intro es
  induction es with
  | nil => intro pq hpq _; exact ⟨pq, rfl, hpq, by simp⟩
  | cons e es ih =>
    intro pq hpq hlt
    have he : e.v < vis.length := hlt e (List.mem_cons_self _ _)
    have hes : ∀ x ∈ es, x.v < vis.length := fun x hx => hlt x (List.mem_cons_of_mem _ hx)
    have hb : vis[e.v]? = some vis[e.v] := List.getElem?_eq_getElem he
    cases hbv : vis[e.v] with
    | true =>
      rw [hbv] at hb
      obtain ⟨pq2, h1, h2, h3⟩ := ih pq hpq hes
      refine ⟨pq2, ?_, h2, ?_⟩
      · simp only [pushEdges, hb]; exact h1
      · simpa [List.filter_cons, hb] using h3
    | false =>
      rw [hbv] at hb
      obtain ⟨pq2, h1, h2, h3⟩ := ih (P.push pq e) (hP.inv_push _ _ hpq) hes
      refine ⟨pq2, ?_, h2, ?_⟩
      · simp only [pushEdges, hb]; exact h1
      · simp only [List.filter_cons, hb, decide_True, if_true, List.cons_append]
        refine h3.trans ?_
        refine (List.Perm.append_left _ (hP.toList_push _ _ hpq)).trans ?_
        exact List.perm_middle

/-- What one pass of the loop of `prim` does in a well-shaped state. -/
theorem prim_step_cases (P : PriorityQueue Edge) (comp : Edge → Edge → Bool) (inv : P.Q → Prop)
    (hP : LawfulPQ P comp inv) (g : VVE) (hg : ValidGraph g) (st : State P)
    (hwf : WF P inv g st) :
    (¬ st.i < g.length - 1 ∧ step P g st = .done st.cost) ∨
    (st.i < g.length - 1 ∧ P.toList st.pq = [] ∧ step P g st = .done st.cost) ∨
    (st.i < g.length - 1 ∧ ∃ cur pq1, inv pq1 ∧ (P.toList st.pq).Perm (cur :: P.toList pq1) ∧
      (∀ y ∈ P.toList st.pq, comp cur y = false) ∧
      ((st.vis[cur.v]? = some true ∧ step P g st = .next ⟨st.cost, st.vis, pq1, st.i⟩) ∨
       (st.vis[cur.v]? = some false ∧ ∃ pq2, inv pq2 ∧
          (P.toList pq2).Perm (pushed g (st.vis.set cur.v true) cur.v ++ P.toList pq1) ∧
          step P g st =
            .next ⟨dadd st.cost cur.w, st.vis.set cur.v true, pq2, st.i + 1⟩))) := by
  by_cases hi : st.i < g.length - 1
  · right
    cases hpop : P.pop? st.pq with
    | none =>
      left
      exact ⟨hi, hP.pop_none _ hwf.pq_inv hpop, by simp [step, hi, hpop]⟩
    | some xq =>
      obtain ⟨cur, pq1⟩ := xq
      right
      obtain ⟨hinv1, hperm, hmin⟩ := hP.pop_some _ _ _ hwf.pq_inv hpop
      refine ⟨hi, cur, pq1, hinv1, hperm, hmin, ?_⟩
      have hcur : cur.v < g.length := hwf.pq_lt cur (hperm.mem_iff.2 (List.mem_cons_self _ _))
      have hcv : cur.v < st.vis.length := by rw [hwf.vis_len]; exact hcur
      have hb : st.vis[cur.v]? = some st.vis[cur.v] := List.getElem?_eq_getElem hcv
      cases hbv : st.vis[cur.v] with
      | true =>
        rw [hbv] at hb
        left
        exact ⟨hb, by simp [step, hi, hpop, hb]⟩
      | false =>
        rw [hbv] at hb
        right
        refine ⟨hb, ?_⟩
        have hge : g[cur.v]? = some g[cur.v] := List.getElem?_eq_getElem hcur
        have hlt : ∀ e ∈ g[cur.v], e.v < (st.vis.set cur.v true).length := by
          intro e he
          rw [List.length_set, hwf.vis_len]
          exact hg _ (List.getElem_mem _) e he
        obtain ⟨pq2, h1, h2, h3⟩ := pushEdges_spec P comp inv hP (st.vis.set cur.v true)
          g[cur.v] pq1 hinv1 hlt
        refine ⟨pq2, h2, ?_, ?_⟩
        · have : pushed g (st.vis.set cur.v true) cur.v = g[cur.v].filter
              (fun e => decide ((st.vis.set cur.v true)[e.v]? = some false)) := by
            simp [pushed, hge]
          rw [this]; exact h3
        · simp [step, hi, hpop, hb, hge, h1]
  · left
    exact ⟨hi, by simp [step, hi]⟩

theorem prim_pushed_length_le (g : VVE) (vis : List Bool) (x : Nat) (es : VE)
    (h : g[x]? = some es) : (pushed g vis x).length ≤ es.length := by
  simp only [pushed, List.getD_eq_getElem?_getD, h, Option.getD_some]
  exact List.length_filter_le _ _

theorem prim_mem_pushed (g : VVE) (vis : List Bool) (x : Nat) (e : Edge) :
    e ∈ pushed g vis x ↔ e ∈ g.getD x [] ∧ vis[e.v]? = some false := by
  simp only [pushed, List.mem_filter, decide_eq_true_eq]

theorem prim_step_next_wf (P : PriorityQueue Edge) (comp : Edge → Edge → Bool)
    (inv : P.Q → Prop) (hP : LawfulPQ P comp inv) (g : VVE) (hg : ValidGraph g)
    (st st1 : State P) (hwf : WF P inv g st) (hs : step P g st = .next st1) :
    WF P inv g st1 ∧ pops P g st1 < pops P g st := by
  rcases prim_step_cases P comp inv hP g hg st hwf with
    ⟨_, h⟩ | ⟨_, _, h⟩ | ⟨_, cur, pq1, hinv1, hperm, _, h⟩
  · rw [h] at hs; cases hs
  · rw [h] at hs; cases hs
  · have hlen : (P.toList st.pq).length = (P.toList pq1).length + 1 := by
      rw [hperm.length_eq]; simp
    rcases h with ⟨_, h⟩ | ⟨hb, pq2, hinv2, hperm2, h⟩
    · rw [h] at hs
      injection hs with hs
      subst hs
      refine ⟨⟨hwf.vis_len, hinv1, ?_⟩, ?_⟩
      · intro x hx
        exact hwf.pq_lt x (hperm.mem_iff.2 (List.mem_cons_of_mem _ hx))
      · simp only [pops]; omega
    · rw [h] at hs
      injection hs with hs
      subst hs
      have hcur : cur.v < g.length := hwf.pq_lt cur (hperm.mem_iff.2 (List.mem_cons_self _ _))
      have hge : g[cur.v]? = some g[cur.v] := List.getElem?_eq_getElem hcur
      refine ⟨⟨by simp [hwf.vis_len], hinv2, ?_⟩, ?_⟩
      · intro x hx
        rcases List.mem_append.1 (hperm2.mem_iff.1 hx) with hx | hx
        · obtain ⟨he, _⟩ := (prim_mem_pushed g _ cur.v x).1 hx
          obtain ⟨es, hes, hee⟩ := (mem_getD_iff g cur.v x).1 he
          exact hg es (List.getElem?_mem hes) x hee
        · exact hwf.pq_lt x (hperm.mem_iff.2 (List.mem_cons_of_mem _ hx))
      · have h1 := pendingEdges_set st.vis g cur.v g[cur.v] hb hge
        have h2 := prim_pushed_length_le g (st.vis.set cur.v true) cur.v g[cur.v] hge
        have h3 : (P.toList pq2).length
            = (pushed g (st.vis.set cur.v true) cur.v).length + (P.toList pq1).length := by
          rw [hperm2.length_eq]; simp
        simp only [pops]; omega

theorem prim_step_ne_fault (P : PriorityQueue Edge) (comp : Edge → Edge → Bool)
    (inv : P.Q → Prop) (hP : LawfulPQ P comp inv) (g : VVE) (hg : ValidGraph g) (st : State P)
    (hwf : WF P inv g st) : step P g st ≠ .fault := by
  rcases prim_step_cases P comp inv hP g hg st hwf with
    ⟨_, h⟩ | ⟨_, _, h⟩ | ⟨_, cur, pq1, _, _, _, h⟩
  · rw [h]; simp
  · rw [h]; simp
  · rcases h with ⟨_, h⟩ | ⟨_, pq2, _, _, h⟩ <;> rw [h] <;> simp

/-- The code before the loop of `prim`: it does not fault, and leaves a
well-shaped state whose queue holds the edges of `s` that lead elsewhere. -/
theorem prim_init (P : PriorityQueue Edge) (comp : Edge → Edge → Bool) (inv : P.Q → Prop)
    (hP : LawfulPQ P comp inv) (cost0 : Int) (s : Nat) (g : VVE) (hg : ValidGraph g)
    (hs : s < g.length) :
    ∃ pq, prim P cost0 s g
        = runLoop (step P g) (fuelBound g) ⟨cost0, (List.replicate g.length false).set s true, pq, 0⟩ ∧
      WF P inv g ⟨cost0, (List.replicate g.length false).set s true, pq, 0⟩ ∧
      (P.toList pq).Perm (pushed g ((List.replicate g.length false).set s true) s) ∧
      pops P g ⟨cost0, (List.replicate g.length false).set s true, pq, 0⟩ < fuelBound g := by
  have hge : g[s]? = some g[s] := List.getElem?_eq_getElem hs
  have hlt : ∀ e ∈ g[s], e.v < ((List.replicate g.length false).set s true).length := by
    intro e he
    simp only [List.length_set, List.length_replicate]
    exact hg _ (List.getElem_mem _) e he
  obtain ⟨pq, h1, h2, h3⟩ := pushEdges_spec P comp inv hP
    ((List.replicate g.length false).set s true) g[s] P.empty hP.inv_empty hlt
  rw [hP.toList_empty, List.append_nil] at h3
  have hpu : pushed g ((List.replicate g.length false).set s true) s = g[s].filter
      (fun e => decide (((List.replicate g.length false).set s true)[e.v]? = some false)) := by
    simp [pushed, hge]
  refine ⟨pq, by simp only [prim, hge, h1], ⟨by simp, h2, ?_⟩, by rw [hpu]; exact h3, ?_⟩
  · intro x hx
    have := (List.mem_filter.1 (h3.mem_iff.1 hx)).1
    exact hg _ (List.getElem_mem _) x this
  · have hs0 : (List.replicate g.length false)[s]? = some false := by simp [hs]
    have h4 := pendingEdges_set (List.replicate g.length false) g s g[s] hs0 hge
    rw [pendingEdges_replicate] at h4
    have h5 : (P.toList pq).length ≤ g[s].length := by
      rw [h3.length_eq]; exact List.length_filter_le _ _
    simp only [pops, fuelBound]
    omega

end Prim

/-! ## Prim: the accumulator -/

namespace Prim

/-- The accumulator takes no part in the control flow: a run from the value
`c` goes as the run from the value `c1` does, and returns `c` with the
weights of the accepted edges added one after another. -/
theorem prim_runLoop_dsum (P : PriorityQueue Edge) (g : VVE) :
    ∀ (n : Nat) (c c1 : Int) (vis : List Bool) (pq : P.Q) (i : Nat),
      runLoop (step P g) n ⟨c, vis, pq, i⟩ =
        (runLoop (step P g) n ⟨c1, vis, pq, i⟩).map (fun _ =>
          dsum c ((runTrace (step P g) (accepts P g) n ⟨c1, vis, pq, i⟩).map Edge.w)) := by
  intro n
  induction n with
  | zero => intro c c1 vis pq i; rfl
  | succ k ih =>
    intro c c1 vis pq i
    simp only [runLoop, runTrace, step, accepts]
    by_cases hi : i < g.length - 1
    · simp only [hi, if_true]
      cases P.pop? pq with
      | none => rfl
      | some xq =>
        obtain ⟨cur, pq1⟩ := xq
        simp only
        cases vis[cur.v]? with
        | none => rfl
        | some b =>
          cases b with
          | true =>
            simp only [Option.toList, List.nil_append]
            exact ih c c1 vis pq1 i
          | false =>
            simp only
            cases g[cur.v]? with
            | none => rfl
            | some es =>
              simp only
              cases pushEdges P (vis.set cur.v true) es pq1 with
              | none => rfl
              | some pq2 =>
                simp only [Option.toList, List.singleton_append, List.map_cons, dsum_cons]
                exact ih (dadd c cur.w) (dadd c1 cur.w) (vis.set cur.v true) pq2 (i + 1)
    · simp only [hi, if_false]
      rfl

/-- What `prim` returns is the value its accumulator happens to start with,
with the weights of the accepted edges added to it one after another. -/
theorem prim_accumulates (P : PriorityQueue Edge) (cost0 : Int) (s : Nat) (g : VVE) :
    prim P cost0 s g =
      (prim P 0 s g).map (fun _ => dsum cost0 ((accepted P s g).map Edge.w)) := by
  simp only [prim, accepted]
  cases g[s]? with
  | none => rfl
  | some es =>
    simp only
    cases pushEdges P ((List.replicate g.length false).set s true) es P.empty with
    | none => rfl
    | some pq =>
      exact prim_runLoop_dsum P g (fuelBound g) cost0 0 _ pq 0

/-- A start vertex without an edge to another vertex: the loop ends at once
and the accumulator is returned as it was found. -/
theorem prim_returns_initial (P : PriorityQueue Edge) (comp : Edge → Edge → Bool)
    (inv : P.Q → Prop) (hP : LawfulPQ P comp inv) (cost0 : Int) (s : Nat) (g : VVE)
    (hg : ValidGraph g) (hs : s < g.length) (hloop : ∀ e ∈ g.getD s [], e.v = s) :
    prim P cost0 s g = .ok cost0 := by
  obtain ⟨pq, h1, hwf, hperm, _⟩ := prim_init P comp inv hP cost0 s g hg hs
  have hnil : pushed g ((List.replicate g.length false).set s true) s = [] := by
    apply List.eq_nil_iff_forall_not_mem.2
    intro e he
    obtain ⟨he1, he2⟩ := (prim_mem_pushed g _ s e).1 he
    rw [hloop e he1, List.getElem?_set_self (by simpa using hs)] at he2
    cases he2
  rw [hnil] at hperm
  have hpq : P.toList pq = [] := List.Perm.eq_nil hperm
  rw [h1]
  simp only [fuelBound, runLoop]
  rcases prim_step_cases P comp inv hP g hg _ hwf with
    ⟨_, h⟩ | ⟨_, _, h⟩ | ⟨_, cur, pq1, _, hp, _, _⟩
  · rw [h]
  · rw [h]
  · simp only [hpq] at hp
    exact absurd hp.length_eq (by simp)

theorem mainGraph_eq : mainGraph =
    [[⟨1, ofLL 1⟩, ⟨2, ofLL 5⟩], [⟨0, ofLL 1⟩, ⟨2, ofLL 2⟩, ⟨3, ofLL 1⟩],
      [⟨0, ofLL 5⟩, ⟨1, ofLL 2⟩, ⟨3, ofLL 3⟩], [⟨2, ofLL 3⟩, ⟨1, ofLL 1⟩], []] := by
  decide

/-- C7: on the graph of `main`, where vertex 4 has no edge, `prim(4, g)`
returns the value its accumulator started with: the source never
initializes `cost`, so that value is 0 only by accident. -/
theorem prim_isolated_returns_accumulator :
    ∀ cost0 : Int, prim (stdHeap priority) cost0 4 mainGraph = .ok cost0 := by
  intro cost0
  refine prim_returns_initial (stdHeap priority) priority _
    (stdHeap_lawful priority prim_priority_strictWeak) cost0 4 mainGraph ?_ ?_ ?_
  · rw [mainGraph_eq]; unfold ValidGraph; decide
  · rw [mainGraph_eq]; decide
  · rw [mainGraph_eq]; decide

/-- Adding whole numbers to a whole number is exact while the magnitudes stay
within `2^53`. -/
theorem dadd_whole (k n : Int) (hk1 : -(2 ^ 53) ≤ k) (hk2 : k ≤ 2 ^ 53) (hn1 : -(2 ^ 53) ≤ n)
    (hn2 : n ≤ 2 ^ 53) (h1 : -(2 ^ 53) ≤ k + n) (h2 : k + n ≤ 2 ^ 53) :
    dadd (k * (ulps : Int)) (n * (ulps : Int)) = (k + n) * (ulps : Int) := by
  have hu : (ulps : Int) = ((2 ^ 1074 : Nat) : Int) := rfl
  have hB : ((2 ^ (53 + 1074) : Nat) : Int) = 2 ^ 53 * (ulps : Int) := by
    rw [hu, pow_add]; push_cast
  have hpos : (0 : Int) < (ulps : Int) := by decide
  have hle : ∀ x : Int, x ≤ 2 ^ 53 → x * (ulps : Int) ≤ ((2 ^ (53 + 1074) : Nat) : Int) := by
    intro x hx
    rw [hB]
    exact Int.mul_le_mul_of_nonneg_right hx (le_of_lt hpos)
  have hge : ∀ x : Int, -(2 ^ 53) ≤ x → -((2 ^ (53 + 1074) : Nat) : Int) ≤ x * (ulps : Int) := by
    intro x hx
    rw [hB, ← neg_mul]
    exact Int.mul_le_mul_of_nonneg_right hx (le_of_lt hpos)
  have := dadd_of_grid 1074 (by decide) (k * (ulps : Int)) (n * (ulps : Int))
    (Dvd.intro_left _ rfl) (Dvd.intro_left _ rfl) (hge k hk1) (hle k hk2) (hge n hn1) (hle n hn2)
    (by rw [← add_mul]; exact hge _ h1) (by rw [← add_mul]; exact hle _ h2)
  rw [this, add_mul]

/-- On the graph of `main`, `prim(0, g)` accepts edges of weight 1, 1 and 2. -/
theorem prim_mainGraph_accumulates (cost0 : Int) :
    prim (stdHeap priority) cost0 0 mainGraph
      = .ok (dadd (dadd (dadd cost0 (ofLL 1)) (ofLL 1)) (ofLL 2)) := by
  have h0 : prim (stdHeap priority) 0 0 mainGraph = .ok (ofLL 4) := by decide
  have ha : accepted (stdHeap priority) 0 mainGraph
      = [⟨1, ofLL 1⟩, ⟨3, ofLL 1⟩, ⟨2, ofLL 2⟩] := by decide
  rw [prim_accumulates, h0, ha]
  rfl

/-- From a whole number `k` of magnitude below `2^53 - 4`, adding 1, 1 and 2
gives `k + 4`. -/
theorem dadd_one_one_two (k : Int) (hk1 : -(2 ^ 53) ≤ k) (hk2 : k + 4 ≤ 2 ^ 53) :
    dadd (dadd (dadd (k * (ulps : Int)) (ofLL 1)) (ofLL 1)) (ofLL 2) = (k + 4) * (ulps : Int) := by
  have e1 : ofLL 1 = 1 * (ulps : Int) := by decide
  have e2 : ofLL 2 = 2 * (ulps : Int) := by decide
  have hb : (2 : Int) ^ 53 = 9007199254740992 := by norm_num
  rw [e1, e2, dadd_whole k 1 (by omega) (by omega) (by omega) (by omega) (by omega)
    (by omega), dadd_whole (k + 1) 1 (by omega) (by omega) (by omega) (by omega) (by omega)
    (by omega), dadd_whole (k + 1 + 1) 2 (by omega) (by omega) (by omega) (by omega) (by omega)
    (by omega)]
  congr 1
  ring

/-- C3: on the graph of `main`, whose minimum spanning tree weighs 4,
`prim(0, g)` returns the value its accumulator started with, with 1, 1 and 2
added to it: the source never initializes `cost`.  From a whole number `k`
of magnitude below `2^53 - 4` that is `k + 4`, and 4 only when `k` is 0. -/
theorem prim_main_returns_accumulator_plus_four :
    ∀ cost0 : Int,
      prim (stdHeap priority) cost0 0 mainGraph
        = .ok (dadd (dadd (dadd cost0 (ofLL 1)) (ofLL 1)) (ofLL 2)) ∧
      ∀ k : Int, -(2 ^ 53) ≤ k → k + 4 ≤ 2 ^ 53 → cost0 = k * (ulps : Int) →
        prim (stdHeap priority) cost0 0 mainGraph = .ok ((k + 4) * (ulps : Int)) := by
  intro cost0
  refine ⟨prim_mainGraph_accumulates cost0, ?_⟩
  intro k hk1 hk2 hc
  rw [prim_mainGraph_accumulates, hc, dadd_one_one_two k hk1 hk2]

end Prim

/-! ## Prim: the accepted edges form a spanning tree -/

theorem arcGraph_getElem? (n : Nat) (T : List Arc) (u : Nat) :
    (arcGraph n T)[u]? = if u < n then
      some ((T.filter (fun a => decide (a.1 = u))).map (fun a => a.2)) else none := by
  simp only [arcGraph, List.getElem?_map, List.getElem?_range]
  by_cases h : u < n
  · simp [h, List.getElem?_range h]
  · have hle : n ≤ u := by omega
    simp [h, hle]

theorem mem_arcGraph (n : Nat) (T : List Arc) (u : Nat) (e : Edge) :
    e ∈ (arcGraph n T).getD u [] ↔ u < n ∧ (u, e) ∈ T := by
  rw [List.getD_eq_getElem?_getD, arcGraph_getElem?]
  by_cases h : u < n
  · simp only [h, if_true, Option.getD_some, List.mem_map, List.mem_filter, decide_eq_true_eq,
      true_and]
    constructor
    · rintro ⟨a, ⟨ha, hu⟩, rfl⟩
      rw [← hu]; exact ha
    · intro hm
      exact ⟨(u, e), ⟨hm, rfl⟩, rfl⟩
  · simp [h]

theorem isPath_arcGraph_mono (n : Nat) (T T1 : List Arc) (hsub : ∀ a ∈ T, a ∈ T1) :
    ∀ (p : List Edge) (a b : Nat), IsPath (arcGraph n T) a p b → IsPath (arcGraph n T1) a p b := by
  intro p
  induction p with
  | nil => intro a b h; exact h
  | cons e p ih =>
    intro a b h
    obtain ⟨h1, h2⟩ := (mem_arcGraph n T a e).1 h.1
    exact ⟨(mem_arcGraph n T1 a e).2 ⟨h1, hsub _ h2⟩, ih e.v b h.2⟩

theorem isPath_arcGraph_stored (g : VVE) (T : List Arc) (hT : StoredArcs g T) (n : Nat) :
    ∀ (p : List Edge) (a b : Nat), IsPath (arcGraph n T) a p b → IsPath g a p b := by
  intro p
  induction p with
  | nil => intro a b h; exact h
  | cons e p ih =>
    intro a b h
    obtain ⟨_, h2⟩ := (mem_arcGraph n T a e).1 h.1
    exact ⟨hT (a, e) h2, ih e.v b h.2⟩

theorem treeWeight_snoc (T : List Arc) (a : Arc) : treeWeight (T ++ [a]) = treeWeight T + a.2.w := by
  simp [treeWeight]

theorem accumulate_snoc (c : Int) (T : List Arc) (a : Arc) :
    accumulate c (T ++ [a]) = dadd (accumulate c T) a.2.w := by
  simp only [accumulate, List.map_append, List.map_cons, List.map_nil, dsum_snoc]

theorem count_set_true (vis : List Bool) (v : Nat) (h : vis[v]? = some false) :
    (vis.set v true).count true = vis.count true + 1 := by
  have hlt : v < vis.length := by
    by_contra hn
    rw [List.getElem?_eq_none (by omega)] at h
    cases h
  have hv : vis[v] = false := by
    rw [List.getElem?_eq_getElem hlt] at h
    injection h
  rw [List.count_set true true vis v hlt, hv]
  simp

theorem all_true_of_count (vis : List Bool) (h : vis.count true = vis.length) (v : Nat)
    (hv : v < vis.length) : vis[v]? = some true := by
  rw [List.getElem?_eq_getElem hv]
  have := (List.count_eq_length.1 h) vis[v] (List.getElem_mem _)
  rw [← this]

theorem lt_of_getElem?_eq_some {α : Type} (l : List α) (v : Nat) (a : α) (h : l[v]? = some a) :
    v < l.length := by
  by_contra hn
  rw [List.getElem?_eq_none (by omega)] at h
  cases h

namespace Prim

theorem prim_step_next_tree (P : PriorityQueue Edge) (comp : Edge → Edge → Bool)
    (inv : P.Q → Prop) (hP : LawfulPQ P comp inv) (g : VVE) (hg : ValidGraph g) (s : Nat)
    (cost0 : Int) (st st1 : State P) (hwf : WF P inv g st) (T : List Arc)
    (hT : TreeInv P g s cost0 st T) (hs : step P g st = .next st1) :
    (TreeInv P g s cost0 st1 T) ∨
    ∃ u cur, TreeInv P g s cost0 st1 (T ++ [(u, cur)]) ∧ st.vis[u]? = some true ∧
      st.vis[cur.v]? = some false ∧ cur ∈ g.getD u [] ∧
      ∀ y ∈ P.toList st.pq, comp cur y = false := by
  rcases prim_step_cases P comp inv hP g hg st hwf with
    ⟨_, h⟩ | ⟨_, _, h⟩ | ⟨_, cur, pq1, hinv1, hperm, hmin, h⟩
  · rw [h] at hs; cases hs
  · rw [h] at hs; cases hs
  · have hcurmem : cur ∈ P.toList st.pq := hperm.mem_iff.2 (List.mem_cons_self _ _)
    have hrest : ∀ x, x ∈ P.toList st.pq → x.v ≠ cur.v → x ∈ P.toList pq1 := by
      intro x hx hne
      rcases List.mem_cons.1 (hperm.mem_iff.1 hx) with h | h
      · rw [h] at hne; exact absurd rfl hne
      · exact h
    rcases h with ⟨hb, h⟩ | ⟨hb, pq2, hinv2, hperm2, h⟩
    · rw [h] at hs
      injection hs with hs
      subst hs
      left
      refine ⟨hT.cost_eq, hT.count, hT.stored, hT.heads, hT.nodup, hT.reach, ?_, hT.visCount, ?_,
        hT.start⟩
      · intro e he
        exact hT.entries e (hperm.mem_iff.2 (List.mem_cons_of_mem _ he))
      · intro u hu e he hev
        refine hrest e (hT.frontier u hu e he hev) ?_
        intro hc
        rw [hc, hb] at hev
        cases hev
    · rw [h] at hs
      injection hs with hs
      subst hs
      obtain ⟨u, hu, hcu⟩ := hT.entries cur hcurmem
      have hul : u < g.length := by
        rw [← hwf.vis_len]; exact lt_of_getElem?_eq_some _ _ _ hu
      have hin2 : ∀ x, x ∈ P.toList pq1 → x ∈ P.toList pq2 := fun x hx =>
        hperm2.mem_iff.2 (List.mem_append_right _ hx)
      right
      refine ⟨u, cur, ⟨?_, ?_, ?_, ?_, ?_, ?_, ?_, ?_, ?_, ?_⟩, hu, hb, hcu, hmin⟩
      · simp only [accumulate_snoc, hT.cost_eq]
      · simp [hT.count]
      · intro a ha
        rcases List.mem_append.1 ha with h1 | h1
        · exact hT.stored a h1
        · simp only [List.mem_singleton] at h1
          subst h1
          exact hcu
      · intro a ha
        simp only
        rcases List.mem_append.1 ha with h1 | h1
        · exact ⟨(set_true_eq_true st.vis cur.v _ hb).2 (Or.inr (hT.heads a h1).1),
            (hT.heads a h1).2⟩
        · simp only [List.mem_singleton] at h1
          subst h1
          refine ⟨(set_true_eq_true st.vis cur.v _ hb).2 (Or.inl rfl), ?_⟩
          intro hc
          simp only at hc
          rw [hc, hT.start] at hb
          cases hb
      · rw [List.map_append]
        refine List.nodup_append.2 ⟨hT.nodup, by simp, ?_⟩
        intro x hx1 hx2
        simp only [List.map_cons, List.map_nil, List.mem_singleton] at hx2
        obtain ⟨a, ha, rfl⟩ := List.mem_map.1 hx1
        have := (hT.heads a ha).1
        rw [hx2, hb] at this
        cases this
      · intro v hv
        simp only at hv
        have hmono := isPath_arcGraph_mono g.length T (T ++ [(u, cur)])
          (fun a ha => List.mem_append_left _ ha)
        rcases (set_true_eq_true st.vis cur.v v hb).1 hv with h1 | h1
        · subst h1
          obtain ⟨p, hp⟩ := hT.reach u hu
          refine ⟨p ++ [cur], isPath_snoc _ cur p s u (hmono p s u hp) ?_⟩
          exact (mem_arcGraph _ _ u cur).2 ⟨hul, by simp⟩
        · obtain ⟨p, hp⟩ := hT.reach v h1
          exact ⟨p, hmono p s v hp⟩
      · intro e he
        simp only at he ⊢
        rcases List.mem_append.1 (hperm2.mem_iff.1 he) with h1 | h1
        · exact ⟨cur.v, (set_true_eq_true st.vis cur.v cur.v hb).2 (Or.inl rfl),
            ((prim_mem_pushed g _ cur.v e).1 h1).1⟩
        · obtain ⟨u1, hu1, he1⟩ := hT.entries e (hperm.mem_iff.2 (List.mem_cons_of_mem _ h1))
          exact ⟨u1, (set_true_eq_true st.vis cur.v u1 hb).2 (Or.inr hu1), he1⟩
      · simp only
        rw [count_set_true st.vis cur.v hb, hT.visCount]
      · intro u1 hu1 e he hev
        simp only at hu1 hev ⊢
        obtain ⟨hne, hev0⟩ := (set_true_eq_false st.vis cur.v e.v hb).1 hev
        rcases (set_true_eq_true st.vis cur.v u1 hb).1 hu1 with h1 | h1
        · subst h1
          exact hperm2.mem_iff.2 (List.mem_append_left _
            ((prim_mem_pushed g _ cur.v e).2 ⟨he, hev⟩))
        · exact hin2 e (hrest e (hT.frontier u1 h1 e he hev0) hne)
      · exact (set_true_eq_true st.vis cur.v s hb).2 (Or.inr hT.start)

theorem prim_init_tree (P : PriorityQueue Edge) (g : VVE) (s : Nat) (cost0 : Int) (pq : P.Q)
    (hs : s < g.length)
    (hperm : (P.toList pq).Perm (pushed g ((List.replicate g.length false).set s true) s)) :
    TreeInv P g s cost0 ⟨cost0, (List.replicate g.length false).set s true, pq, 0⟩ [] := by
  have hs0 : (List.replicate g.length false)[s]? = some false := by simp [hs]
  have honly : ∀ v : Nat, ((List.replicate g.length false).set s true)[v]? = some true → v = s := by
    intro v hv
    rcases (set_true_eq_true _ s v hs0).1 hv with h | h
    · exact h
    · simp only [List.getElem?_replicate] at h
      split at h <;> simp at h
  have hst : ((List.replicate g.length false).set s true)[s]? = some true :=
    (set_true_eq_true _ s s hs0).2 (Or.inl rfl)
  refine ⟨rfl, rfl, (fun a ha => by cases ha), (fun a ha => by cases ha), by simp, ?_, ?_, ?_, ?_,
    hst⟩
  · intro v hv
    rw [honly v hv]
    exact ⟨[], rfl⟩
  · intro e he
    exact ⟨s, hst, ((prim_mem_pushed g _ s e).1 (hperm.mem_iff.1 he)).1⟩
  · simp only
    rw [count_set_true _ s hs0]
    simp [List.count_replicate]
  · intro u hu e he hev
    simp only at hu hev ⊢
    rw [honly u hu] at he
    exact hperm.mem_iff.2 ((prim_mem_pushed g _ s e).2 ⟨he, hev⟩)

/-- With any weights, on any graph with its edge ends inside: `prim` returns,
and what it returns is the initial content of the accumulator with the
weights of the edges of a tree added one after another, a tree of stored
edges that reaches exactly the vertices reachable from `s`.  Any property `X`
that the empty set of edges has and that is kept when a lightest edge of the
queue is accepted holds of that tree. -/
theorem prim_returns_tree_with (P : PriorityQueue Edge) (comp : Edge → Edge → Bool)
    (inv : P.Q → Prop) (hP : LawfulPQ P comp inv) (cost0 : Int) (s : Nat) (g : VVE)
    (hg : ValidGraph g) (hs : s < g.length) (X : List Arc → Prop) (hX0 : X [])
    (hX : ∀ (st : State P) (T : List Arc) (u : Nat) (cur : Edge), WF P inv g st →
      TreeInv P g s cost0 st T → X T → st.vis[u]? = some true → st.vis[cur.v]? = some false →
      cur ∈ g.getD u [] → (∀ y ∈ P.toList st.pq, comp cur y = false) → X (T ++ [(u, cur)])) :
    ∃ r T, prim P cost0 s g = .ok r ∧ TreeResult g s cost0 r T ∧ X T := by
  obtain ⟨pq, h1, hwf, hperm, hfuel⟩ := prim_init P comp inv hP cost0 s g hg hs
  rw [h1]
  have := runLoop_rule (step P g)
    (fun st => WF P inv g st ∧ ∃ T, TreeInv P g s cost0 st T ∧ X T)
    (pops P g) (fun r => ∃ T, TreeResult g s cost0 r T ∧ X T) ?_ ?_ ?_ (fuelBound g) _
    ⟨hwf, [], prim_init_tree P g s cost0 pq hs hperm, hX0⟩ hfuel
  · obtain ⟨r, hr, T, hT⟩ := this
    exact ⟨r, T, hr, hT⟩
  · intro st hI
    exact prim_step_ne_fault P comp inv hP g hg st hI.1
  · intro st st1 hI hst
    obtain ⟨hw, T, hT, hXT⟩ := hI
    obtain ⟨h2, h3⟩ := prim_step_next_wf P comp inv hP g hg st st1 hw hst
    refine ⟨⟨h2, ?_⟩, h3⟩
    rcases prim_step_next_tree P comp inv hP g hg s cost0 st st1 hw T hT hst with
      h | ⟨u, cur, h, hu, hb, hcu, hmin⟩
    · exact ⟨T, h, hXT⟩
    · exact ⟨_, h, hX st T u cur hw hT hXT hu hb hcu hmin⟩
  · intro st r hI hst
    obtain ⟨hw, T, hT, hXT⟩ := hI
    have hclosed : (∀ u, st.vis[u]? = some true → ∀ e ∈ g.getD u [],
        st.vis[e.v]? = some true) → ∀ v, (∃ p, IsPath g s p v) → st.vis[v]? = some true := by
      intro hcl v hv
      obtain ⟨p, hp⟩ := hv
      have key : ∀ (p : List Edge) (a b : Nat), IsPath g a p b → st.vis[a]? = some true →
          st.vis[b]? = some true := by
        intro p
        induction p with
        | nil => intro a b h ha; simp only [IsPath] at h; subst h; exact ha
        | cons e p ih => intro a b h ha; exact ih e.v b h.2 (hcl a ha e h.1)
      exact key p s v hp hT.start
    have hfin : r = st.cost → (∀ v, (∃ p, IsPath g s p v) → st.vis[v]? = some true) →
        ∃ T, TreeResult g s cost0 r T ∧ X T := by
      intro hr hall
      refine ⟨T, ⟨by rw [hr, hT.cost_eq], ⟨hT.stored, hT.nodup, ?_, ?_⟩, st.vis, hw.vis_len,
        by rw [hT.count, hT.visCount], hall⟩, hXT⟩
      · intro a ha
        obtain ⟨h1, h2⟩ := hT.heads a ha
        obtain ⟨p, hp⟩ := hT.reach _ h1
        exact ⟨h2, p, isPath_arcGraph_stored g T hT.stored g.length p s _ hp⟩
      · intro v hv
        exact hT.reach v (hall v hv)
    rcases prim_step_cases P comp inv hP g hg st hw with
      ⟨hi, h⟩ | ⟨_, hnil, h⟩ | ⟨_, cur, pq1, _, _, _, h⟩
    · rw [h] at hst
      injection hst with hst
      refine hfin hst.symm ?_
      have hle : st.vis.count true ≤ st.vis.length := List.count_le_length _ _
      have hcnt : st.vis.count true = st.vis.length := by
        have := hT.visCount
        have := hw.vis_len
        omega
      intro v hv
      obtain ⟨p, hp⟩ := hv
      exact all_true_of_count st.vis hcnt v
        (by rw [hw.vis_len]; exact isPath_lt g hg p s v hs hp)
    · rw [h] at hst
      injection hst with hst
      refine hfin hst.symm (hclosed ?_)
      intro u hu e he
      obtain ⟨es, hes, hee⟩ := (mem_getD_iff g u e).1 he
      have hev : e.v < st.vis.length := by
        rw [hw.vis_len]; exact hg es (List.getElem?_mem hes) e hee
      rcases getElem?_bool_cases st.vis e.v hev with h1 | h1
      · exact h1
      · have := hT.frontier u hu e he h1
        rw [hnil] at this
        cases this
    · rcases h with ⟨_, h⟩ | ⟨_, pq2, _, _, h⟩ <;> rw [h] at hst <;> cases hst

theorem prim_returns_tree (P : PriorityQueue Edge) (comp : Edge → Edge → Bool)
    (inv : P.Q → Prop) (hP : LawfulPQ P comp inv) (cost0 : Int) (s : Nat) (g : VVE)
    (hg : ValidGraph g) (hs : s < g.length) :
    ∃ r T, prim P cost0 s g = .ok r ∧ TreeResult g s cost0 r T := by
  obtain ⟨r, T, hr, hT, _⟩ := prim_returns_tree_with P comp inv hP cost0 s g hg hs
    (fun _ => True) trivial (fun _ _ _ _ _ _ _ _ _ _ _ => trivial)
  exact ⟨r, T, hr, hT⟩

end Prim

namespace Prim

/-- C6: on the graph with the single edge 0->1 (3), the only tree of stored
edges that spans the vertices reachable from 0 weighs 3, and `prim(0, g)`
returns the value its accumulator started with, with 3 added to it: the
source never initializes `cost`.  From a whole number `k` of magnitude below
`2^53 - 3` that is `k + 3`, and 3 only when `k` is 0. -/
theorem prim_single_edge_returns_accumulator_plus_three :
    (∀ T, SpanningTree [[⟨1, ofLL 3⟩], []] 0 T → treeWeight T = ofLL 3) ∧
    ∀ cost0 : Int,
      prim (stdHeap priority) cost0 0 [[⟨1, ofLL 3⟩], []] = .ok (dadd cost0 (ofLL 3)) ∧
      ∀ k : Int, -(2 ^ 53) ≤ k → k + 3 ≤ 2 ^ 53 → cost0 = k * (ulps : Int) →
        prim (stdHeap priority) cost0 0 [[⟨1, ofLL 3⟩], []] = .ok ((k + 3) * (ulps : Int)) := by
  refine ⟨?_, ?_⟩
  · rintro T ⟨hst, hlen, _⟩
    match T, hlen with
    | [a], _ =>
      have ha := hst a (List.mem_singleton_self a)
      obtain ⟨u, e⟩ := a
      simp only at ha
      match u, ha with
      | 0, ha =>
        simp at ha
        subst ha
        rfl
      | 1, ha => simp at ha
      | k + 2, ha => simp at ha
  · intro cost0
    have h0 : prim (stdHeap priority) 0 0 [[⟨1, ofLL 3⟩], []] = .ok (ofLL 3) := by decide
    have ha : accepted (stdHeap priority) 0 [[⟨1, ofLL 3⟩], []] = [⟨1, ofLL 3⟩] := by decide
    have key : prim (stdHeap priority) cost0 0 [[⟨1, ofLL 3⟩], []]
        = .ok (dadd cost0 (ofLL 3)) := by
      rw [prim_accumulates, h0, ha]
      rfl
    refine ⟨key, ?_⟩
    intro k hk1 hk2 hc
    have e3 : ofLL 3 = 3 * (ulps : Int) := by decide
    have hb : (2 : Int) ^ 53 = 9007199254740992 := by norm_num
    rw [key, hc, e3, dadd_whole k 3 (by omega) (by omega) (by omega) (by omega) (by omega)
      (by omega)]

end Prim

/-! ## Prim: a heavier parallel edge -/

namespace Prim

end Prim

namespace Prim

end Prim

namespace Prim

end Prim

namespace Prim

end Prim

namespace Prim

end Prim

namespace Prim

end Prim

/-! ## addEdge -/

namespace Prim

/-- C12, as stated, fails for a weight that is not a double: `addEdge` takes
the weight as a `long long` and stores it in a `double`.  For `w = 2^53 + 1`,
the two edges that `addEdge(0, 1, w, g)` appends carry `2^53`, not the weight
that was passed in. -/
theorem addEdge_rounds_weight :
    -(2 ^ 63 : Int) ≤ 2 ^ 53 + 1 ∧ (2 ^ 53 + 1 : Int) < 2 ^ 63 ∧
    addEdge 0 1 (2 ^ 53 + 1) [[], []]
      = some [[⟨1, 2 ^ 53 * (ulps : Int)⟩], [⟨0, 2 ^ 53 * (ulps : Int)⟩]] ∧
    (2 ^ 53 * (ulps : Int) ≠ (2 ^ 53 + 1) * (ulps : Int)) ∧
    ¬ IsDouble ((2 ^ 53 + 1) * (ulps : Int)) := by
  decide

/-- C12, amended: for `u, v < N`, `addEdge(u, v, w, g)` succeeds, keeps the
number of vertices and every edge sequence other than those of `u` and `v`,
appends `(v, w)` at the end of the sequence of `u` and `(u, w)` at the end of
the sequence of `v`, both carrying the same weight, which is `w` converted to
`double`: the double nearest to `w`, and `w` itself when `|w| ≤ 2^53`.  When
`u = v` the sequence of `u` grows by two such entries `(u, w)`. -/
theorem addEdge_appends_converted (g : VVE) (u v : Nat) (w : Int) (hu : u < g.length)
    (hv : v < g.length) :
    ∃ g2, addEdge u v w g = some g2 ∧ g2.length = g.length ∧
      (∀ x, x ≠ u → x ≠ v → g2[x]? = g[x]?) ∧
      (u ≠ v → g2[u]? = some (g.getD u [] ++ [⟨v, ofLL w⟩]) ∧
        g2[v]? = some (g.getD v [] ++ [⟨u, ofLL w⟩])) ∧
      (u = v → g2[u]? = some (g.getD u [] ++ [⟨u, ofLL w⟩, ⟨u, ofLL w⟩])) ∧
      IsDouble (ofLL w) ∧ (w.natAbs ≤ 2 ^ 53 → ofLL w = w * (ulps : Int)) := by
  have hgu : g[u]? = some g[u] := List.getElem?_eq_getElem hu
  have hgv : g[v]? = some g[v] := List.getElem?_eq_getElem hv
  obtain ⟨g1, h1⟩ : ∃ g1, pushBack g u ⟨v, ofLL w⟩ = some g1 := by
    simp only [pushBack, hgu]; exact ⟨_, rfl⟩
  have hl1 := pushBack_length g g1 u _ h1
  have hg1v : g1[v]? = some g1[v] := List.getElem?_eq_getElem (by omega)
  obtain ⟨g2, h2⟩ : ∃ g2, pushBack g1 v ⟨u, ofLL w⟩ = some g2 := by
    simp only [pushBack, hg1v]; exact ⟨_, rfl⟩
  have hl2 := pushBack_length g1 g2 v _ h2
  refine ⟨g2, by simp only [addEdge, h1, h2], by omega, ?_, ?_, ?_, isDouble_roundD _,
    ofLL_exact w⟩
  · intro x hxu hxv
    rw [pushBack_getElem? _ _ v _ h2 x, if_neg hxv, pushBack_getElem? _ _ u _ h1 x, if_neg hxu]
  · intro huv
    refine ⟨?_, ?_⟩
    · rw [pushBack_getElem? _ _ v _ h2 u, if_neg huv, pushBack_getElem? _ _ u _ h1 u,
        if_pos rfl]
      simp [hgu]
    · rw [pushBack_getElem? _ _ v _ h2 v, if_pos rfl, pushBack_getElem? _ _ u _ h1 v,
        if_neg (Ne.symm huv)]
      simp [hgv]
  · intro huv
    subst huv
    rw [pushBack_getElem? _ _ u _ h2 u, if_pos rfl, pushBack_getElem? _ _ u _ h1 u, if_pos rfl]
    simp [hgu]

/-- C12, amended, on the first call of `main`, and on a call with `u = v`. -/
theorem addEdge_appends_converted_witness :
    (∃ g2, addEdge 0 1 1 (List.replicate 5 []) = some g2 ∧
      g2.length = (List.replicate 5 ([] : VE)).length ∧
      (∀ x, x ≠ 0 → x ≠ 1 → g2[x]? = (List.replicate 5 ([] : VE))[x]?) ∧
      (0 ≠ 1 → g2[0]? = some ((List.replicate 5 ([] : VE)).getD 0 [] ++ [⟨1, ofLL 1⟩]) ∧
        g2[1]? = some ((List.replicate 5 ([] : VE)).getD 1 [] ++ [⟨0, ofLL 1⟩])) ∧
      (0 = 1 → g2[0]? = some ((List.replicate 5 ([] : VE)).getD 0 [] ++
        [⟨0, ofLL 1⟩, ⟨0, ofLL 1⟩])) ∧
      IsDouble (ofLL 1) ∧ ((1 : Int).natAbs ≤ 2 ^ 53 → ofLL 1 = 1 * (ulps : Int))) ∧
    addEdge 0 1 1 (List.replicate 5 [])
      = some [[⟨1, (ulps : Int)⟩], [⟨0, (ulps : Int)⟩], [], [], []] ∧
    addEdge 2 2 7 [[], [], [⟨0, ofLL 5⟩]]
      = some [[], [], [⟨0, ofLL 5⟩, ⟨2, 7 * (ulps : Int)⟩, ⟨2, 7 * (ulps : Int)⟩]] :=
  ⟨addEdge_appends_converted (List.replicate 5 []) 0 1 1 (by decide) (by decide), by decide,
    by decide⟩

end Prim

/-! ## Termination and index safety -/

theorem runLoop_no_fault {σ : Type} (step : σ → Step σ) (I : σ → Prop)
    (hfault : ∀ s, I s → step s ≠ .fault)
    (hnext : ∀ s s1, I s → step s = .next s1 → I s1) :
    ∀ (n : Nat) (s : σ), I s → runLoop step n s ≠ .error .outOfBounds := by
  intro n
  induction n with
  | zero => intro s _ h; simp [runLoop] at h
  | succ k ih =>
    intro s hI
    rw [runLoop]
    cases hs : step s with
    | done r => simp
    | fault => exact absurd hs (hfault s hI)
    | next s1 => exact ih s1 (hnext s s1 hI hs)

namespace Djikstra

/-- C13: with all edge ends inside the graph and valid `s`, `t`, whatever
the signs of the weights and whatever cycles the graph has, the loop of
`djikstra(s, t, g)` ends: within `fuelBound g` passes it returns a number,
and more fuel does not change it. -/
theorem djikstra_terminates (P : PriorityQueue Node) (inv : P.Q → Prop)
    (hP : LawfulPQ P priority inv) (g : VVE) (s t : Nat) (hg : ValidGraph g)
    (hs : s < g.length) (_ht : t < g.length) :
    ∃ r, djikstra P s t g = .ok r ∧
      ∀ n, fuelBound g ≤ n → runLoop (step P t g) n (init P s g) = .ok r := by
  obtain ⟨r, hr, _⟩ := djikstra_returns P priority inv hP s t g hg hs
  refine ⟨r, hr, fun n hn => ?_⟩
  simp only [djikstra, hs, if_true] at hr
  exact runLoop_ok_mono _ r _ n _ hr hn

/-- C13 on a graph with a negative cycle through vertices 1 and 2. -/
theorem djikstra_terminates_witness :
    ∃ r, djikstra (stdHeap priority) 0 3
        [[⟨1, ofLL 1⟩], [⟨2, ofLL (-5)⟩], [⟨1, ofLL 2⟩, ⟨3, ofLL 1⟩], []] = .ok r ∧
      ∀ n, fuelBound [[⟨1, ofLL 1⟩], [⟨2, ofLL (-5)⟩], [⟨1, ofLL 2⟩, ⟨3, ofLL 1⟩], []] ≤ n →
        runLoop (step (stdHeap priority) 3
            [[⟨1, ofLL 1⟩], [⟨2, ofLL (-5)⟩], [⟨1, ofLL 2⟩, ⟨3, ofLL 1⟩], []]) n
          (init (stdHeap priority) 0
            [[⟨1, ofLL 1⟩], [⟨2, ofLL (-5)⟩], [⟨1, ofLL 2⟩, ⟨3, ofLL 1⟩], []]) = .ok r :=
  djikstra_terminates (stdHeap priority) _ (stdHeap_lawful priority priority_strictWeak)
    _ 0 3 (by unfold ValidGraph; decide) (by decide) (by decide)

end Djikstra

/-- C16: with every edge end inside the graph and valid `s` (and any `t`),
no run of `djikstra(s, t, g)` or of `prim(s, g)` reads or writes outside a
vector: the out-of-bounds outcome of the bounds-checked embedding does not
occur, with any amount of fuel. -/
theorem no_index_out_of_range (P : PriorityQueue Djikstra.Node) (inv : P.Q → Prop)
    (hP : LawfulPQ P Djikstra.priority inv) (P1 : PriorityQueue Edge) (inv1 : P1.Q → Prop)
    (hP1 : LawfulPQ P1 Prim.priority inv1) (g : VVE) (s t : Nat) (hg : ValidGraph g)
    (hs : s < g.length) (_ht : t < g.length) (cost0 : Int) :
    (∀ n, runLoop (Djikstra.step P t g) n (Djikstra.init P s g) ≠ .error .outOfBounds) ∧
    Djikstra.djikstra P s t g ≠ .error .outOfBounds ∧
    Prim.prim P1 cost0 s g ≠ .error .outOfBounds := by
  have h1 : ∀ n, runLoop (Djikstra.step P t g) n (Djikstra.init P s g)
      ≠ .error .outOfBounds := by
    intro n
    exact runLoop_no_fault (Djikstra.step P t g) (Djikstra.WF P inv g)
      (fun st hI => Djikstra.step_ne_fault P _ inv hP t g hg st hI)
      (fun st st1 hI hst => (Djikstra.step_next_wf P _ inv hP t g hg st st1 hI hst).1)
      n _ (Djikstra.init_wf P _ inv hP s g hs).1
  refine ⟨h1, ?_, ?_⟩
  · simp only [Djikstra.djikstra, hs, if_true]
    exact h1 _
  · obtain ⟨pq, e, hwf, _, _⟩ := Prim.prim_init P1 _ inv1 hP1 cost0 s g hg hs
    rw [e]
    exact runLoop_no_fault (Prim.step P1 g) (Prim.WF P1 inv1 g)
      (fun st hI => Prim.prim_step_ne_fault P1 _ inv1 hP1 g hg st hI)
      (fun st st1 hI hst => (Prim.prim_step_next_wf P1 _ inv1 hP1 g hg st st1 hI hst).1)
      _ _ hwf

/-- C16 on the graphs of the two `main` functions. -/
theorem no_index_out_of_range_witness :
    ((∀ n, runLoop (Djikstra.step (stdHeap Djikstra.priority) 3 Prim.mainGraph) n
        (Djikstra.init (stdHeap Djikstra.priority) 0 Prim.mainGraph) ≠ .error .outOfBounds) ∧
      Djikstra.djikstra (stdHeap Djikstra.priority) 0 3 Prim.mainGraph ≠ .error .outOfBounds ∧
      Prim.prim (stdHeap Prim.priority) 0 0 Prim.mainGraph ≠ .error .outOfBounds) ∧
    Djikstra.djikstra (stdHeap Djikstra.priority) 0 3 Djikstra.mainGraph = .ok (ofLL 6) :=
  ⟨no_index_out_of_range (stdHeap Djikstra.priority) _
      (stdHeap_lawful _ Djikstra.priority_strictWeak) (stdHeap Prim.priority) _
      (stdHeap_lawful _ Prim.prim_priority_strictWeak) Prim.mainGraph 0 3
      (by rw [Prim.mainGraph_eq]; unfold ValidGraph; decide) (by decide) (by decide) 0,
    by decide⟩

/-! ## Djikstra: order of edges and of equal entries -/

theorem validGraph_iff (g : VVE) :
    ValidGraph g ↔ ∀ a e, e ∈ g.getD a [] → e.v < g.length := by
  constructor
  · intro h a e he
    obtain ⟨es, hes, hee⟩ := (mem_getD_iff g a e).1 he
    exact h es (List.getElem?_mem hes) e hee
  · intro h es hes e he
    obtain ⟨a, ha⟩ := List.mem_iff_getElem?.1 hes
    exact h a e ((mem_getD_iff g a e).2 ⟨es, ha, he⟩)

theorem nonNeg_iff (g : VVE) : NonNeg g ↔ ∀ a e, e ∈ g.getD a [] → 0 ≤ e.w := by
  constructor
  · intro h a e he
    obtain ⟨es, hes, hee⟩ := (mem_getD_iff g a e).1 he
    exact h es (List.getElem?_mem hes) e hee
  · intro h es hes e he
    obtain ⟨a, ha⟩ := List.mem_iff_getElem?.1 hes
    exact h a e ((mem_getD_iff g a e).2 ⟨es, ha, he⟩)

theorem mem_getD_of_perm (g1 g : VVE) (h : List.Forall₂ List.Perm g1 g) :
    ∀ (a : Nat) (e : Edge), e ∈ g1.getD a [] ↔ e ∈ g.getD a [] := by
  induction h with
  | nil => intro a e; simp
  | cons hp _ ih =>
    intro a e
    cases a with
    | zero => simpa using hp.mem_iff
    | succ k => simpa using ih k e

theorem isPath_congr (g1 g : VVE) (h : ∀ a e, e ∈ g1.getD a [] ↔ e ∈ g.getD a []) :
    ∀ (p : List Edge) (a b : Nat), IsPath g1 a p b ↔ IsPath g a p b := by
  intro p
  induction p with
  | nil => intro a b; rfl
  | cons e p ih =>
    intro a b
    simp only [IsPath, h a e, ih e.v b]

namespace Djikstra

/-- With non-negative weights the result is a function of the graph as a
family of edge multisets: two runs, on conforming queues of any kind and on
graphs with the same edges at every vertex, return the same. -/
theorem djikstra_congr (P1 P2 : PriorityQueue Node) (inv1 : P1.Q → Prop) (inv2 : P2.Q → Prop)
    (hP1 : LawfulPQ P1 priority inv1) (hP2 : LawfulPQ P2 priority inv2) (g1 g : VVE)
    (s t : Nat) (hg : ValidGraph g) (hnn : NonNeg g) (hs : s < g.length) (ht : t < g.length)
    (hlen : g1.length = g.length) (hmem : ∀ a e, e ∈ g1.getD a [] ↔ e ∈ g.getD a []) :
    djikstra P1 s t g1 = djikstra P2 s t g := by
  have hg1 : ValidGraph g1 := by
    rw [validGraph_iff, hlen]
    intro a e he
    exact (validGraph_iff g).1 hg a e ((hmem a e).1 he)
  have hnn1 : NonNeg g1 := by
    rw [nonNeg_iff]
    intro a e he
    exact (nonNeg_iff g).1 hnn a e ((hmem a e).1 he)
  have hpc := isPath_congr g1 g hmem
  by_cases hpath : ∃ p, IsPath g s p t
  · have hpath1 : ∃ p, IsPath g1 s p t := by
      obtain ⟨p, hp⟩ := hpath
      exact ⟨p, (hpc p s t).2 hp⟩
    obtain ⟨r, hr, ⟨p, hp, hpcost⟩, hmin⟩ := djikstra_min P2 inv2 hP2 s t g hg hnn hs ht hpath
    obtain ⟨r1, hr1, ⟨p1, hp1, hpcost1⟩, hmin1⟩ :=
      djikstra_min P1 inv1 hP1 s t g1 hg1 hnn1 (by omega) (by omega) hpath1
    have h1 : r1 ≤ r := by rw [← hpcost]; exact hmin1 p ((hpc p s t).2 hp)
    have h2 : r ≤ r1 := by rw [← hpcost1]; exact hmin p1 ((hpc p1 s t).1 hp1)
    rw [hr, hr1, le_antisymm h1 h2]
  · have hno1 : ¬ ∃ p, IsPath g1 s p t := by
      rintro ⟨p, hp⟩
      exact hpath ⟨p, (hpc p s t).1 hp⟩
    rw [djikstra_unreachable P2 priority inv2 hP2 s t g hg hs hpath,
      djikstra_unreachable P1 priority inv1 hP1 s t g1 hg1 (by omega) hno1]

/-- C18: with non-negative weights, all edge ends inside the graph and valid
`s`, `t`, the result of `djikstra` depends neither on which of several
equal-cost entries the queue yields first (the two runs may use any two
conforming queues) nor on the order of the edges within each vertex's edge
sequence. -/
theorem djikstra_order_independent (P1 P2 : PriorityQueue Node) (inv1 : P1.Q → Prop)
    (inv2 : P2.Q → Prop) (hP1 : LawfulPQ P1 priority inv1) (hP2 : LawfulPQ P2 priority inv2)
    (g1 g : VVE) (s t : Nat) (hg : ValidGraph g) (hnn : NonNeg g) (hs : s < g.length)
    (ht : t < g.length) (hperm : List.Forall₂ List.Perm g1 g) :
    djikstra P1 s t g1 = djikstra P2 s t g :=
  djikstra_congr P1 P2 inv1 inv2 hP1 hP2 g1 g s t hg hnn hs ht hperm.length_eq
    (mem_getD_of_perm g1 g hperm)

end Djikstra

theorem lawfulPQ_weaken {α : Type} (P : PriorityQueue α) (comp comp1 : α → α → Bool)
    (inv : P.Q → Prop) (h : LawfulPQ P comp inv)
    (hle : ∀ x y, comp x y = false → comp1 x y = false) : LawfulPQ P comp1 inv where
  inv_empty := h.inv_empty
  toList_empty := h.toList_empty
  inv_push := h.inv_push
  toList_push := h.toList_push
  pop_none := h.pop_none
  pop_some := fun q x q1 hq hp =>
    ⟨(h.pop_some q x q1 hq hp).1, (h.pop_some q x q1 hq hp).2.1,
      fun y hy => hle x y ((h.pop_some q x q1 hq hp).2.2 y hy)⟩

namespace Djikstra

theorem priorityByVertex_strictWeak : StrictWeak priorityByVertex := by
  refine ⟨?_, ?_⟩
  · intro a b h
    simp only [priorityByVertex, decide_eq_true_eq, decide_eq_false_iff_not] at h ⊢
    omega
  · intro a b c h1 h2
    simp only [priorityByVertex, decide_eq_false_iff_not] at h1 h2 ⊢
    omega

/-- The libstdc++ heap ordered by `priorityByVertex` is a conforming queue
for `priority`. -/
theorem stdHeap_byVertex_lawful :
    LawfulPQ (stdHeap priorityByVertex) priority
      (fun c => HeapOn priorityByVertex (List.length c) c) := by
  refine lawfulPQ_weaken _ priorityByVertex priority _
    (stdHeap_lawful priorityByVertex priorityByVertex_strictWeak) ?_
  intro x y h
  simp only [priorityByVertex, priority, decide_eq_false_iff_not] at h ⊢
  omega

/-- C18 on a graph with two equal-cost entries for vertices 1 and 2, with
the edges of vertex 0 swapped, one run breaking the tie as the libstdc++
heap does and the other by vertex number. -/
theorem djikstra_order_independent_witness :
    djikstra (stdHeap priority) 0 3 [[⟨2, ofLL 1⟩, ⟨1, ofLL 1⟩], [⟨3, ofLL 4⟩], [⟨3, ofLL 1⟩], []]
      = djikstra (stdHeap priorityByVertex) 0 3 [[⟨1, ofLL 1⟩, ⟨2, ofLL 1⟩], [⟨3, ofLL 4⟩], [⟨3, ofLL 1⟩], []] :=
  djikstra_order_independent (stdHeap priority) (stdHeap priorityByVertex) _ _
    (stdHeap_lawful priority priority_strictWeak) stdHeap_byVertex_lawful
    [[⟨2, ofLL 1⟩, ⟨1, ofLL 1⟩], [⟨3, ofLL 4⟩], [⟨3, ofLL 1⟩], []] [[⟨1, ofLL 1⟩, ⟨2, ofLL 1⟩], [⟨3, ofLL 4⟩], [⟨3, ofLL 1⟩], []] 0 3
    (by unfold ValidGraph; decide) (by unfold NonNeg; decide) (by decide) (by decide)
    (List.Forall₂.cons (List.Perm.swap _ _ _)
      (List.Forall₂.cons (List.Perm.refl _)
        (List.Forall₂.cons (List.Perm.refl _)
          (List.Forall₂.cons (List.Perm.refl _) List.Forall₂.nil))))

/-- C17: non-negative weights are needed. On the graph 0->1 (2), 0->2 (3),
2->1 (-2), with a negative edge, the least cost of a path from 0 to 1 is 1
(along 0->2->1), and `djikstra(0, 1, g)` returns normally with the value 2,
on every conforming priority queue. -/
theorem djikstra_negative_edge_not_least (P : PriorityQueue Node) (inv : P.Q → Prop)
    (hP : LawfulPQ P priority inv) :
    ValidGraph negGraph ∧
    ¬ NonNeg negGraph ∧
    (∃ p, IsPath negGraph 0 p 1 ∧ pathCost p = ofLL 1) ∧
    (∀ p, IsPath negGraph 0 p 1 → ofLL 1 ≤ pathCost p) ∧
    djikstra P 0 1 negGraph = .ok (ofLL 2) := by
  have hg : ValidGraph negGraph := by unfold ValidGraph; decide
  refine ⟨hg, by unfold NonNeg; decide, ⟨[⟨2, ofLL 3⟩, ⟨1, ofLL (-2)⟩], by decide, by decide⟩, ?_, ?_⟩
  · intro p hp
    have h0 : ∀ e : Edge, e ∈ negGraph.getD 0 [] → e = ⟨1, ofLL 2⟩ ∨ e = ⟨2, ofLL 3⟩ := by
      intro e he
      simpa [negGraph] using he
    have h1 : ∀ e : Edge, e ∉ negGraph.getD 1 [] := by
      intro e he
      simp [negGraph] at he
    have h2 : ∀ e : Edge, e ∈ negGraph.getD 2 [] → e = ⟨1, ofLL (-2)⟩ := by
      intro e he
      simpa [negGraph] using he
    match p, hp with
    | [], hp => simp [IsPath] at hp
    | [e], hp =>
      obtain ⟨he, hend⟩ := hp
      simp only [IsPath] at hend
      rcases h0 e he with rfl | rfl
      · decide
      · simp at hend
    | e :: e2 :: p, hp =>
      obtain ⟨he, he2, h3⟩ := hp
      rcases h0 e he with rfl | rfl
      · exact absurd he2 (h1 e2)
      · have := h2 e2 he2
        subst this
        match p, h3 with
        | [], _ => decide
        | e3 :: p, h3 => exact absurd h3.1 (h1 e3)
  · obtain ⟨hwf, _, hperm⟩ := init_wf P priority inv hP 0 negGraph
      (by decide)
    have hvis0 : (init P 0 negGraph).vis = [false, false, false] := rfl
    rcases step_cases P priority inv hP 1 _ hg _ hwf with
      ⟨hnil, _⟩ | ⟨cur, pq1, hinv1, hp1, hmin1, hc⟩
    · rw [hnil] at hperm
      exact absurd hperm.length_eq (by simp)
    · have hcur : cur = ⟨0, 0⟩ := by
        have : cur ∈ [(⟨0, 0⟩ : Node)] :=
          hperm.mem_iff.1 (hp1.mem_iff.2 (List.mem_cons_self _ _))
        simpa using this
      subst hcur
      have hq1 : P.toList pq1 = [] := by
        have := (hp1.symm.trans hperm).cons_inv
        exact this.eq_nil
      rw [hvis0] at hc
      rcases hc with ⟨hb, _⟩ | ⟨_, hct, _⟩ | ⟨_, _, pq2, hinv2, hp2, hstep⟩
      · simp at hb
      · simp at hct
      · have hpushed : pushed negGraph [false, false, false] ⟨0, 0⟩
            = [⟨1, ofLL 2⟩, ⟨2, ofLL 3⟩] := by decide
        rw [hpushed, hq1, List.append_nil] at hp2
        have hwf2 := (step_next_wf P priority inv hP 1 _ hg _ _ hwf hstep).1
        have hstep2 : step P 1 negGraph
            ⟨(init P 0 negGraph).dist.set 0 0,
              [true, false, false], pq2⟩ = .done (ofLL 2) := by
          rcases step_cases P priority inv hP 1 _ hg _ hwf2 with
            ⟨hnil, _⟩ | ⟨cur2, pq3, _, hp3, hmin3, hc3⟩
          · simp only at hnil
            rw [hnil] at hp2
            exact absurd hp2.length_eq (by simp)
          · simp only at hp3 hmin3 hc3
            have hmem : cur2 ∈ [(⟨1, ofLL 2⟩ : Node), ⟨2, ofLL 3⟩] :=
              hp2.mem_iff.1 (hp3.mem_iff.2 (List.mem_cons_self _ _))
            have hle := hmin3 ⟨1, ofLL 2⟩ (hp2.mem_iff.2 (by simp))
            simp only [priority, decide_eq_false_iff_not, not_lt] at hle
            have hcur2 : cur2 = ⟨1, ofLL 2⟩ := by
              simp only [List.mem_cons, List.mem_singleton, List.not_mem_nil, or_false] at hmem
              rcases hmem with h | h
              · exact h
              · rw [h] at hle; exact absurd hle (by decide)
            subst hcur2
            rcases hc3 with ⟨hb, _⟩ | ⟨_, _, h⟩ | ⟨_, hct, _⟩
            · simp at hb
            · exact h
            · simp at hct
        simp only [djikstra, fuelBound]
        have hs0 : (0 : Nat) < (negGraph : VVE).length := by decide
        rw [if_pos hs0]
        show runLoop _ (3 + 2) _ = _
        rw [runLoop, hstep]
        show runLoop _ (3 + 1)
          (⟨(init P 0 negGraph).dist.set 0 0,
            [true, false, false], pq2⟩ : State P) = _
        rw [runLoop, hstep2]

/-- C17 on the libstdc++ heap. -/
theorem djikstra_negative_edge_not_least_witness :
    djikstra (stdHeap priority) 0 1 negGraph = .ok (ofLL 2) :=
  (djikstra_negative_edge_not_least (stdHeap priority) _
    (stdHeap_lawful priority priority_strictWeak)).2.2.2.2

end Djikstra

/-! ## Prim: self-loops -/

namespace Prim

theorem pushEdges_append (P : PriorityQueue Edge) (vis : List Bool) (es2 : VE) :
    ∀ (es : VE) (pq : P.Q), pushEdges P vis (es ++ es2) pq =
      (pushEdges P vis es pq).bind (fun q => pushEdges P vis es2 q) := by
  intro es
  induction es with
  | nil => intro pq; rfl
  | cons e es ih =>
    intro pq
    simp only [List.cons_append, pushEdges]
    split
    · exact ih pq
    · exact ih _
    · rfl

/-- A self-loop at a vertex that is marked is not pushed. -/
theorem pushEdges_self (P : PriorityQueue Edge) (vis : List Bool) (u : Nat) (w : Int)
    (hu : vis[u]? = some true) (es : VE) (pq : P.Q) :
    pushEdges P vis (es ++ [⟨u, w⟩]) pq = pushEdges P vis es pq := by
  rw [pushEdges_append]
  cases pushEdges P vis es pq with
  | none => rfl
  | some q => simp only [Option.bind, pushEdges, hu]

/-- A self-loop never changes what one pass of the loop of `prim` does. -/
theorem prim_step_pushBack_self (P : PriorityQueue Edge) (g g1 : VVE) (u : Nat) (w : Int)
    (h : pushBack g u ⟨u, w⟩ = some g1) (st : State P) : step P g1 st = step P g st := by
  have hlen := pushBack_length g g1 u _ h
  simp only [step, hlen]
  split
  · cases hpop : P.pop? st.pq with
    | none => rfl
    | some xq =>
      obtain ⟨cur, pq1⟩ := xq
      simp only
      cases hv : st.vis[cur.v]? with
      | none => rfl
      | some b =>
        cases b with
        | true => rfl
        | false =>
          simp only
          rw [pushBack_getElem? g g1 u _ h cur.v]
          by_cases hcu : cur.v = u
          · rw [if_pos hcu]
            cases hgu : g[u]? with
            | none =>
              simp only [pushBack, hgu] at h
              cases h
            | some es =>
              have hgc : g[cur.v]? = some es := by rw [hcu]; exact hgu
              rw [hgc]
              simp only [Option.map_some']
              have hvu : (st.vis.set cur.v true)[u]? = some true := by
                rw [← hcu]
                exact (set_true_eq_true st.vis cur.v cur.v hv).2 (Or.inl rfl)
              rw [pushEdges_self P _ u w hvu]
          · rw [if_neg hcu]
  · rfl

/-- Appending a self-loop leaves the whole run of `prim` as it was. -/
theorem prim_pushBack_self (P : PriorityQueue Edge) (inv : P.Q → Prop)
    (hP : LawfulPQ P priority inv) (g g1 : VVE) (s u : Nat) (w : Int) (hg : ValidGraph g)
    (hs : s < g.length) (h : pushBack g u ⟨u, w⟩ = some g1) (cost0 : Int) :
    prim P cost0 s g1 = prim P cost0 s g := by
  have hlen := pushBack_length g g1 u _ h
  obtain ⟨r, _, hr, _⟩ := prim_returns_tree P priority inv hP cost0 s g hg hs
  rw [hr]
  have hgs : g[s]? = some g[s] := List.getElem?_eq_getElem hs
  simp only [prim, hgs] at hr
  have hinit : ∀ es1, g1[s]? = some es1 →
      pushEdges P ((List.replicate g.length false).set s true) es1 P.empty
        = pushEdges P ((List.replicate g.length false).set s true) g[s] P.empty := by
    intro es1 hes1
    rw [pushBack_getElem? g g1 u _ h s] at hes1
    by_cases hsu : s = u
    · subst hsu
      rw [if_pos rfl, hgs] at hes1
      simp only [Option.map_some', Option.some.injEq] at hes1
      rw [← hes1]
      exact pushEdges_self P _ s w (List.getElem?_set_self (by simpa using hs)) _ _
    · rw [if_neg hsu, hgs] at hes1
      injection hes1 with hes1
      rw [hes1]
  have hg1s : g1[s]? = some g1[s] := List.getElem?_eq_getElem (by omega)
  simp only [prim, hg1s, hlen, hinit _ hg1s, pushBack_fuelBound g g1 u _ h]
  cases hpq : pushEdges P ((List.replicate g.length false).set s true) g[s] P.empty with
  | none => rw [hpq] at hr; cases hr
  | some pq =>
    rw [hpq] at hr
    simp only at hr ⊢
    rw [Djikstra.runLoop_congr (step P g1) (step P g) (prim_step_pushBack_self P g g1 u w h)]
    exact runLoop_ok_succ _ r _ _ hr

/-- With all edge ends inside the graph and any weights, a self-loop at `u`,
appended once or twice (as `addEdge(u, u, w, g)` does), is never pushed:
every pass of the loop is the same with and without it, and so is what
`prim(s, ·)` returns when both runs are entered with the same content of the
accumulator. -/
theorem prim_self_loop_same_accumulator (P : PriorityQueue Edge) (inv : P.Q → Prop)
    (hP : LawfulPQ P priority inv) (g g1 g2 : VVE) (s u : Nat) (w w2 : Int) (hg : ValidGraph g)
    (hs : s < g.length) (h1 : pushBack g u ⟨u, w⟩ = some g1)
    (h2 : addEdge u u w2 g = some g2) (cost0 : Int) :
    (∀ st : State P, step P g1 st = step P g st) ∧
    (∀ st : State P, step P g2 st = step P g st) ∧
    prim P cost0 s g1 = prim P cost0 s g ∧ prim P cost0 s g2 = prim P cost0 s g := by
  have hul : u < g.length := by
    by_contra hn
    simp only [pushBack, List.getElem?_eq_none (Nat.le_of_not_lt hn)] at h1
    cases h1
  obtain ⟨g3, h3⟩ : ∃ g3, pushBack g u ⟨u, ofLL w2⟩ = some g3 := by
    simp only [pushBack, List.getElem?_eq_getElem hul]; exact ⟨_, rfl⟩
  have h32 : pushBack g3 u ⟨u, ofLL w2⟩ = some g2 := by
    simp only [addEdge, h3] at h2
    exact h2
  have hlen := pushBack_length g g3 u _ h3
  have hg3 : ValidGraph g3 := pushBack_valid g g3 u _ h3 hg hul
  refine ⟨prim_step_pushBack_self P g g1 u w h1, ?_,
    prim_pushBack_self P inv hP g g1 s u w hg hs h1 cost0, ?_⟩
  · intro st
    rw [prim_step_pushBack_self P g3 g2 u _ h32, prim_step_pushBack_self P g g3 u _ h3]
  · rw [prim_pushBack_self P inv hP g3 g2 s u _ hg3 (by omega) h32 cost0,
      prim_pushBack_self P inv hP g g3 s u _ hg hs h3 cost0]

/-- C11: on the graph of `main`, with the self-loop `(1, -3)` appended to the
edge sequence of vertex 1, once, or twice as `addEdge(1, 1, -3, g)` does, and
without it, `prim(0, ·)` returns the value its accumulator started with, with
1, 1 and 2 added to it: the self-loop is never accepted and contributes
nothing.  The source never initializes `cost`, so the two calls return the
same number only if they find the same value there: entered with 7 the call
on the graph with the self-loop returns 11, entered with 0 the call on the
graph of `main` returns 4. -/
theorem prim_self_loop_returns_accumulator_plus_four :
    addEdge 1 1 (-3) mainGraph
      = some (mainGraph.set 1 (mainGraph.getD 1 [] ++ [⟨1, ofLL (-3)⟩, ⟨1, ofLL (-3)⟩])) ∧
    (∀ cost0 : Int,
      prim (stdHeap priority) cost0 0
          (mainGraph.set 1 (mainGraph.getD 1 [] ++ [⟨1, ofLL (-3)⟩]))
        = .ok (dadd (dadd (dadd cost0 (ofLL 1)) (ofLL 1)) (ofLL 2)) ∧
      prim (stdHeap priority) cost0 0
          (mainGraph.set 1 (mainGraph.getD 1 [] ++ [⟨1, ofLL (-3)⟩, ⟨1, ofLL (-3)⟩]))
        = .ok (dadd (dadd (dadd cost0 (ofLL 1)) (ofLL 1)) (ofLL 2)) ∧
      prim (stdHeap priority) cost0 0 mainGraph
        = .ok (dadd (dadd (dadd cost0 (ofLL 1)) (ofLL 1)) (ofLL 2))) ∧
    prim (stdHeap priority) (ofLL 7) 0
        (mainGraph.set 1 (mainGraph.getD 1 [] ++ [⟨1, ofLL (-3)⟩])) = .ok (ofLL 11) ∧
    prim (stdHeap priority) 0 0 mainGraph = .ok (ofLL 4) ∧
    ofLL 11 ≠ ofLL 4 := by
  have hg : ValidGraph mainGraph := by rw [mainGraph_eq]; unfold ValidGraph; decide
  have hadd : addEdge 1 1 (-3) mainGraph
      = some (mainGraph.set 1 (mainGraph.getD 1 [] ++ [⟨1, ofLL (-3)⟩, ⟨1, ofLL (-3)⟩])) := by
    decide
  have h1 : pushBack mainGraph 1 ⟨1, ofLL (-3)⟩
      = some (mainGraph.set 1 (mainGraph.getD 1 [] ++ [⟨1, ofLL (-3)⟩])) := by decide
  refine ⟨hadd, ?_, by decide, by decide, by decide⟩
  intro cost0
  obtain ⟨_, _, e1, e2⟩ := prim_self_loop_same_accumulator (stdHeap priority) _
    (stdHeap_lawful priority prim_priority_strictWeak) mainGraph _ _ 0 1 (ofLL (-3)) (-3) hg
    (by decide) h1 hadd cost0
  exact ⟨by rw [e1]; exact prim_mainGraph_accumulates cost0,
    by rw [e2]; exact prim_mainGraph_accumulates cost0, prim_mainGraph_accumulates cost0⟩

end Prim

/-! ## Djikstra with weights of any sign: the result is the cost of a simple path -/

namespace Djikstra

end Djikstra

/-! ## A vertex is finalized at most once -/

/-- Along a run in which every observation marks a fresh flag and nothing
else changes the flags, no flag is observed twice, and none that was set
at the start. -/
theorem runTrace_fresh {σ α : Type} (step : σ → Step σ) (obs : σ → Option α)
    (V : σ → List Bool) (key : α → Nat)
    (hobs : ∀ s a, obs s = some a → (V s)[key a]? = some false)
    (hstep : ∀ s s1, step s = .next s1 →
      (obs s = none ∧ V s1 = V s) ∨ ∃ a, obs s = some a ∧ V s1 = (V s).set (key a) true) :
    ∀ (n : Nat) (s : σ), ((runTrace step obs n s).map key).Nodup ∧
      ∀ y ∈ (runTrace step obs n s).map key, (V s)[y]? = some false := by
  intro n
  induction n with
  | zero => intro s; simp [runTrace]
  | succ k ih =>
    intro s
    have hone : ((obs s).toList.map key).Nodup ∧
        ∀ y ∈ (obs s).toList.map key, (V s)[y]? = some false := by
      cases ho : obs s with
      | none => simp
      | some a =>
        simp only [Option.toList, List.map_cons, List.map_nil, List.nodup_singleton,
          List.mem_singleton, true_and]
        intro y hy
        rw [hy]
        exact hobs s a ho
    rw [runTrace]
    cases hs : step s with
    | done r => exact hone
    | fault => exact hone
    | next s1 =>
      simp only
      obtain ⟨hnd, hfalse⟩ := ih s1
      rcases hstep s s1 hs with ⟨ho, hV⟩ | ⟨a, ho, hV⟩
      · rw [ho]
        simp only [Option.toList, List.nil_append]
        rw [hV] at hfalse
        exact ⟨hnd, hfalse⟩
      · rw [ho]
        simp only [Option.toList, List.singleton_append, List.map_cons, List.nodup_cons,
          List.mem_cons]
        have hka := hobs s a ho
        rw [hV] at hfalse
        refine ⟨⟨?_, hnd⟩, ?_⟩
        · intro hin
          have := (set_true_eq_false (V s) (key a) (key a) hka).1 (hfalse _ hin)
          exact this.1 rfl
        · intro y hy
          rcases hy with h | h
          · rw [h]; exact hka
          · exact ((set_true_eq_false (V s) (key a) y hka).1 (hfalse y h)).2

theorem length_le_of_nodup_lt (l : List Nat) (N : Nat) (hnd : l.Nodup) (hlt : ∀ y ∈ l, y < N) :
    l.length ≤ N := by
  have h := (List.subperm_of_subset hnd (fun y hy => List.mem_range.2 (hlt y hy))).length_le
  simpa using h

namespace Djikstra

theorem finalizes_unvisited (P : PriorityQueue Node) (st : State P) (a : Node)
    (h : finalizes P st = some a) : st.vis[a.v]? = some false := by
  simp only [finalizes] at h
  cases hpop : P.pop? st.pq with
  | none => rw [hpop] at h; cases h
  | some xq =>
    obtain ⟨cur, pq1⟩ := xq
    rw [hpop] at h
    simp only at h
    cases hv : st.vis[cur.v]? with
    | none => rw [hv] at h; cases h
    | some b =>
      cases b with
      | true => rw [hv] at h; cases h
      | false =>
        rw [hv] at h
        injection h with h
        rw [← h]; exact hv

/-- One pass either leaves the flags alone or sets the flag of the vertex it
finalizes. -/
theorem step_vis (P : PriorityQueue Node) (t : Nat) (g : VVE) (st st1 : State P)
    (h : step P t g st = .next st1) :
    (finalizes P st = none ∧ st1.vis = st.vis) ∨
      ∃ a, finalizes P st = some a ∧ st1.vis = st.vis.set a.v true := by
  simp only [step] at h
  simp only [finalizes]
  cases hpop : P.pop? st.pq with
  | none => rw [hpop] at h; cases h
  | some xq =>
    obtain ⟨cur, pq1⟩ := xq
    rw [hpop] at h
    simp only at h ⊢
    cases hv : st.vis[cur.v]? with
    | none => rw [hv] at h; cases h
    | some b =>
      cases b with
      | true =>
        rw [hv] at h
        injection h with h
        left
        exact ⟨rfl, by rw [← h]⟩
      | false =>
        rw [hv] at h
        simp only at h
        right
        refine ⟨cur, rfl, ?_⟩
        split at h
        · cases h
        · cases hg : g[cur.v]? with
          | none => rw [hg] at h; cases h
          | some es =>
            rw [hg] at h
            simp only at h
            cases hr : relax P (st.dist.set cur.v cur.c) (st.vis.set cur.v true) cur.v es pq1 with
            | none => rw [hr] at h; cases h
            | some pq2 =>
              rw [hr] at h
              injection h with h
              rw [← h]

end Djikstra

namespace Prim

theorem accepts_unvisited (P : PriorityQueue Edge) (g : VVE) (st : State P) (a : Edge)
    (h : accepts P g st = some a) : st.vis[a.v]? = some false := by
  simp only [accepts] at h
  split at h
  · cases hpop : P.pop? st.pq with
    | none => rw [hpop] at h; cases h
    | some xq =>
      obtain ⟨cur, pq1⟩ := xq
      rw [hpop] at h
      simp only at h
      cases hv : st.vis[cur.v]? with
      | none => rw [hv] at h; cases h
      | some b =>
        cases b with
        | true => rw [hv] at h; cases h
        | false =>
          rw [hv] at h
          injection h with h
          rw [← h]; exact hv
  · cases h

/-- One pass either leaves the flags alone or sets the flag of the end of
the edge it accepts. -/
theorem prim_step_vis (P : PriorityQueue Edge) (g : VVE) (st st1 : State P)
    (h : step P g st = .next st1) :
    (accepts P g st = none ∧ st1.vis = st.vis) ∨
      ∃ a, accepts P g st = some a ∧ st1.vis = st.vis.set a.v true := by
  simp only [step] at h
  simp only [accepts]
  split at h
  · rename_i hi
    rw [if_pos hi]
    cases hpop : P.pop? st.pq with
    | none => rw [hpop] at h; cases h
    | some xq =>
      obtain ⟨cur, pq1⟩ := xq
      rw [hpop] at h
      simp only at h ⊢
      cases hv : st.vis[cur.v]? with
      | none => rw [hv] at h; cases h
      | some b =>
        cases b with
        | true =>
          rw [hv] at h
          injection h with h
          left
          exact ⟨rfl, by rw [← h]⟩
        | false =>
          rw [hv] at h
          simp only at h
          right
          refine ⟨cur, rfl, ?_⟩
          cases hg : g[cur.v]? with
          | none => rw [hg] at h; cases h
          | some es =>
            rw [hg] at h
            simp only at h
            cases hr : pushEdges P (st.vis.set cur.v true) es pq1 with
            | none => rw [hr] at h; cases h
            | some pq2 =>
              rw [hr] at h
              injection h with h
              rw [← h]
  · cases h

end Prim

/-- C15: in every run of `djikstra(s, t, g)` and of `prim(s, g)`, on any
queue and any graph, a flag that is set stays set, a vertex that is
finalized was unvisited just before, and so the sequence of finalized
vertices (with the start vertex in front for `prim`) has no vertex twice and
at most `N` members, however many passes are made. -/
theorem finalized_at_most_once (P : PriorityQueue Djikstra.Node) (P1 : PriorityQueue Edge)
    (g : VVE) (s t : Nat) (cost0 : Int) (n : Nat) :
    (∀ (st st1 : Djikstra.State P) (v : Nat), Djikstra.step P t g st = .next st1 →
      st.vis[v]? = some true → st1.vis[v]? = some true) ∧
    (∀ (st st1 : Prim.State P1) (v : Nat), Prim.step P1 g st = .next st1 →
      st.vis[v]? = some true → st1.vis[v]? = some true) ∧
    (∀ (st : Djikstra.State P) (a : Djikstra.Node), Djikstra.finalizes P st = some a →
      st.vis[a.v]? = some false) ∧
    (∀ (st : Prim.State P1) (a : Edge), Prim.accepts P1 g st = some a →
      st.vis[a.v]? = some false) ∧
    ((Djikstra.finalized P s t g n).map Djikstra.Node.v).Nodup ∧
    (Djikstra.finalized P s t g n).length ≤ g.length ∧
    (Prim.finalized P1 cost0 s g n).Nodup ∧
    (Prim.finalized P1 cost0 s g n).length ≤ g.length := by
  have hD := runTrace_fresh (Djikstra.step P t g) (Djikstra.finalizes P)
    (fun st => st.vis) Djikstra.Node.v (Djikstra.finalizes_unvisited P)
    (Djikstra.step_vis P t g)
  have hP := runTrace_fresh (Prim.step P1 g) (Prim.accepts P1 g)
    (fun st => st.vis) Edge.v (Prim.accepts_unvisited P1 g) (Prim.prim_step_vis P1 g)
  refine ⟨?_, ?_, Djikstra.finalizes_unvisited P, Prim.accepts_unvisited P1 g, ?_, ?_, ?_⟩
  · intro st st1 v hs hv
    rcases Djikstra.step_vis P t g st st1 hs with ⟨_, h⟩ | ⟨a, ha, h⟩
    · rw [h]; exact hv
    · rw [h]
      exact (set_true_eq_true st.vis a.v v (Djikstra.finalizes_unvisited P st a ha)).2 (Or.inr hv)
  · intro st st1 v hs hv
    rcases Prim.prim_step_vis P1 g st st1 hs with ⟨_, h⟩ | ⟨a, ha, h⟩
    · rw [h]; exact hv
    · rw [h]
      exact (set_true_eq_true st.vis a.v v (Prim.accepts_unvisited P1 g st a ha)).2 (Or.inr hv)
  · exact (hD n (Djikstra.init P s g)).1
  · obtain ⟨hnd, hfalse⟩ := hD n (Djikstra.init P s g)
    have := length_le_of_nodup_lt _ g.length hnd (fun y hy => by
      have h := lt_of_getElem?_eq_some _ _ _ (hfalse y hy)
      simpa [Djikstra.init] using h)
    simpa [Djikstra.finalized] using this
  · have key : (Prim.finalized P1 cost0 s g n).Nodup ∧
        ∀ y ∈ Prim.finalized P1 cost0 s g n, y < g.length := by
      simp only [Prim.finalized]
      cases hgs : g[s]? with
      | none => simp
      | some es =>
        have hs : s < g.length := lt_of_getElem?_eq_some _ _ _ hgs
        simp only
        cases hpq : Prim.pushEdges P1 ((List.replicate g.length false).set s true) es P1.empty with
        | none => simp [hs]
        | some pq =>
          simp only
          obtain ⟨hnd, hfalse⟩ := hP n ⟨cost0, (List.replicate g.length false).set s true, pq, 0⟩
          simp only at hfalse
          refine ⟨List.nodup_cons.2 ⟨?_, hnd⟩, ?_⟩
          · intro hin
            have h1 := hfalse s hin
            rw [List.getElem?_set_self (by simpa using hs)] at h1
            cases h1
          · intro y hy
            rcases List.mem_cons.1 hy with h | h
            · rw [h]; exact hs
            · have h1 := lt_of_getElem?_eq_some _ _ _ (hfalse y h)
              simpa using h1
    exact ⟨key.1, length_le_of_nodup_lt _ g.length key.1 key.2⟩

/-! ## Djikstra: the costs at which vertices are finalized -/

namespace Djikstra

end Djikstra
